import Mathlib

/-!
Hashira: secret reconstruction over a from-scratch big integer

A shallow embedding of `src/solved.cpp`.

* `std::string` is modelled as `List Char` (the sequence of its characters);
  string comparison is the lexicographic comparison of character codes.
* C++ `int` is modelled as `Int` (all machine integers of the program stay
  far below the overflow range: they are digit sums, carries and indices);
  `/` and `%` on `int` truncate toward zero, hence `Int.tdiv` and `Int.tmod`.
* A thrown `std::runtime_error` is modelled as `Except.error`.
* Loops that walk a string from its last character to its first are
  modelled as recursion over the reversed list.
-/

namespace Hashira

/-! ## Data model -/

/-- A share as read from the input document: `x` is the key of the entry,
`y` the encoded value and `base` the base of the encoding. -/
structure Share where
  x : List Char
  y : List Char
  base : Int
deriving DecidableEq, Repr

/-- The exceptions of the program, one constructor per message of a
`throw std::runtime_error(...)`. `nonTermination` is not an exception of the
program: it marks a `while` loop of `divide` that did not finish within the
iteration bound of the model (`whileFuel`). -/
inductive Error where
  | divisionByZero
  | invalidBase
  | invalidCharacter
  | invalidDigit
  | nonTermination
deriving DecidableEq, Repr

/-- The class `BigInt`: a digit string and a sign flag. -/
structure BigInt where
  value : List Char
  is_negative : Bool
deriving DecidableEq, Repr

/-! ## Character and string helpers -/

/-- The C++ expression `c - '0'` on `int`. -/
def digitOf (c : Char) : Int := (c.toNat : Int) - 48

/-- The function `std::to_string` on `int`. -/
def to_string (n : Int) : List Char :=
  if n < 0 then '-' :: Nat.toDigits 10 n.natAbs else Nat.toDigits 10 n.toNat

/-- The conversion of an `int` in the character range to `char`, as done by
`result.push_back(sub + '0')`. -/
def charOfInt (n : Int) : Char := Char.ofNat n.toNat

/-- The comparison `s1 < s2` of `std::string`: lexicographic on character
codes, a proper prefix being smaller. -/
def strLt : List Char → List Char → Bool
  | [], [] => false
  | [], _ :: _ => true
  | _ :: _, [] => false
  | a :: as, b :: bs =>
    if a.toNat < b.toNat then true
    else if b.toNat < a.toNat then false
    else strLt as bs

/-- The static member `BigInt::removeLeadingZeros`: `find_first_not_of('0')`
followed by `substr`; a string of zeros only (also the empty one) gives
`"0"`. -/
def removeLeadingZeros (s : List Char) : List Char :=
  match s.dropWhile (fun c => c == '0') with
  | [] => ['0']
  | c :: r => c :: r

/-- The constructor `BigInt::BigInt(std::string val, bool neg)`. -/
def BigInt.new (val : List Char) (neg : Bool) : BigInt :=
  let value := if val.isEmpty then ['0'] else removeLeadingZeros val
  { value := value, is_negative := if value = ['0'] then false else neg }

/-- The member `BigInt::operator<`. -/
def BigInt.operatorLt (a other : BigInt) : Bool :=
  if a.is_negative != other.is_negative then a.is_negative
  else if a.value.length ≠ other.value.length then
    (decide (a.value.length < other.value.length)) != a.is_negative
  else (strLt a.value other.value) != a.is_negative

/-- The member `BigInt::operator==`. -/
def BigInt.operatorEq (a other : BigInt) : Bool :=
  a.value == other.value && a.is_negative == other.is_negative

/-- The static member `BigInt::compareUnsigned`. -/
def compareUnsigned (s1 s2 : List Char) : Int :=
  if s1.length > s2.length then 1
  else if s1.length < s2.length then -1
  else if strLt s2 s1 then 1
  else if strLt s1 s2 then -1
  else 0

/-! ## Addition and subtraction of digit strings -/

/-- The loop of `addStrings` once both strings are used up: it runs while
`carry` is non-zero. Each round divides `carry` by ten, so `carry.natAbs`
rounds are enough; the first argument counts them down. -/
def carryLoop : Nat → Int → List Char → List Char
  | 0, _, result => result
  | fuel + 1, carry, result =>
    if carry = 0 then result
    else carryLoop fuel (carry.tdiv 10) (result ++ to_string (carry.tmod 10))

/-- The loop of `addStrings` once one of the two strings is used up: `r` is
the rest of the other one, last character first. -/
def addRest : List Char → Int → List Char → List Char
  | [], carry, result => carryLoop carry.natAbs carry result
  | c :: r, carry, result =>
    let sum := carry + digitOf c
    addRest r (sum.tdiv 10) (result ++ to_string (sum.tmod 10))

/-- The loop of `addStrings` on the two strings, last character first. -/
def addLoop : List Char → List Char → Int → List Char → List Char
  | c1 :: r1, c2 :: r2, carry, result =>
    let sum := carry + digitOf c1 + digitOf c2
    addLoop r1 r2 (sum.tdiv 10) (result ++ to_string (sum.tmod 10))
  | [], r2, carry, result => addRest r2 carry result
  | c1 :: r1, [], carry, result => addRest (c1 :: r1) carry result

/-- The private static member `BigInt::addStrings`. -/
def addStrings (s1 s2 : List Char) : List Char :=
  (addLoop s1.reverse s2.reverse 0 []).reverse

/-- The second loop of `subtractStrings` (`i` from `n2` to `n1 - 1`): `l` is
the rest of the larger string, last character first. -/
def subRest : List Char → Int → List Char → List Char
  | [], _, result => result
  | c :: l, carry, result =>
    let sub := digitOf c - carry
    if sub < 0 then subRest l 1 (result ++ [charOfInt (sub + 10 + 48)])
    else subRest l 0 (result ++ [charOfInt (sub + 48)])

/-- The first loop of `subtractStrings` (`i` from `0` to `n2 - 1`) followed by
the second. Both strings are given last character first. The source assumes
that the first string is at least as long as the second; where it is
shorter the source reads past its end, and the model stops. -/
def subLoop : List Char → List Char → Int → List Char → List Char
  | c1 :: l, c2 :: s, carry, result =>
    let sub := digitOf c1 - digitOf c2 - carry
    if sub < 0 then subLoop l s 1 (result ++ [charOfInt (sub + 10 + 48)])
    else subLoop l s 0 (result ++ [charOfInt (sub + 48)])
  | l, [], carry, result => subRest l carry result
  | [], _ :: _, _, result => result

/-- The private static member `BigInt::subtractStrings`. -/
def subtractStrings (s1 s2 : List Char) : List Char :=
  removeLeadingZeros (subLoop s1.reverse s2.reverse 0 []).reverse

/-- The member `BigInt::add`. -/
def BigInt.add (a other : BigInt) : BigInt :=
  if a.is_negative = other.is_negative then
    BigInt.new (addStrings a.value other.value) a.is_negative
  else
    let cmp := compareUnsigned a.value other.value
    if cmp = 0 then BigInt.new ['0'] false
    else
      let result :=
        if cmp > 0 then subtractStrings a.value other.value
        else subtractStrings other.value a.value
      let result_negative := if cmp > 0 then a.is_negative else other.is_negative
      BigInt.new result result_negative

/-- The member `BigInt::subtract`: the sign flag of a copy of `other` is
flipped in place (no constructor runs), then `add`. -/
def BigInt.subtract (a other : BigInt) : BigInt :=
  let temp : BigInt := { value := other.value, is_negative := !other.is_negative }
  a.add temp

/-! ## Multiplication -/

/-- One round of the inner loop of `multiply`: the state is the array
`result`, `carry` and the index `i_n2`. -/
def mulInnerStep (n1 : Int) (i_n1 : Nat) (st : List Int × Int × Nat) (c : Char) :
    List Int × Int × Nat :=
  let n2 := digitOf c
  let sum := n1 * n2 + st.1.getD (i_n1 + st.2.2) 0 + st.2.1
  (st.1.set (i_n1 + st.2.2) (sum.tmod 10), sum.tdiv 10, st.2.2 + 1)

/-- One round of the outer loop of `multiply`: the state is the array
`result` and the index `i_n1`. -/
def mulOuterStep (s2 : List Char) (st : List Int × Nat) (c : Char) : List Int × Nat :=
  let n1 := digitOf c
  let inner := s2.reverse.foldl (mulInnerStep n1 st.2) (st.1, 0, 0)
  let result :=
    if inner.2.1 > 0 then
      inner.1.set (st.2 + inner.2.2) (inner.1.getD (st.2 + inner.2.2) 0 + inner.2.1)
    else inner.1
  (result, st.2 + 1)

/-- The array `result` of `multiply` after its two nested loops: least
significant cell first, `s1.length() + s2.length()` cells. -/
def mulArray (s1 s2 : List Char) : List Int :=
  (s1.reverse.foldl (mulOuterStep s2) (List.replicate (s1.length + s2.length) 0, 0)).1

/-- The string built from the cells of the array, most significant first,
one `std::to_string` per cell. -/
def cellsToString : List Int → List Char
  | [] => []
  | d :: ds => to_string d ++ cellsToString ds

/-- The member `BigInt::multiply`. -/
def BigInt.multiply (a other : BigInt) : BigInt :=
  if a.value = ['0'] ∨ other.value = ['0'] then BigInt.new ['0'] false
  else
    match (mulArray a.value other.value).reverse.dropWhile (fun d => d == 0) with
    | [] => BigInt.new ['0'] false
    | d :: ds => BigInt.new (cellsToString (d :: ds)) (a.is_negative != other.is_negative)

/-! ## Division -/

/-- The value of a string read as a decimal number, a character `c`
counting as `c - '0'` (as a natural number). -/
def decimalValue (s : List Char) : Nat :=
  s.foldl (fun acc c => 10 * acc + (digitOf c).toNat) 0

/-- The iteration bound of the inner `while` loop of `divide` in the model:
every round subtracts the divisor from `current_dividend`, so the loop cannot
run more often than the value of `current_dividend` says. -/
def whileFuel (current_dividend : BigInt) : Nat :=
  decimalValue current_dividend.value + 1

/-- The inner `while` loop of `divide`; `none` when the iteration bound is
used up. -/
def divLoop : Nat → BigInt → BigInt → Int → Option (BigInt × Int)
  | 0, _, _, _ => none
  | fuel + 1, current_dividend, abs_divisor, count =>
    if compareUnsigned current_dividend.value abs_divisor.value ≥ 0 then
      divLoop fuel (current_dividend.subtract abs_divisor) abs_divisor (count + 1)
    else some (current_dividend, count)

/-- The `for` loop of `divide` over the characters of the dividend. -/
def divDigits (abs_divisor : BigInt) : List Char → BigInt → List Char → Except Error (List Char)
  | [], _, quotient_str => .ok quotient_str
  | digit_char :: rest, current_dividend, quotient_str =>
    let cur := (current_dividend.multiply (BigInt.new ['1', '0'] false)).add
      (BigInt.new [digit_char] false)
    match divLoop (whileFuel cur) cur abs_divisor 0 with
    | none => .error .nonTermination
    | some (cur2, count) => divDigits abs_divisor rest cur2 (quotient_str ++ to_string count)

/-- The member `BigInt::divide`. -/
def BigInt.divide (a other : BigInt) : Except Error BigInt :=
  if other.value = ['0'] then .error .divisionByZero
  else
    let result_is_negative := a.is_negative != other.is_negative
    let abs_dividend := if a.is_negative then BigInt.new a.value false else a
    let abs_divisor := if other.is_negative then BigInt.new other.value false else other
    if compareUnsigned abs_dividend.value abs_divisor.value < 0 then .ok (BigInt.new ['0'] false)
    else
      match divDigits abs_divisor abs_dividend.value (BigInt.new ['0'] false) [] with
      | .error e => .error e
      | .ok quotient_str => .ok (BigInt.new quotient_str result_is_negative)

/-! ## Base conversion -/

/-- The `for` loop of `fromBase`, over the characters of `val` from the last
to the first. -/
def fromBaseLoop (base : Int) (b : BigInt) : List Char → BigInt → BigInt → Except Error BigInt
  | [], result, _ => .ok result
  | c :: rest, result, power_of_base =>
    if 48 ≤ c.toNat ∧ c.toNat ≤ 57 then
      let digit : Int := (c.toNat : Int) - 48
      if digit ≥ base then .error .invalidDigit
      else fromBaseLoop base b rest
        (result.add (power_of_base.multiply (BigInt.new (to_string digit) false)))
        (power_of_base.multiply b)
    else if 97 ≤ c.toNat ∧ c.toNat ≤ 122 then
      let digit : Int := (c.toNat : Int) - 97 + 10
      if digit ≥ base then .error .invalidDigit
      else fromBaseLoop base b rest
        (result.add (power_of_base.multiply (BigInt.new (to_string digit) false)))
        (power_of_base.multiply b)
    else .error .invalidCharacter

/-- The static member `BigInt::fromBase`. -/
def BigInt.fromBase (val : List Char) (base : Int) : Except Error BigInt :=
  if base < 2 ∨ base > 36 then .error .invalidBase
  else
    fromBaseLoop base (BigInt.new (to_string base) false) val.reverse
      (BigInt.new ['0'] false) (BigInt.new ['1'] false)

/-! ## Combinations -/

/-- The function `generateCombinations`, for any type of items (the source
uses it on shares). `all_combinations` is threaded through; the `for` loop
runs over `i = start_index, ..., size - k`, which are
`size + 1 - k - start_index` indices when that number is positive, and none
otherwise. The index `i` is always in range there. -/
def generateCombinations {α : Type} (all_shares : List α) :
    Nat → Nat → List α → List (List α) → List (List α)
  | _, 0, current_combination, all_combinations =>
    all_combinations ++ [current_combination]
  | start_index, k + 1, current_combination, all_combinations =>
    (List.range' start_index (all_shares.length + 1 - (k + 1) - start_index)).foldl
      (fun acc i =>
        match all_shares[i]? with
        | some s => generateCombinations all_shares (i + 1) k (current_combination ++ [s]) acc
        | none => acc)
      all_combinations

/-! ## Reconstruction of the secret -/

/-- The first loop of `findSecret`: the vectors `x_vals` and `y_vals`. -/
def decodeShares : List Share → Except Error (List BigInt × List BigInt)
  | [] => .ok ([], [])
  | s :: rest =>
    match BigInt.fromBase s.y s.base with
    | .error e => .error e
    | .ok y =>
      match decodeShares rest with
      | .error e => .error e
      | .ok (xs, ys) => .ok (BigInt.new s.x false :: xs, y :: ys)

/-- One round of the inner loop of `findSecret` for one `j`: the state is the
pair `(numerator, denominator)`. -/
def lagrangeStep (x_vals : List BigInt) (j : Nat) (nd : BigInt × BigInt) (i : Nat) :
    BigInt × BigInt :=
  if i ≠ j then
    (nd.1.multiply ((BigInt.new ['0'] false).subtract (x_vals.getD i (BigInt.new ['0'] false))),
     nd.2.multiply ((x_vals.getD j (BigInt.new ['0'] false)).subtract
       (x_vals.getD i (BigInt.new ['0'] false))))
  else nd

/-- The inner loop of `findSecret` for one `j`: the pair
`(numerator, denominator)` after the rounds `i` in `is`. -/
def lagrangeProducts (x_vals : List BigInt) (j : Nat) (is : List Nat) : BigInt × BigInt :=
  is.foldl (lagrangeStep x_vals j) (BigInt.new ['1'] false, BigInt.new ['1'] false)

/-- The outer loop of `findSecret` over the rounds `j` in `js`, starting from
the value `secret`. -/
def sumTerms (x_vals y_vals : List BigInt) (k : Nat) : List Nat → BigInt → Except Error BigInt
  | [], secret => .ok secret
  | j :: js, secret =>
    let y_j := y_vals.getD j (BigInt.new ['0'] false)
    let nd := lagrangeProducts x_vals j (List.range k)
    match (y_j.multiply nd.1).divide nd.2 with
    | .error e => .error e
    | .ok term => sumTerms x_vals y_vals k js (secret.add term)

/-- The function `findSecret`. -/
def findSecret (shares : List Share) : Except Error BigInt :=
  match decodeShares shares with
  | .error e => .error e
  | .ok (x_vals, y_vals) =>
    sumTerms x_vals y_vals shares.length (List.range shares.length) (BigInt.new ['0'] false)

/-! ## Consensus (the body of one test run of `main`) -/

/-- The statement `secret_counts[key]++` on a `std::map<std::string, int>`,
kept as a list of entries sorted by key. -/
def mapIncrement : List (List Char × Int) → List Char → List (List Char × Int)
  | [], key => [(key, 1)]
  | (k, n) :: rest, key =>
    if key = k then (k, n + 1) :: rest
    else if strLt key k then (key, 1) :: (k, n) :: rest
    else (k, n) :: mapIncrement rest key

/-- The tally loop of `main`: one `findSecret` per combination, counted under
the key `secret.value`. -/
def tally : List (List Share) → List (List Char × Int) → Except Error (List (List Char × Int))
  | [], secret_counts => .ok secret_counts
  | combo :: rest, secret_counts =>
    match findSecret combo with
    | .error e => .error e
    | .ok secret => tally rest (mapIncrement secret_counts secret.value)

/-- The selection loop of `main` over the entries of `secret_counts` in key
order: the state is `(correct_secret_str, max_count)`. -/
def selectMax (secret_counts : List (List Char × Int)) : List Char × Int :=
  secret_counts.foldl (fun st pair => if pair.2 > st.2 then (pair.1, pair.2) else st) ([], 0)

/-- The second loop of `main` over the combinations: the keys of
`keys_in_good_combos`, in the order they are set. -/
def goodKeys (correct_secret_str : List Char) :
    List (List Share) → List (List Char) → Except Error (List (List Char))
  | [], keys => .ok keys
  | combo :: rest, keys =>
    match findSecret combo with
    | .error e => .error e
    | .ok secret =>
      if secret.value = correct_secret_str then
        goodKeys correct_secret_str rest (keys ++ combo.map (fun share => share.x))
      else goodKeys correct_secret_str rest keys

/-- The last loop of `main`: the ids printed after `Incorrect Key(s):`. -/
def badKeys (all_shares : List Share) (keys_in_good_combos : List (List Char)) :
    List (List Char) :=
  (all_shares.filter (fun share => !(keys_in_good_combos.contains share.x))).map
    (fun share => share.x)

/-- One test run of `main` after `parseJSON`: the printed secret and the
printed incorrect keys, or the exception caught by the `catch` block. -/
def consensus (all_shares : List Share) (k : Nat) :
    Except Error (List Char × List (List Char)) :=
  let all_combinations := generateCombinations all_shares 0 k [] []
  match tally all_combinations [] with
  | .error e => .error e
  | .ok secret_counts =>
    let correct_secret_str := (selectMax secret_counts).1
    match goodKeys correct_secret_str all_combinations [] with
    | .error e => .error e
    | .ok keys => .ok (correct_secret_str, badKeys all_shares keys)

/-! ## Vocabulary of the specification -/

/-- A decimal digit character, `'0'` to `'9'`. -/
def IsDigit (c : Char) : Prop := 48 ≤ c.toNat ∧ c.toNat ≤ 57

instance (c : Char) : Decidable (IsDigit c) := by
  unfold IsDigit; infer_instance

/-- A string of decimal digit characters (possibly empty, possibly with
leading zeros). -/
def AllDigits (s : List Char) : Prop := ∀ c ∈ s, IsDigit c

instance (s : List Char) : Decidable (AllDigits s) := by
  unfold AllDigits; infer_instance

/-- A canonical magnitude: a non-empty digit string without leading zeros,
except for the string `"0"` itself. -/
def CanonicalDigits (s : List Char) : Prop :=
  s ≠ [] ∧ AllDigits s ∧ (s.head? = some '0' → s = ['0'])

instance (s : List Char) : Decidable (CanonicalDigits s) := by
  unfold CanonicalDigits; infer_instance

/-- A canonical `BigInt`: canonical magnitude, and zero is never negative. -/
def BigInt.Canonical (a : BigInt) : Prop :=
  CanonicalDigits a.value ∧ (a.value = ['0'] → a.is_negative = false)

instance (a : BigInt) : Decidable a.Canonical := by
  unfold BigInt.Canonical; infer_instance

/-- The integer denoted by a `BigInt`. -/
def BigInt.toInt (a : BigInt) : Int :=
  if a.is_negative then -(decimalValue a.value : Int) else (decimalValue a.value : Int)



/-- The number held by an array of cells, least significant cell first:
the sum of `cell i * 10 ^ i`. -/
def arrayValue : List Int → Int
  | [] => 0
  | d :: r => d + 10 * arrayValue r



/-- The value of an alphanumeric digit character: `'0'` to `'9'` count 0 to
9, `'a'` to `'z'` count 10 to 35; no other character is a digit. -/
def digitValue (c : Char) : Option Int :=
  if 48 ≤ c.toNat ∧ c.toNat ≤ 57 then some ((c.toNat : Int) - 48)
  else if 97 ≤ c.toNat ∧ c.toNat ≤ 122 then some ((c.toNat : Int) - 87)
  else none

/-- A character is a valid digit for `base`: an alphanumeric digit whose
value is below `base`. -/
def validDigit (base : Int) (c : Char) : Bool :=
  match digitValue c with
  | some d => decide (d < base)
  | none => false

/-- The positional value of a text in `base`, most significant digit first:
the sum of `d_i * base ^ (len - 1 - i)`. -/
def positionalValue (base : Int) : List Char → Int
  | [] => 0
  | c :: s => (digitValue c).getD 0 * base ^ s.length + positionalValue base s



/-- The negation of the specification: the canonical `BigInt` with the
magnitude of `b` and the opposite sign (the constructor keeps zero
non-negative). -/
def BigInt.negate (b : BigInt) : BigInt := BigInt.new b.value (!b.is_negative)



/-- The x coordinate of a share: its id read as a decimal number. -/
def Share.xValue (s : Share) : Int := (decimalValue s.x : Int)

/-- The y coordinate of a share: its encoded value read in its base. -/
def Share.yValue (s : Share) : Int := positionalValue s.base s.y

/-- A share with a valid encoding: the id is a decimal digit string, the base
is in `[2, 36]` and every character of the value is a digit of the base. -/
def Share.WellFormed (s : Share) : Prop :=
  AllDigits s.x ∧ 2 ≤ s.base ∧ s.base ≤ 36 ∧ ∀ c ∈ s.y, validDigit s.base c = true

instance (s : Share) : Decidable s.WellFormed := by
  unfold Share.WellFormed; infer_instance

/-- The numerator of the `j`-th Lagrange term at zero: the product of
`0 - x_i` over `i ≠ j`. -/
def lagrangeNumerator (xs : List Int) (j : Nat) : Int :=
  (((List.range xs.length).filter (fun i => i ≠ j)).map (fun i => 0 - xs.getD i 0)).prod

/-- The denominator of the `j`-th Lagrange term: the product of
`x_j - x_i` over `i ≠ j`. -/
def lagrangeDenominator (xs : List Int) (j : Nat) : Int :=
  (((List.range xs.length).filter (fun i => i ≠ j)).map
    (fun i => xs.getD j 0 - xs.getD i 0)).prod

/-- The sum of the Lagrange terms at zero, each divided on its own with
truncation toward zero. -/
def truncatedLagrange (xs ys : List Int) : Int :=
  ((List.range xs.length).map
    (fun j => Int.tdiv (ys.getD j 0 * lagrangeNumerator xs j) (lagrangeDenominator xs j))).sum

/-- The integer denoted by a digit string and a sign flag, as handed to the
constructor. -/
def signedValue (s : List Char) (neg : Bool) : Int :=
  if neg then -(decimalValue s : Int) else (decimalValue s : Int)

/-- The exact sum of the Lagrange terms at zero, as a rational number:
the sum over `j` of `y_j * prod (0 - x_i) / prod (x_j - x_i)`. -/
def exactLagrange (xs ys : List Int) : ℚ :=
  ((List.range xs.length).map
    (fun j => (ys.getD j 0 : ℚ) * (lagrangeNumerator xs j : ℚ)
      / (lagrangeDenominator xs j : ℚ))).sum

/-- A share whose encoded value decodes: the base is in `[2, 36]` and every
character of the value is a digit of the base. -/
def Share.Decodable (s : Share) : Prop :=
  2 ≤ s.base ∧ s.base ≤ 36 ∧ ∀ c ∈ s.y, validDigit s.base c = true

instance (s : Share) : Decidable s.Decodable := by
  unfold Share.Decodable; infer_instance



/-- The numerator of the Lagrange term of the point with x coordinate `x`,
by values: the product of `0 - z` over the other x coordinates `z`. -/
def numeratorAt (xs : List Int) (x : Int) : Int :=
  ((xs.filter (fun z => z ≠ x)).map (fun z => 0 - z)).prod

/-- The denominator of the Lagrange term of the point with x coordinate `x`,
by values: the product of `x - z` over the other x coordinates `z`. -/
def denominatorAt (xs : List Int) (x : Int) : Int :=
  ((xs.filter (fun z => z ≠ x)).map (fun z => x - z)).prod

/-! # Proofs -/

/-! ## Digit characters -/

theorem toNat_digitChar {d : Nat} (h : d < 10) : (Nat.digitChar d).toNat = 48 + d := by
  interval_cases d <;> rfl

theorem isDigit_digitChar {d : Nat} (h : d < 10) : IsDigit (Nat.digitChar d) := by
  unfold IsDigit; rw [toNat_digitChar h]; omega

theorem digitOf_digitChar {d : Nat} (h : d < 10) : digitOf (Nat.digitChar d) = (d : Int) := by
  unfold digitOf; rw [toNat_digitChar h]; push_cast; ring

theorem eq_digitChar_of_isDigit {c : Char} (h : IsDigit c) :
    c = Nat.digitChar (c.toNat - 48) := by
  obtain ⟨h1, h2⟩ := h
  have hc : c = Char.ofNat c.toNat := (Char.ofNat_toNat c).symm
  generalize c.toNat = n at hc h1 h2
  subst hc
  interval_cases n <;> rfl

theorem isDigit_iff {c : Char} : IsDigit c ↔ ∃ d, d < 10 ∧ c = Nat.digitChar d := by
  constructor
  · intro h
    exact ⟨c.toNat - 48, by unfold IsDigit at h; omega, eq_digitChar_of_isDigit h⟩
  · rintro ⟨d, hd, rfl⟩
    exact isDigit_digitChar hd

theorem digitChar_injective {d e : Nat} (hd : d < 10) (he : e < 10)
    (h : Nat.digitChar d = Nat.digitChar e) : d = e := by
  have := congrArg Char.toNat h
  rw [toNat_digitChar hd, toNat_digitChar he] at this
  omega

theorem digitChar_eq_zero_iff {d : Nat} (hd : d < 10) : Nat.digitChar d = '0' ↔ d = 0 := by
  constructor
  · intro h
    exact digitChar_injective hd (by norm_num) h
  · rintro rfl; rfl

theorem to_string_digit {d : Nat} (h : d < 10) : to_string (d : Int) = [Nat.digitChar d] := by
  interval_cases d <;> rfl

theorem charOfInt_digit {d : Nat} (h : d < 10) : charOfInt ((d : Int) + 48) = Nat.digitChar d := by
  interval_cases d <;> rfl

/-! ## Digit strings: a digit string is the image of a list of digits -/

/-- The string of a list of digits. -/
theorem allDigits_iff {s : List Char} :
    AllDigits s ↔ ∃ ds : List Nat, (∀ d ∈ ds, d < 10) ∧ s = ds.map Nat.digitChar := by
  constructor
  · intro h
    refine ⟨s.map (fun c => c.toNat - 48), ?_, ?_⟩
    · intro d hd
      rw [List.mem_map] at hd
      obtain ⟨c, hc, rfl⟩ := hd
      have := h c hc
      unfold IsDigit at this; omega
    · rw [List.map_map]
      conv_lhs => rw [← List.map_id s]
      apply List.map_congr_left
      intro c hc
      exact eq_digitChar_of_isDigit (h c hc)
  · rintro ⟨ds, hds, rfl⟩ c hc
    rw [List.mem_map] at hc
    obtain ⟨d, hd, rfl⟩ := hc
    exact isDigit_digitChar (hds d hd)

theorem allDigits_nil : AllDigits [] := by intro c hc; cases hc

theorem allDigits_cons {c : Char} {s : List Char} :
    AllDigits (c :: s) ↔ IsDigit c ∧ AllDigits s := by
  unfold AllDigits; simp

theorem allDigits_append {s t : List Char} :
    AllDigits (s ++ t) ↔ AllDigits s ∧ AllDigits t := by
  unfold AllDigits; simp only [List.mem_append]
  constructor
  · intro h; exact ⟨fun c hc => h c (Or.inl hc), fun c hc => h c (Or.inr hc)⟩
  · rintro ⟨h1, h2⟩ c (hc | hc)
    · exact h1 c hc
    · exact h2 c hc

theorem allDigits_reverse {s : List Char} : AllDigits s.reverse ↔ AllDigits s := by
  unfold AllDigits; simp

theorem allDigits_singleton {c : Char} : AllDigits [c] ↔ IsDigit c := by
  unfold AllDigits; simp

/-! ## The value of a digit string -/

/-- The value of a digit character as a natural number. -/
theorem digitOf_toNat_digitChar {d : Nat} (h : d < 10) :
    (digitOf (Nat.digitChar d)).toNat = d := by
  rw [digitOf_digitChar h]; simp

theorem digitOf_of_isDigit {c : Char} (h : IsDigit c) :
    digitOf c = ((digitOf c).toNat : Int) ∧ (digitOf c).toNat < 10 := by
  unfold IsDigit at h; unfold digitOf; omega

theorem decimalValue_nil : decimalValue [] = 0 := rfl

theorem decimalValue_append_singleton (s : List Char) (c : Char) :
    decimalValue (s ++ [c]) = 10 * decimalValue s + (digitOf c).toNat := by
  unfold decimalValue; rw [List.foldl_append]; rfl

theorem foldl_decimal (s : List Char) (n : Nat) :
    s.foldl (fun acc c => 10 * acc + (digitOf c).toNat) n
      = n * 10 ^ s.length + decimalValue s := by
  induction s generalizing n with
  | nil => simp [decimalValue]
  | cons c s ih =>
    unfold decimalValue
    rw [List.foldl_cons, List.foldl_cons, ih, ih (10 * 0 + _)]
    simp only [List.length_cons, pow_succ]
    ring

theorem decimalValue_cons (c : Char) (s : List Char) :
    decimalValue (c :: s) = (digitOf c).toNat * 10 ^ s.length + decimalValue s := by
  conv_lhs => unfold decimalValue
  rw [List.foldl_cons, foldl_decimal]; simp

theorem decimalValue_append (s t : List Char) :
    decimalValue (s ++ t) = decimalValue s * 10 ^ t.length + decimalValue t := by
  conv_lhs => unfold decimalValue
  rw [List.foldl_append, foldl_decimal]; rfl

theorem decimalValue_lt {s : List Char} (h : AllDigits s) : decimalValue s < 10 ^ s.length := by
  induction s with
  | nil => simp [decimalValue]
  | cons c s ih =>
    rw [allDigits_cons] at h
    have h1 := (digitOf_of_isDigit h.1).2
    have h2 := ih h.2
    rw [decimalValue_cons, List.length_cons, pow_succ]
    nlinarith

theorem decimalValue_ge {c : Char} {s : List Char} (hc : IsDigit c) (h0 : c ≠ '0') :
    10 ^ s.length ≤ decimalValue (c :: s) := by
  rw [decimalValue_cons]
  have : 1 ≤ (digitOf c).toNat := by
    rcases isDigit_iff.mp hc with ⟨d, hd, rfl⟩
    rw [digitOf_toNat_digitChar hd]
    by_contra hne
    have : d = 0 := by omega
    subst this
    exact h0 rfl
  have hp : 0 < 10 ^ s.length := by positivity
  nlinarith [Nat.zero_le (decimalValue s)]

/-! ## Leading zeros and the constructor -/

theorem digitOf_zero : digitOf '0' = 0 := rfl

theorem decimalValue_dropWhile (s : List Char) :
    decimalValue (s.dropWhile (fun c => c == '0')) = decimalValue s := by
  induction s with
  | nil => rfl
  | cons c s ih =>
    rw [List.dropWhile_cons]
    by_cases hc : c = '0'
    · subst hc
      simp only [beq_self_eq_true, if_true]
      rw [ih, decimalValue_cons, digitOf_zero]; simp
    · have : (c == '0') = false := by simpa using hc
      simp [this]

theorem allDigits_dropWhile {s : List Char} (h : AllDigits s) (p : Char → Bool) :
    AllDigits (s.dropWhile p) :=
  fun c hc => h c ((List.dropWhile_sublist p).subset hc)

theorem head_dropWhile_ne (s : List Char) (c : Char) (r : List Char)
    (h : s.dropWhile (fun c => c == '0') = c :: r) : c ≠ '0' := by
  have := List.head_dropWhile_not (fun c => c == '0') s (by rw [h]; simp)
  simp only [h, List.head_cons] at this
  simpa using this

theorem canonicalDigits_zero : CanonicalDigits ['0'] := by decide

theorem decimalValue_removeLeadingZeros (s : List Char) :
    decimalValue (removeLeadingZeros s) = decimalValue s := by
  unfold removeLeadingZeros
  have h := decimalValue_dropWhile s
  split
  · next heq => rw [heq] at h; rw [← h]; rfl
  · next c r heq => rw [heq] at h; exact h

theorem canonicalDigits_removeLeadingZeros {s : List Char} (h : AllDigits s) :
    CanonicalDigits (removeLeadingZeros s) := by
  unfold removeLeadingZeros
  split
  · exact canonicalDigits_zero
  · next c r heq =>
    refine ⟨by simp, ?_, ?_⟩
    · rw [← heq]; exact allDigits_dropWhile h _
    · intro h0
      simp only [List.head?_cons, Option.some.injEq] at h0
      exact absurd h0 (head_dropWhile_ne s c r heq)

theorem removeLeadingZeros_of_canonical {s : List Char} (h : CanonicalDigits s) :
    removeLeadingZeros s = s := by
  obtain ⟨hne, -, hz⟩ := h
  cases s with
  | nil => exact absurd rfl hne
  | cons c r =>
    by_cases hc : c = '0'
    · subst hc
      rw [hz rfl]; rfl
    · unfold removeLeadingZeros
      have : (c == '0') = false := by simpa using hc
      simp [List.dropWhile_cons, this]

theorem canonicalDigits_value_zero_iff {s : List Char} (h : CanonicalDigits s) :
    decimalValue s = 0 ↔ s = ['0'] := by
  constructor
  · intro hv
    obtain ⟨hne, hd, hz⟩ := h
    cases s with
    | nil => exact absurd rfl hne
    | cons c r =>
      by_cases hc : c = '0'
      · subst hc; exact hz rfl
      · have := decimalValue_ge (s := r) ((allDigits_cons.mp hd).1) hc
        have hp : 0 < 10 ^ r.length := by positivity
        omega
  · rintro rfl; rfl

theorem new_value_eq (s : List Char) (neg : Bool) :
    (BigInt.new s neg).value = if s.isEmpty then ['0'] else removeLeadingZeros s := rfl

theorem decimalValue_new (s : List Char) (neg : Bool) :
    decimalValue (BigInt.new s neg).value = decimalValue s := by
  rw [new_value_eq]
  split
  · next h => rw [List.isEmpty_iff] at h; subst h; rfl
  · exact decimalValue_removeLeadingZeros s

theorem canonicalDigits_new {s : List Char} (h : AllDigits s) (neg : Bool) :
    CanonicalDigits (BigInt.new s neg).value := by
  rw [new_value_eq]
  split
  · exact canonicalDigits_zero
  · exact canonicalDigits_removeLeadingZeros h

theorem new_is_negative (s : List Char) (neg : Bool) :
    (BigInt.new s neg).is_negative
      = if (BigInt.new s neg).value = ['0'] then false else neg := rfl

theorem canonical_new {s : List Char} (h : AllDigits s) (neg : Bool) :
    (BigInt.new s neg).Canonical := by
  refine ⟨canonicalDigits_new h neg, ?_⟩
  intro h0
  rw [new_is_negative, if_pos h0]

theorem toInt_new {s : List Char} (h : AllDigits s) (neg : Bool) :
    (BigInt.new s neg).toInt = if neg then -(decimalValue s : Int) else (decimalValue s : Int) := by
  have hv := decimalValue_new s neg
  have hz := canonicalDigits_value_zero_iff (canonicalDigits_new h neg)
  unfold BigInt.toInt
  rw [new_is_negative]
  by_cases h0 : (BigInt.new s neg).value = ['0']
  · rw [if_pos h0]
    have : decimalValue s = 0 := by rw [← hv]; exact hz.mpr h0
    simp [hv, this]
  · rw [if_neg h0, hv]

theorem new_of_canonical {a : BigInt} (h : a.Canonical) :
    BigInt.new a.value a.is_negative = a := by
  obtain ⟨hc, hz⟩ := h
  have hne : a.value.isEmpty = false := by
    cases hv : a.value with
    | nil => exact absurd hv hc.1
    | cons _ _ => rfl
  have hval : (BigInt.new a.value a.is_negative).value = a.value := by
    rw [new_value_eq, hne]; simp [removeLeadingZeros_of_canonical hc]
  cases a with
  | mk v n =>
    simp only at hval hz
    have hneg : (BigInt.new v n).is_negative = n := by
      rw [new_is_negative, hval]
      split
      · next h0 => exact (hz h0).symm
      · rfl
    calc BigInt.new v n = ⟨(BigInt.new v n).value, (BigInt.new v n).is_negative⟩ := rfl
      _ = ⟨v, n⟩ := by rw [hval, hneg]

/-! ## Uniqueness of the canonical form -/

theorem eq_of_length_eq_of_value_eq :
    ∀ {s t : List Char}, AllDigits s → AllDigits t → s.length = t.length →
      decimalValue s = decimalValue t → s = t := by
  intro s
  induction s with
  | nil =>
    intro t _ _ hl _
    cases t with
    | nil => rfl
    | cons _ _ => simp at hl
  | cons c s ih =>
    intro t hs ht hl hv
    cases t with
    | nil => simp at hl
    | cons d t =>
      rw [allDigits_cons] at hs ht
      simp only [List.length_cons, Nat.add_right_cancel_iff] at hl
      rw [decimalValue_cons, decimalValue_cons, hl] at hv
      have h1 := decimalValue_lt hs.2
      have h2 := decimalValue_lt ht.2
      rw [hl] at h1
      have hp : 0 < 10 ^ t.length := by positivity
      have hcd : (digitOf c).toNat = (digitOf d).toNat := by
        rcases Nat.lt_trichotomy (digitOf c).toNat (digitOf d).toNat with hlt | heq | hgt
        · exfalso
          have : ((digitOf c).toNat + 1) * 10 ^ t.length ≤ (digitOf d).toNat * 10 ^ t.length :=
            Nat.mul_le_mul_right _ hlt
          nlinarith
        · exact heq
        · exfalso
          have : ((digitOf d).toNat + 1) * 10 ^ t.length ≤ (digitOf c).toNat * 10 ^ t.length :=
            Nat.mul_le_mul_right _ hgt
          nlinarith
      have hvs : decimalValue s = decimalValue t := by rw [hcd] at hv; omega
      have hchar : c = d := by
        rw [eq_digitChar_of_isDigit hs.1, eq_digitChar_of_isDigit ht.1]
        have e1 := hs.1; have e2 := ht.1
        unfold IsDigit at e1 e2
        unfold digitOf at hcd
        congr 1; omega
      rw [hchar, ih hs.2 ht.2 hl hvs]

theorem canonicalDigits_length_bound {s : List Char} (h : CanonicalDigits s) (h0 : s ≠ ['0']) :
    10 ^ (s.length - 1) ≤ decimalValue s := by
  obtain ⟨hne, hd, hz⟩ := h
  cases s with
  | nil => exact absurd rfl hne
  | cons c r =>
    have hc : c ≠ '0' := fun hc => h0 (hz (by rw [hc]; rfl))
    simpa using decimalValue_ge (s := r) ((allDigits_cons.mp hd).1) hc

theorem length_lt_of_value_lt {s t : List Char} (hs : CanonicalDigits s) (ht : CanonicalDigits t)
    (h : s.length < t.length) : decimalValue s < decimalValue t := by
  have ht0 : t ≠ ['0'] := by
    rintro rfl
    have : s.length = 0 := by simpa using h
    exact hs.1 (List.length_eq_zero.mp this)
  have h1 := canonicalDigits_length_bound ht ht0
  have h2 := decimalValue_lt hs.2.1
  have h3 : 10 ^ s.length ≤ 10 ^ (t.length - 1) :=
    Nat.pow_le_pow_right (by norm_num) (by omega)
  omega

theorem canonicalDigits_length_eq {s t : List Char} (hs : CanonicalDigits s)
    (ht : CanonicalDigits t) (hv : decimalValue s = decimalValue t) : s.length = t.length := by
  rcases Nat.lt_trichotomy s.length t.length with h | h | h
  · have := length_lt_of_value_lt hs ht h; omega
  · exact h
  · have := length_lt_of_value_lt ht hs h; omega

theorem canonicalDigits_injective {s t : List Char} (hs : CanonicalDigits s)
    (ht : CanonicalDigits t) (hv : decimalValue s = decimalValue t) : s = t :=
  eq_of_length_eq_of_value_eq hs.2.1 ht.2.1 (canonicalDigits_length_eq hs ht hv) hv

theorem toInt_zero_iff {a : BigInt} (h : CanonicalDigits a.value) :
    a.toInt = 0 ↔ a.value = ['0'] := by
  rw [← canonicalDigits_value_zero_iff h]
  unfold BigInt.toInt
  split <;> omega

theorem canonical_injective {a b : BigInt} (ha : a.Canonical) (hb : b.Canonical)
    (h : a.toInt = b.toInt) : a = b := by
  have hza := canonicalDigits_value_zero_iff ha.1
  have hzb := canonicalDigits_value_zero_iff hb.1
  have hna := ha.2
  have hnb := hb.2
  cases a with
  | mk va na =>
    cases b with
    | mk vb nb =>
      simp only at hza hzb hna hnb
      unfold BigInt.toInt at h
      simp only at h
      have key : decimalValue va = decimalValue vb ∧ na = nb := by
        cases na <;> cases nb <;> simp only [if_true, if_false, Bool.false_eq_true] at h
        · exact ⟨by omega, rfl⟩
        · have h1 : decimalValue va = 0 := by omega
          have h2 : decimalValue vb = 0 := by omega
          exact absurd (hnb (hzb.mp h2)) (by simp)
        · have h1 : decimalValue va = 0 := by omega
          exact absurd (hna (hza.mp h1)) (by simp)
        · exact ⟨by omega, rfl⟩
      have hv : va = vb := canonicalDigits_injective ha.1 hb.1 key.1
      rw [hv, key.2]

/-! ## Comparison of magnitudes -/

theorem strLt_iff_value_lt :
    ∀ {s t : List Char}, AllDigits s → AllDigits t → s.length = t.length →
      (strLt s t = true ↔ decimalValue s < decimalValue t) := by
  intro s
  induction s with
  | nil =>
    intro t _ _ hl
    cases t with
    | nil => simp [strLt, decimalValue]
    | cons _ _ => simp at hl
  | cons c s ih =>
    intro t hs ht hl
    cases t with
    | nil => simp at hl
    | cons d t =>
      rw [allDigits_cons] at hs ht
      simp only [List.length_cons, Nat.add_right_cancel_iff] at hl
      have h1 := decimalValue_lt hs.2
      have h2 := decimalValue_lt ht.2
      rw [hl] at h1
      have hp : 0 < 10 ^ t.length := by positivity
      have e1 := hs.1; have e2 := ht.1
      unfold IsDigit at e1 e2
      have hc : (digitOf c).toNat = c.toNat - 48 := by unfold digitOf; omega
      have hd : (digitOf d).toNat = d.toNat - 48 := by unfold digitOf; omega
      rw [decimalValue_cons, decimalValue_cons, hl, hc, hd]
      unfold strLt
      by_cases hlt : c.toNat < d.toNat
      · rw [if_pos hlt]
        simp only [true_iff]
        have : (c.toNat - 48 + 1) * 10 ^ t.length ≤ (d.toNat - 48) * 10 ^ t.length :=
          Nat.mul_le_mul_right _ (by omega)
        nlinarith
      · rw [if_neg hlt]
        by_cases hgt : d.toNat < c.toNat
        · rw [if_pos hgt]
          simp only [Bool.false_eq_true, false_iff, not_lt]
          have : (d.toNat - 48 + 1) * 10 ^ t.length ≤ (c.toNat - 48) * 10 ^ t.length :=
            Nat.mul_le_mul_right _ (by omega)
          nlinarith
        · rw [if_neg hgt, ih hs.2 ht.2 hl]
          have : c.toNat = d.toNat := by omega
          rw [this]; omega

theorem compareUnsigned_spec {s t : List Char} (hs : CanonicalDigits s) (ht : CanonicalDigits t) :
    compareUnsigned s t =
      if decimalValue s > decimalValue t then 1
      else if decimalValue s < decimalValue t then -1 else 0 := by
  unfold compareUnsigned
  by_cases h1 : s.length > t.length
  · have := length_lt_of_value_lt ht hs h1
    rw [if_pos h1, if_pos this]
  · rw [if_neg h1]
    by_cases h2 : s.length < t.length
    · have := length_lt_of_value_lt hs ht h2
      rw [if_pos h2, if_neg (by omega), if_pos this]
    · rw [if_neg h2]
      have hl : s.length = t.length := by omega
      have e1 := strLt_iff_value_lt hs.2.1 ht.2.1 hl
      have e2 := strLt_iff_value_lt ht.2.1 hs.2.1 hl.symm
      by_cases h3 : decimalValue t < decimalValue s
      · rw [if_pos (e2.mpr h3), if_pos h3]
      · have : ¬ strLt t s = true := fun h => h3 (e2.mp h)
        rw [if_neg this, if_neg h3]
        by_cases h4 : decimalValue s < decimalValue t
        · rw [if_pos (e1.mpr h4), if_pos h4]
        · have : ¬ strLt s t = true := fun h => h4 (e1.mp h)
          rw [if_neg this, if_neg h4]

/-! ## Machine division on non-negative values -/

theorem tdiv_natCast (n : Nat) : (n : Int).tdiv 10 = ((n / 10 : Nat) : Int) := by
  rw [Int.tdiv_eq_ediv (Int.ofNat_nonneg n) (by norm_num)]; norm_cast

theorem tmod_natCast (n : Nat) : (n : Int).tmod 10 = ((n % 10 : Nat) : Int) := by
  have h := Int.tmod_add_tdiv (n : Int) 10
  rw [tdiv_natCast] at h
  have h2 := Nat.mod_add_div n 10
  omega

theorem lsd_cons (c : Char) (r : List Char) :
    decimalValue (c :: r).reverse = 10 * decimalValue r.reverse + (digitOf c).toNat := by
  rw [List.reverse_cons, decimalValue_append_singleton]

/-- A digit character together with its value. -/
theorem isDigit_cases {c : Char} (h : IsDigit c) :
    ∃ d : Nat, d < 10 ∧ digitOf c = (d : Int) ∧ (digitOf c).toNat = d := by
  obtain ⟨h1, h2⟩ := digitOf_of_isDigit h
  exact ⟨(digitOf c).toNat, h2, h1, rfl⟩

/-! ## `addStrings` -/

theorem carryLoop_spec (k : Nat) (hk : k ≤ 1) (res : List Char) :
    ∃ out, carryLoop (k : Int).natAbs (k : Int) res = res ++ out ∧ AllDigits out ∧
      decimalValue out.reverse = k := by
  interval_cases k
  · exact ⟨[], by simp [carryLoop], allDigits_nil, rfl⟩
  · refine ⟨['1'], ?_, by decide, rfl⟩
    rfl

theorem addRest_spec : ∀ (r : List Char), AllDigits r → ∀ (k : Nat), k ≤ 1 → ∀ res : List Char,
    ∃ out, addRest r (k : Int) res = res ++ out ∧ AllDigits out ∧
      decimalValue out.reverse = decimalValue r.reverse + k := by
  intro r
  induction r with
  | nil =>
    intro _ k hk res
    obtain ⟨out, h1, h2, h3⟩ := carryLoop_spec k hk res
    exact ⟨out, by rw [addRest, h1], h2, by simpa [decimalValue] using h3⟩
  | cons c r ih =>
    intro hr k hk res
    rw [allDigits_cons] at hr
    obtain ⟨d, hd, hdc, hdn⟩ := isDigit_cases hr.1
    have hsum : (k : Int) + digitOf c = ((k + d : Nat) : Int) := by rw [hdc]; push_cast; ring
    obtain ⟨out, h1, h2, h3⟩ := ih hr.2 ((k + d) / 10) (by omega)
      (res ++ [Nat.digitChar ((k + d) % 10)])
    refine ⟨Nat.digitChar ((k + d) % 10) :: out, ?_, ?_, ?_⟩
    · rw [addRest]
      simp only [hsum, tdiv_natCast, tmod_natCast]
      rw [to_string_digit (Nat.mod_lt _ (by norm_num)), h1]
      simp
    · rw [allDigits_cons]
      exact ⟨isDigit_digitChar (Nat.mod_lt _ (by norm_num)), h2⟩
    · rw [lsd_cons, lsd_cons, h3, hdn, digitOf_toNat_digitChar (Nat.mod_lt _ (by norm_num))]
      omega

theorem addLoop_spec : ∀ (r1 : List Char), AllDigits r1 → ∀ (r2 : List Char), AllDigits r2 →
    ∀ (k : Nat), k ≤ 1 → ∀ res : List Char,
    ∃ out, addLoop r1 r2 (k : Int) res = res ++ out ∧ AllDigits out ∧
      decimalValue out.reverse = decimalValue r1.reverse + decimalValue r2.reverse + k := by
  intro r1
  induction r1 with
  | nil =>
    intro _ r2 h2 k hk res
    obtain ⟨out, e1, e2, e3⟩ := addRest_spec r2 h2 k hk res
    exact ⟨out, by rw [addLoop, e1], e2, by simpa [decimalValue] using e3⟩
  | cons c1 r1 ih =>
    intro h1 r2 h2 k hk res
    cases r2 with
    | nil =>
      obtain ⟨out, e1, e2, e3⟩ := addRest_spec (c1 :: r1) h1 k hk res
      exact ⟨out, by rw [addLoop, e1], e2, by simpa [decimalValue] using e3⟩
    | cons c2 r2 =>
      rw [allDigits_cons] at h1 h2
      obtain ⟨d1, hd1, hdc1, hdn1⟩ := isDigit_cases h1.1
      obtain ⟨d2, hd2, hdc2, hdn2⟩ := isDigit_cases h2.1
      have hsum : (k : Int) + digitOf c1 + digitOf c2 = ((k + d1 + d2 : Nat) : Int) := by
        rw [hdc1, hdc2]; push_cast; ring
      obtain ⟨out, e1, e2, e3⟩ := ih h1.2 r2 h2.2 ((k + d1 + d2) / 10) (by omega)
        (res ++ [Nat.digitChar ((k + d1 + d2) % 10)])
      refine ⟨Nat.digitChar ((k + d1 + d2) % 10) :: out, ?_, ?_, ?_⟩
      · rw [addLoop]
        simp only [hsum, tdiv_natCast, tmod_natCast]
        rw [to_string_digit (Nat.mod_lt _ (by norm_num)), e1]
        simp
      · rw [allDigits_cons]
        exact ⟨isDigit_digitChar (Nat.mod_lt _ (by norm_num)), e2⟩
      · rw [lsd_cons, lsd_cons, lsd_cons, e3, hdn1, hdn2,
          digitOf_toNat_digitChar (Nat.mod_lt _ (by norm_num))]
        omega

theorem addStrings_spec {s1 s2 : List Char} (h1 : AllDigits s1) (h2 : AllDigits s2) :
    AllDigits (addStrings s1 s2) ∧
      decimalValue (addStrings s1 s2) = decimalValue s1 + decimalValue s2 := by
  obtain ⟨out, e1, e2, e3⟩ := addLoop_spec s1.reverse (allDigits_reverse.mpr h1) s2.reverse
    (allDigits_reverse.mpr h2) 0 (by norm_num) []
  unfold addStrings
  simp only [Nat.cast_zero, List.nil_append] at e1
  rw [e1]
  refine ⟨allDigits_reverse.mpr e2, ?_⟩
  simpa using e3

/-! ## `subtractStrings` -/

theorem subRest_spec : ∀ (l : List Char), AllDigits l → ∀ (k : Nat), k ≤ 1 →
    k ≤ decimalValue l.reverse → ∀ res : List Char,
    ∃ out, subRest l (k : Int) res = res ++ out ∧ AllDigits out ∧
      decimalValue out.reverse + k = decimalValue l.reverse := by
  intro l
  induction l with
  | nil =>
    intro _ k _ hle res
    exact ⟨[], by simp [subRest], allDigits_nil, by simpa [decimalValue] using hle⟩
  | cons c l ih =>
    intro hl k hk hle res
    rw [allDigits_cons] at hl
    obtain ⟨d, hd, hdc, hdn⟩ := isDigit_cases hl.1
    rw [lsd_cons, hdn] at hle
    rw [subRest]
    simp only [hdc]
    by_cases hneg : (d : Int) - (k : Int) < 0
    · rw [if_pos hneg]
      have hchar : (d : Int) - (k : Int) + 10 + 48 = ((d + 10 - k : Nat) : Int) + 48 := by omega
      obtain ⟨out, e1, e2, e3⟩ := ih hl.2 1 (by norm_num) (by omega)
        (res ++ [Nat.digitChar (d + 10 - k)])
      refine ⟨Nat.digitChar (d + 10 - k) :: out, ?_, ?_, ?_⟩
      · rw [hchar, charOfInt_digit (by omega)]
        simp only [Nat.cast_one] at e1
        rw [e1]; simp
      · rw [allDigits_cons]; exact ⟨isDigit_digitChar (by omega), e2⟩
      · rw [lsd_cons, lsd_cons, hdn, digitOf_toNat_digitChar (by omega)]
        omega
    · rw [if_neg hneg]
      have hchar : (d : Int) - (k : Int) + 48 = ((d - k : Nat) : Int) + 48 := by omega
      obtain ⟨out, e1, e2, e3⟩ := ih hl.2 0 (by norm_num) (by omega)
        (res ++ [Nat.digitChar (d - k)])
      refine ⟨Nat.digitChar (d - k) :: out, ?_, ?_, ?_⟩
      · rw [hchar, charOfInt_digit (by omega)]
        simp only [Nat.cast_zero] at e1
        rw [e1]; simp
      · rw [allDigits_cons]; exact ⟨isDigit_digitChar (by omega), e2⟩
      · rw [lsd_cons, lsd_cons, hdn, digitOf_toNat_digitChar (by omega)]
        omega

theorem subLoop_spec : ∀ (l : List Char), AllDigits l → ∀ (s : List Char), AllDigits s →
    ∀ (k : Nat), k ≤ 1 → decimalValue s.reverse + k ≤ decimalValue l.reverse →
    ∀ res : List Char,
    ∃ out, subLoop l s (k : Int) res = res ++ out ∧ AllDigits out ∧
      decimalValue out.reverse + decimalValue s.reverse + k = decimalValue l.reverse := by
  intro l
  induction l with
  | nil =>
    intro _ s hs k _ hle res
    simp only [List.reverse_nil, decimalValue_nil, Nat.le_zero_eq, Nat.add_eq_zero_iff] at hle
    cases s with
    | nil => exact ⟨[], by simp [subLoop, subRest], allDigits_nil, by simp [decimalValue, hle.2]⟩
    | cons c s =>
      refine ⟨[], by simp [subLoop], allDigits_nil, ?_⟩
      rw [hle.1, hle.2]; rfl
  | cons c1 l ih =>
    intro hl s hs k hk hle res
    cases s with
    | nil =>
      obtain ⟨out, e1, e2, e3⟩ := subRest_spec (c1 :: l) hl k hk
        (by simpa [decimalValue] using hle) res
      exact ⟨out, by rw [subLoop, e1], e2, by simpa [decimalValue] using e3⟩
    | cons c2 s =>
      rw [allDigits_cons] at hl hs
      obtain ⟨d1, hd1, hdc1, hdn1⟩ := isDigit_cases hl.1
      obtain ⟨d2, hd2, hdc2, hdn2⟩ := isDigit_cases hs.1
      rw [lsd_cons, lsd_cons, hdn1, hdn2] at hle
      rw [subLoop]
      simp only [hdc1, hdc2]
      by_cases hneg : (d1 : Int) - (d2 : Int) - (k : Int) < 0
      · rw [if_pos hneg]
        have hchar : (d1 : Int) - (d2 : Int) - (k : Int) + 10 + 48
            = ((d1 + 10 - d2 - k : Nat) : Int) + 48 := by omega
        obtain ⟨out, e1, e2, e3⟩ := ih hl.2 s hs.2 1 (by norm_num) (by omega)
          (res ++ [Nat.digitChar (d1 + 10 - d2 - k)])
        refine ⟨Nat.digitChar (d1 + 10 - d2 - k) :: out, ?_, ?_, ?_⟩
        · rw [hchar, charOfInt_digit (by omega)]
          simp only [Nat.cast_one] at e1
          rw [e1]; simp
        · rw [allDigits_cons]; exact ⟨isDigit_digitChar (by omega), e2⟩
        · rw [lsd_cons, lsd_cons, lsd_cons, hdn1, hdn2, digitOf_toNat_digitChar (by omega)]
          omega
      · rw [if_neg hneg]
        have hchar : (d1 : Int) - (d2 : Int) - (k : Int) + 48
            = ((d1 - d2 - k : Nat) : Int) + 48 := by omega
        obtain ⟨out, e1, e2, e3⟩ := ih hl.2 s hs.2 0 (by norm_num) (by omega)
          (res ++ [Nat.digitChar (d1 - d2 - k)])
        refine ⟨Nat.digitChar (d1 - d2 - k) :: out, ?_, ?_, ?_⟩
        · rw [hchar, charOfInt_digit (by omega)]
          simp only [Nat.cast_zero] at e1
          rw [e1]; simp
        · rw [allDigits_cons]; exact ⟨isDigit_digitChar (by omega), e2⟩
        · rw [lsd_cons, lsd_cons, lsd_cons, hdn1, hdn2, digitOf_toNat_digitChar (by omega)]
          omega

theorem subtractStrings_spec {s1 s2 : List Char} (h1 : AllDigits s1) (h2 : AllDigits s2)
    (hle : decimalValue s2 ≤ decimalValue s1) :
    CanonicalDigits (subtractStrings s1 s2) ∧
      decimalValue (subtractStrings s1 s2) + decimalValue s2 = decimalValue s1 := by
  obtain ⟨out, e1, e2, e3⟩ := subLoop_spec s1.reverse (allDigits_reverse.mpr h1) s2.reverse
    (allDigits_reverse.mpr h2) 0 (by norm_num) (by simpa using hle) []
  unfold subtractStrings
  simp only [Nat.cast_zero, List.nil_append] at e1
  rw [e1]
  refine ⟨canonicalDigits_removeLeadingZeros (allDigits_reverse.mpr e2), ?_⟩
  rw [decimalValue_removeLeadingZeros]
  simpa using e3

/-! ## `add` and `subtract` -/

theorem toInt_mk (v : List Char) (n : Bool) :
    (BigInt.mk v n).toInt = if n then -(decimalValue v : Int) else (decimalValue v : Int) := rfl

theorem add_spec {a b : BigInt} (ha : CanonicalDigits a.value) (hb : CanonicalDigits b.value) :
    (a.add b).Canonical ∧ (a.add b).toInt = a.toInt + b.toInt := by
  cases a with
  | mk va na =>
  cases b with
  | mk vb nb =>
  simp only at ha hb
  unfold BigInt.add
  simp only
  by_cases hs : na = nb
  · subst hs
    rw [if_pos rfl]
    obtain ⟨h1, h2⟩ := addStrings_spec ha.2.1 hb.2.1
    refine ⟨canonical_new h1 _, ?_⟩
    rw [toInt_new h1, h2, toInt_mk, toInt_mk]
    cases na <;> simp
    ring
  · rw [if_neg hs, compareUnsigned_spec ha hb]
    by_cases hgt : decimalValue va > decimalValue vb
    · simp only [if_pos hgt]
      norm_num
      obtain ⟨h1, h2⟩ := subtractStrings_spec ha.2.1 hb.2.1 (le_of_lt hgt)
      refine ⟨canonical_new h1.2.1 _, ?_⟩
      rw [toInt_new h1.2.1, toInt_mk, toInt_mk]
      cases na <;> cases nb <;> simp at hs ⊢ <;> omega
    · simp only [if_neg hgt]
      by_cases hlt : decimalValue va < decimalValue vb
      · simp only [if_pos hlt]
        norm_num
        obtain ⟨h1, h2⟩ := subtractStrings_spec hb.2.1 ha.2.1 (le_of_lt hlt)
        refine ⟨canonical_new h1.2.1 _, ?_⟩
        rw [toInt_new h1.2.1, toInt_mk, toInt_mk]
        cases na <;> cases nb <;> simp at hs ⊢ <;> omega
      · simp only [if_neg hlt]
        norm_num
        refine ⟨by decide, ?_⟩
        have heq : decimalValue va = decimalValue vb := by omega
        have h0 : (BigInt.new ['0'] false).toInt = 0 := by decide
        rw [h0, toInt_mk, toInt_mk]
        cases na <;> cases nb <;> simp at hs ⊢ <;> omega

theorem subtract_spec {a b : BigInt} (ha : CanonicalDigits a.value)
    (hb : CanonicalDigits b.value) :
    (a.subtract b).Canonical ∧ (a.subtract b).toInt = a.toInt - b.toInt := by
  unfold BigInt.subtract
  have h := add_spec (a := a) (b := ⟨b.value, !b.is_negative⟩) ha hb
  refine ⟨h.1, ?_⟩
  rw [h.2, toInt_mk]
  unfold BigInt.toInt
  cases b.is_negative <;> simp
  ring

/-! ## The digit array of `multiply` -/

/-- Every cell of the array is a single decimal digit. -/
theorem getD_bounds {r : List Int} (h : ∀ d ∈ r, 0 ≤ d ∧ d ≤ 9) (i : Nat) :
    0 ≤ r.getD i 0 ∧ r.getD i 0 ≤ 9 := by
  by_cases hi : i < r.length
  · rw [List.getD_eq_getElem r 0 hi]
    exact h _ (List.getElem_mem _)
  · rw [List.getD_eq_default r 0 (by omega)]
    norm_num

theorem arrayValue_set : ∀ (r : List Int) (i : Nat) (v : Int), i < r.length →
    arrayValue (r.set i v) = arrayValue r + (v - r.getD i 0) * 10 ^ i := by
  intro r
  induction r with
  | nil => intro i v hi; simp at hi
  | cons d r ih =>
    intro i v hi
    cases i with
    | zero => simp [arrayValue]; ring
    | succ i =>
      simp only [List.length_cons, Nat.add_lt_add_iff_right] at hi
      rw [List.set_cons_succ, List.getD_cons_succ]
      simp only [arrayValue]
      rw [ih i v hi, pow_succ]; ring

theorem getD_set_ne (r : List Int) {i j : Nat} (h : i ≠ j) (v : Int) :
    (r.set i v).getD j 0 = r.getD j 0 := by
  rw [List.getD_eq_getElem?_getD, List.getD_eq_getElem?_getD, List.getElem?_set_ne h]

theorem arrayValue_replicate (n : Nat) : arrayValue (List.replicate n 0) = 0 := by
  induction n with
  | zero => rfl
  | succ n ih => rw [List.replicate_succ, arrayValue, ih]; norm_num

theorem arrayValue_append_singleton (r : List Int) (d : Int) :
    arrayValue (r ++ [d]) = arrayValue r + d * 10 ^ r.length := by
  induction r with
  | nil => simp [arrayValue]
  | cons c r ih =>
    rw [List.cons_append, arrayValue, arrayValue, ih, List.length_cons, pow_succ]; ring

theorem cells_set {r : List Int} (h : ∀ d ∈ r, 0 ≤ d ∧ d ≤ 9) (i : Nat) {v : Int}
    (hv : 0 ≤ v ∧ v ≤ 9) : ∀ d ∈ r.set i v, 0 ≤ d ∧ d ≤ 9 := by
  intro d hd
  rcases List.mem_or_eq_of_mem_set hd with h1 | h1
  · exact h d h1
  · rw [h1]; exact hv

theorem mulInner_spec (n1 : Int) (hn0 : 0 ≤ n1) (hn9 : n1 ≤ 9) (p : Nat) :
    ∀ (cs : List Char), AllDigits cs → ∀ (r : List Int) (carry : Int) (t : Nat),
      (∀ d ∈ r, 0 ≤ d ∧ d ≤ 9) → 0 ≤ carry → carry ≤ 9 → p + t + cs.length ≤ r.length →
      (cs.foldl (mulInnerStep n1 p) (r, carry, t)).1.length = r.length ∧
      (cs.foldl (mulInnerStep n1 p) (r, carry, t)).2.2 = t + cs.length ∧
      0 ≤ (cs.foldl (mulInnerStep n1 p) (r, carry, t)).2.1 ∧
      (cs.foldl (mulInnerStep n1 p) (r, carry, t)).2.1 ≤ 9 ∧
      (∀ d ∈ (cs.foldl (mulInnerStep n1 p) (r, carry, t)).1, 0 ≤ d ∧ d ≤ 9) ∧
      (∀ i, p + t + cs.length ≤ i →
        (cs.foldl (mulInnerStep n1 p) (r, carry, t)).1.getD i 0 = r.getD i 0) ∧
      arrayValue (cs.foldl (mulInnerStep n1 p) (r, carry, t)).1
          + (cs.foldl (mulInnerStep n1 p) (r, carry, t)).2.1 * 10 ^ (p + t + cs.length)
        = arrayValue r + carry * 10 ^ (p + t)
          + n1 * (decimalValue cs.reverse : Int) * 10 ^ (p + t) := by
  intro cs
  induction cs with
  | nil =>
    intro _ r carry t hr hc0 hc9 _
    simp [decimalValue, hr, hc0, hc9]
    intro d hd; exact hr d hd
  | cons c cs ih =>
    intro hcs r carry t hr hc0 hc9 hlen
    rw [allDigits_cons] at hcs
    obtain ⟨d, hd, hdc, hdn⟩ := isDigit_cases hcs.1
    simp only [List.length_cons] at hlen
    have hcell := getD_bounds hr (p + t)
    generalize hsum : n1 * (d : Int) + r.getD (p + t) 0 + carry = sum
    have hd0 : (0 : Int) ≤ (d : Int) := Int.ofNat_nonneg d
    have hd9 : (d : Int) ≤ 9 := by omega
    have hprod0 : 0 ≤ n1 * (d : Int) := mul_nonneg hn0 hd0
    have hprod : n1 * (d : Int) ≤ 81 := by nlinarith
    have hs0 : 0 ≤ sum := by omega
    have hs99 : sum ≤ 99 := by omega
    have hdiv : sum.tdiv 10 = sum / 10 := Int.tdiv_eq_ediv hs0 (by norm_num)
    have hmod : sum.tmod 10 = sum % 10 := Int.tmod_eq_emod hs0 (by norm_num)
    have hstep : mulInnerStep n1 p (r, carry, t) c
        = (r.set (p + t) (sum % 10), sum / 10, t + 1) := by
      unfold mulInnerStep
      simp only [hdc, hsum, hdiv, hmod]
    rw [List.foldl_cons, hstep]
    have hr2 : ∀ e ∈ r.set (p + t) (sum % 10), 0 ≤ e ∧ e ≤ 9 :=
      cells_set hr _ ⟨by omega, by omega⟩
    obtain ⟨e1, e2, e3, e4, e5, e6, e7⟩ := ih hcs.2 (r.set (p + t) (sum % 10)) (sum / 10)
      (t + 1) hr2 (by omega) (by omega) (by rw [List.length_set]; omega)
    refine ⟨by rw [e1, List.length_set], by rw [e2, List.length_cons]; omega, e3, e4, e5, ?_, ?_⟩
    · intro i hi
      simp only [List.length_cons] at hi
      rw [e6 i (by omega), getD_set_ne r (by omega)]
    · have hidx : p + t + (cs.length + 1) = p + (t + 1) + cs.length := by omega
      rw [List.length_cons, hidx, e7, arrayValue_set r _ _ (by omega), lsd_cons, hdn]
      have hp : p + (t + 1) = (p + t) + 1 := by omega
      rw [hp, pow_succ]
      have hsd : sum % 10 + 10 * (sum / 10) = sum := Int.emod_add_ediv sum 10
      push_cast
      have : (sum % 10 - r.getD (p + t) 0) + 10 * (sum / 10) = n1 * (d : Int) + carry := by
        omega
      linear_combination (10 ^ (p + t) : Int) * this

theorem mulOuter_spec (s2 : List Char) (h2 : AllDigits s2) :
    ∀ (cs : List Char), AllDigits cs → ∀ (r : List Int) (p : Nat),
      (∀ d ∈ r, 0 ≤ d ∧ d ≤ 9) → (∀ i, p + s2.length ≤ i → r.getD i 0 = 0) →
      p + cs.length + s2.length ≤ r.length →
      (cs.foldl (mulOuterStep s2) (r, p)).1.length = r.length ∧
      (∀ d ∈ (cs.foldl (mulOuterStep s2) (r, p)).1, 0 ≤ d ∧ d ≤ 9) ∧
      arrayValue (cs.foldl (mulOuterStep s2) (r, p)).1
        = arrayValue r + (decimalValue cs.reverse : Int) * (decimalValue s2 : Int) * 10 ^ p := by
  intro cs
  induction cs with
  | nil =>
    intro _ r p hr _ _
    exact ⟨rfl, hr, by simp [decimalValue]⟩
  | cons c cs ih =>
    intro hcs r p hr hz hlen
    rw [allDigits_cons] at hcs
    obtain ⟨d, hd, hdc, hdn⟩ := isDigit_cases hcs.1
    simp only [List.length_cons] at hlen
    obtain ⟨e1, e2, e3, e4, e5, e6, e7⟩ := mulInner_spec (d : Int) (Int.ofNat_nonneg d)
      (by omega) p s2.reverse (allDigits_reverse.mpr h2) r 0 0 hr (le_refl 0) (by norm_num)
      (by rw [List.length_reverse]; omega)
    have hstep : mulOuterStep s2 (r, p) c =
        (if (s2.reverse.foldl (mulInnerStep (d : Int) p) (r, 0, 0)).2.1 > 0 then
          (s2.reverse.foldl (mulInnerStep (d : Int) p) (r, 0, 0)).1.set
            (p + (s2.reverse.foldl (mulInnerStep (d : Int) p) (r, 0, 0)).2.2)
            ((s2.reverse.foldl (mulInnerStep (d : Int) p) (r, 0, 0)).1.getD
              (p + (s2.reverse.foldl (mulInnerStep (d : Int) p) (r, 0, 0)).2.2) 0
              + (s2.reverse.foldl (mulInnerStep (d : Int) p) (r, 0, 0)).2.1)
         else (s2.reverse.foldl (mulInnerStep (d : Int) p) (r, 0, 0)).1, p + 1) := by
      unfold mulOuterStep
      simp only [hdc]
    rw [List.foldl_cons, hstep]
    generalize s2.reverse.foldl (mulInnerStep (d : Int) p) (r, 0, 0) = inner at e1 e2 e3 e4 e5 e6 e7
    obtain ⟨arr, carry, idx⟩ := inner
    simp only [List.length_reverse, Nat.zero_add, Nat.add_zero, List.reverse_reverse,
      zero_mul, add_zero] at e1 e2 e3 e4 e5 e6 e7
    simp only
    subst e2
    have hcell : arr.getD (p + s2.length) 0 = 0 := by
      rw [e6 _ (le_refl _)]; exact hz _ (le_refl _)
    -- the array after the carry has been added
    have key : ∃ arr2 : List Int,
        (if carry > 0 then arr.set (p + s2.length) (arr.getD (p + s2.length) 0 + carry)
          else arr) = arr2 ∧ arr2.length = r.length ∧ (∀ e ∈ arr2, 0 ≤ e ∧ e ≤ 9) ∧
        (∀ i, p + 1 + s2.length ≤ i → arr2.getD i 0 = 0) ∧
        arrayValue arr2 = arrayValue r + (d : Int) * (decimalValue s2 : Int) * 10 ^ p := by
      by_cases hc : carry > 0
      · refine ⟨_, rfl, ?_, ?_, ?_, ?_⟩
        · rw [if_pos hc, List.length_set, e1]
        · rw [if_pos hc, hcell]
          exact cells_set e5 _ ⟨by omega, by omega⟩
        · intro i hi
          rw [if_pos hc, getD_set_ne arr (by omega), e6 i (by omega)]
          exact hz i (by omega)
        · rw [if_pos hc, arrayValue_set arr _ _ (by omega), hcell]
          linear_combination e7
      · have hc0 : carry = 0 := by omega
        refine ⟨_, rfl, ?_, ?_, ?_, ?_⟩
        · rw [if_neg hc, e1]
        · rw [if_neg hc]; exact e5
        · intro i hi
          rw [if_neg hc, e6 i (by omega)]
          exact hz i (by omega)
        · rw [if_neg hc]
          rw [hc0] at e7
          linear_combination e7
    obtain ⟨arr2, harr, k1, k2, k3, k4⟩ := key
    rw [harr]
    obtain ⟨f1, f2, f3⟩ := ih hcs.2 arr2 (p + 1) k2 k3 (by omega)
    refine ⟨by rw [f1, k1], f2, ?_⟩
    rw [f3, k4, lsd_cons, hdn, pow_succ]
    push_cast
    ring

theorem mulArray_spec {s1 s2 : List Char} (h1 : AllDigits s1) (h2 : AllDigits s2) :
    (mulArray s1 s2).length = s1.length + s2.length ∧
    (∀ d ∈ mulArray s1 s2, 0 ≤ d ∧ d ≤ 9) ∧
    arrayValue (mulArray s1 s2) = (decimalValue s1 : Int) * (decimalValue s2 : Int) := by
  obtain ⟨e1, e2, e3⟩ := mulOuter_spec s2 h2 s1.reverse (allDigits_reverse.mpr h1)
    (List.replicate (s1.length + s2.length) 0) 0
    (by intro d hd; rw [List.eq_of_mem_replicate hd]; norm_num)
    (by
      intro i _
      by_cases hi : i < (List.replicate (s1.length + s2.length) (0 : Int)).length
      · rw [List.getD_eq_getElem _ 0 hi]; simp
      · rw [List.getD_eq_default _ 0 (by omega)])
    (by simp)
  unfold mulArray
  refine ⟨by rw [e1]; simp, e2, ?_⟩
  rw [e3, arrayValue_replicate]
  simp

/-! ## From the array to the product -/

theorem cellsToString_spec : ∀ (ds : List Int), (∀ d ∈ ds, 0 ≤ d ∧ d ≤ 9) →
    AllDigits (cellsToString ds) ∧ (cellsToString ds).length = ds.length ∧
      (decimalValue (cellsToString ds) : Int) = arrayValue ds.reverse := by
  intro ds
  induction ds with
  | nil => intro _; exact ⟨allDigits_nil, rfl, rfl⟩
  | cons d ds ih =>
    intro h
    obtain ⟨i1, i2, i3⟩ := ih (fun e he => h e (List.mem_cons_of_mem _ he))
    obtain ⟨hd0, hd9⟩ := h d (List.mem_cons_self _ _)
    obtain ⟨n, rfl⟩ := Int.eq_ofNat_of_zero_le hd0
    have hn : n < 10 := by omega
    rw [cellsToString, to_string_digit hn]
    refine ⟨?_, ?_, ?_⟩
    · rw [allDigits_append]
      exact ⟨allDigits_singleton.mpr (isDigit_digitChar hn), i1⟩
    · simp [i2]
    · rw [List.singleton_append, decimalValue_cons, digitOf_toNat_digitChar hn, i2,
        List.reverse_cons, arrayValue_append_singleton, List.length_reverse]
      push_cast
      rw [i3]; ring

theorem arrayValue_dropWhile (ds : List Int) :
    arrayValue (ds.dropWhile (fun d => d == 0)).reverse = arrayValue ds.reverse := by
  induction ds with
  | nil => rfl
  | cons d ds ih =>
    rw [List.dropWhile_cons]
    by_cases hd : d = 0
    · subst hd
      simp only [beq_self_eq_true, if_true]
      rw [ih, List.reverse_cons, arrayValue_append_singleton]; simp
    · have : (d == 0) = false := by simpa using hd
      simp [this]

theorem toInt_eq_zero_of_value {a : BigInt} (h : a.value = ['0']) : a.toInt = 0 := by
  unfold BigInt.toInt; rw [h]; split <;> rfl

theorem multiply_spec {a b : BigInt} (ha : CanonicalDigits a.value)
    (hb : CanonicalDigits b.value) :
    (a.multiply b).Canonical ∧ (a.multiply b).toInt = a.toInt * b.toInt := by
  have hzero : (BigInt.new ['0'] false).Canonical ∧ (BigInt.new ['0'] false).toInt = 0 := by
    decide
  unfold BigInt.multiply
  by_cases h0 : a.value = ['0'] ∨ b.value = ['0']
  · rw [if_pos h0]
    refine ⟨hzero.1, ?_⟩
    rw [hzero.2]
    rcases h0 with h0 | h0
    · rw [toInt_eq_zero_of_value h0]; ring
    · rw [toInt_eq_zero_of_value h0]; ring
  · rw [if_neg h0]
    obtain ⟨m1, m2, m3⟩ := mulArray_spec ha.2.1 hb.2.1
    have hval := arrayValue_dropWhile (mulArray a.value b.value).reverse
    rw [List.reverse_reverse, m3] at hval
    have hcells : ∀ d ∈ (mulArray a.value b.value).reverse.dropWhile (fun d => d == 0),
        0 ≤ d ∧ d ≤ 9 := fun d hd =>
      m2 d (List.mem_reverse.mp ((List.dropWhile_sublist _).subset hd))
    generalize (mulArray a.value b.value).reverse.dropWhile (fun d => d == 0) = ds at hval hcells
    cases ds with
    | nil =>
      simp only
      refine ⟨hzero.1, ?_⟩
      rw [hzero.2]
      simp only [List.reverse_nil, arrayValue] at hval
      unfold BigInt.toInt
      split <;> split <;> (first | linear_combination hval | linear_combination -hval)
    | cons d ds =>
      simp only
      obtain ⟨c1, c2, c3⟩ := cellsToString_spec (d :: ds) hcells
      refine ⟨canonical_new c1 _, ?_⟩
      rw [toInt_new c1, c3, hval]
      unfold BigInt.toInt
      cases a.is_negative <;> cases b.is_negative <;> simp

/-! ## `divide` -/

theorem nonneg_of_canonical {a : BigInt} (h : a.Canonical) (h0 : 0 ≤ a.toInt) :
    a.is_negative = false ∧ a.toInt = (decimalValue a.value : Int) := by
  have hz := canonicalDigits_value_zero_iff h.1
  unfold BigInt.toInt at h0 ⊢
  cases hn : a.is_negative
  · simp
  · rw [hn] at h0
    simp only [if_true] at h0
    have : decimalValue a.value = 0 := by omega
    have := h.2 (hz.mp this)
    rw [hn] at this
    exact absurd this (by simp)

theorem toInt_of_not_negative {a : BigInt} (h : a.is_negative = false) :
    a.toInt = (decimalValue a.value : Int) := by
  unfold BigInt.toInt; rw [h]; simp

theorem compareUnsigned_nonneg_iff {s t : List Char} (hs : CanonicalDigits s)
    (ht : CanonicalDigits t) :
    compareUnsigned s t ≥ 0 ↔ decimalValue t ≤ decimalValue s := by
  rw [compareUnsigned_spec hs ht]
  split
  · constructor <;> intro <;> omega
  · split
    · constructor <;> intro <;> omega
    · constructor <;> intro <;> omega

theorem divLoop_spec {d : BigInt} (hd : CanonicalDigits d.value) (hdn : d.is_negative = false)
    (hpos : 0 < decimalValue d.value) :
    ∀ (fuel : Nat) (cur : BigInt) (count : Int), cur.Canonical → cur.is_negative = false →
      decimalValue cur.value / decimalValue d.value < fuel →
      ∃ cur2 : BigInt, divLoop fuel cur d count
          = some (cur2, count + ((decimalValue cur.value / decimalValue d.value : Nat) : Int)) ∧
        cur2.Canonical ∧ cur2.is_negative = false ∧
        decimalValue cur2.value = decimalValue cur.value % decimalValue d.value := by
  intro fuel
  induction fuel with
  | zero => intro cur count _ _ h; exact absurd h (Nat.not_lt_zero _)
  | succ fuel ih =>
    intro cur count hc hcn hfuel
    rw [divLoop]
    by_cases hge : decimalValue d.value ≤ decimalValue cur.value
    · rw [if_pos ((compareUnsigned_nonneg_iff hc.1 hd).mpr hge)]
      obtain ⟨s1, s2⟩ := subtract_spec (a := cur) (b := d) hc.1 hd
      rw [toInt_of_not_negative hcn, toInt_of_not_negative hdn] at s2
      obtain ⟨n1, n2⟩ := nonneg_of_canonical s1 (by rw [s2]; omega)
      have hval : decimalValue (cur.subtract d).value
          = decimalValue cur.value - decimalValue d.value := by
        rw [n2] at s2; omega
      have hdiv : decimalValue cur.value / decimalValue d.value
          = (decimalValue cur.value - decimalValue d.value) / decimalValue d.value + 1 := by
        rw [Nat.div_eq_sub_div hpos hge]
      have hmod : decimalValue cur.value % decimalValue d.value
          = (decimalValue cur.value - decimalValue d.value) % decimalValue d.value :=
        Nat.mod_eq_sub_mod hge
      have hfuel2 : (decimalValue cur.value - decimalValue d.value) / decimalValue d.value
          < fuel := by
        rw [hdiv] at hfuel; omega
      obtain ⟨cur2, e1, e2, e3, e4⟩ := ih (cur.subtract d) (count + 1) s1 n1
        (by rw [hval]; exact hfuel2)
      refine ⟨cur2, ?_, e2, e3, ?_⟩
      · rw [e1, hval, hdiv]; push_cast; congr 2; ring
      · rw [e4, hval, hmod]
    · rw [if_neg (fun h => hge ((compareUnsigned_nonneg_iff hc.1 hd).mp h))]
      have hlt : decimalValue cur.value < decimalValue d.value := by omega
      refine ⟨cur, ?_, hc, hcn, (Nat.mod_eq_of_lt hlt).symm⟩
      rw [Nat.div_eq_of_lt hlt]; simp

theorem divDigits_spec {d : BigInt} (hd : CanonicalDigits d.value) (hdn : d.is_negative = false)
    (hpos : 0 < decimalValue d.value) :
    ∀ (cs : List Char), AllDigits cs → ∀ (cur : BigInt) (q : List Char), cur.Canonical →
      cur.is_negative = false → decimalValue cur.value < decimalValue d.value → AllDigits q →
      ∃ q2 : List Char, divDigits d cs cur q = .ok q2 ∧ AllDigits q2 ∧
        decimalValue q2 = decimalValue q * 10 ^ cs.length
          + (decimalValue cur.value * 10 ^ cs.length + decimalValue cs) / decimalValue d.value := by
  intro cs
  induction cs with
  | nil =>
    intro _ cur q _ _ hlt hq
    refine ⟨q, rfl, hq, ?_⟩
    simp [decimalValue_nil, Nat.div_eq_of_lt hlt]
  | cons c cs ih =>
    intro hcs cur q hc hcn hlt hq
    rw [allDigits_cons] at hcs
    obtain ⟨dc, hdc, hdcz, hdcn⟩ := isDigit_cases hcs.1
    -- current_dividend * 10 + digit
    have hten : CanonicalDigits (BigInt.new ['1', '0'] false).value := by decide
    have htenv : (BigInt.new ['1', '0'] false).toInt = 10 := by decide
    obtain ⟨m1, m2⟩ := multiply_spec (a := cur) (b := BigInt.new ['1', '0'] false) hc.1 hten
    have hdig : AllDigits [c] := allDigits_singleton.mpr hcs.1
    obtain ⟨a1, a2⟩ := add_spec (a := cur.multiply (BigInt.new ['1', '0'] false))
      (b := BigInt.new [c] false) m1.1 (canonicalDigits_new hdig false)
    rw [m2, htenv, toInt_new hdig, toInt_of_not_negative hcn] at a2
    simp only [Bool.false_eq_true, if_false] at a2
    have hcv : decimalValue [c] = dc := by
      rw [decimalValue_cons, hdcn]; simp [decimalValue]
    rw [hcv] at a2
    obtain ⟨n1, n2⟩ := nonneg_of_canonical a1 (by rw [a2]; positivity)
    generalize hcur1 : (cur.multiply (BigInt.new ['1', '0'] false)).add (BigInt.new [c] false)
      = cur1 at a1 a2 n1 n2
    have hv1 : decimalValue cur1.value = decimalValue cur.value * 10 + dc := by
      rw [n2] at a2; exact_mod_cast a2
    obtain ⟨cur2, l1, l2, l3, l4⟩ := divLoop_spec hd hdn hpos (whileFuel cur1) cur1 0 a1 n1
      (by
        unfold whileFuel
        exact Nat.lt_succ_of_le (Nat.div_le_self _ _))
    have hcount : decimalValue cur1.value / decimalValue d.value < 10 := by
      rw [Nat.div_lt_iff_lt_mul hpos, hv1]; omega
    rw [divDigits]
    simp only [hcur1, l1, zero_add]
    rw [to_string_digit hcount]
    obtain ⟨q2, i1, i2, i3⟩ := ih hcs.2 cur2
      (q ++ [Nat.digitChar (decimalValue cur1.value / decimalValue d.value)]) l2 l3
      (by rw [l4]; exact Nat.mod_lt _ hpos)
      (allDigits_append.mpr ⟨hq, allDigits_singleton.mpr (isDigit_digitChar hcount)⟩)
    refine ⟨q2, i1, i2, ?_⟩
    rw [i3, decimalValue_append_singleton, digitOf_toNat_digitChar hcount, l4,
      decimalValue_cons, hdcn, List.length_cons, pow_succ]
    generalize decimalValue d.value = D at hpos hcount ⊢
    generalize decimalValue cur1.value = C1 at hv1 hcount ⊢
    generalize decimalValue cur.value = C0 at hv1 ⊢
    generalize decimalValue cs = V
    generalize decimalValue q = Q
    generalize 10 ^ cs.length = P
    have hsplit : C0 * (P * 10) + (dc * P + V) = C1 % D * P + V + D * (C1 / D * P) := by
      have := Nat.mod_add_div C1 D
      have h3 : C1 * P = (C1 % D + D * (C1 / D)) * P := by rw [this]
      rw [hv1] at h3
      nlinarith
    rw [hsplit, Nat.add_mul_div_left _ _ hpos]
    ring

theorem tdiv_signs (x y : Nat) (na nb : Bool) :
    Int.tdiv (if na then -(x : Int) else (x : Int)) (if nb then -(y : Int) else (y : Int))
      = if (na != nb) then -((x / y : Nat) : Int) else ((x / y : Nat) : Int) := by
  have h : (x : Int).tdiv (y : Int) = (x : Int) / (y : Int) :=
    Int.tdiv_eq_ediv (Int.ofNat_nonneg x) (Int.ofNat_nonneg y)
  cases na <;> cases nb <;> simp [Int.tdiv_neg, Int.neg_tdiv, h]

theorem divide_spec {a b : BigInt} (ha : a.Canonical) (hb : b.Canonical) :
    (b.toInt = 0 → a.divide b = .error .divisionByZero) ∧
    (b.toInt ≠ 0 → ∃ q : BigInt, a.divide b = .ok q ∧ q.Canonical ∧
      q.toInt = Int.tdiv a.toInt b.toInt ∧
      decimalValue q.value = decimalValue a.value / decimalValue b.value) := by
  have hbz := toInt_zero_iff hb.1
  constructor
  · intro h0
    unfold BigInt.divide
    rw [if_pos (hbz.mp h0)]
  · intro h0
    have hb0 : b.value ≠ ['0'] := fun h => h0 (hbz.mpr h)
    have hbpos : 0 < decimalValue b.value := by
      rcases Nat.eq_zero_or_pos (decimalValue b.value) with h | h
      · exact absurd ((canonicalDigits_value_zero_iff hb.1).mp h) hb0
      · exact h
    -- the absolute values
    have habs : ∀ x : BigInt, x.Canonical →
        (if x.is_negative then BigInt.new x.value false else x).Canonical ∧
        (if x.is_negative then BigInt.new x.value false else x).is_negative = false ∧
        (if x.is_negative then BigInt.new x.value false else x).value = x.value := by
      intro x hx
      cases hn : x.is_negative
      · simp only [Bool.false_eq_true, if_false]
        exact ⟨hx, hn, trivial⟩
      · simp only [if_true]
        have hc := canonical_new hx.1.2.1 false
        refine ⟨hc, ?_, ?_⟩
        · rw [new_is_negative]; simp
        · exact canonicalDigits_injective hc.1 hx.1 (decimalValue_new _ _)
    obtain ⟨p1, p2, p3⟩ := habs a ha
    obtain ⟨d1, d2, d3⟩ := habs b hb
    have hsign : Int.tdiv a.toInt b.toInt
        = if (a.is_negative != b.is_negative)
          then -((decimalValue a.value / decimalValue b.value : Nat) : Int)
          else ((decimalValue a.value / decimalValue b.value : Nat) : Int) := by
      unfold BigInt.toInt
      exact tdiv_signs _ _ _ _
    unfold BigInt.divide
    rw [if_neg hb0]
    simp only
    generalize (if a.is_negative then BigInt.new a.value false else a) = A at p1 p2 p3
    generalize (if b.is_negative then BigInt.new b.value false else b) = D at d1 d2 d3
    by_cases hlt : compareUnsigned A.value D.value < 0
    · rw [if_pos hlt]
      have hvlt : decimalValue a.value < decimalValue b.value := by
        rw [compareUnsigned_spec p1.1 d1.1, p3, d3] at hlt
        by_contra hcon
        by_cases hgt : decimalValue a.value > decimalValue b.value
        · rw [if_pos hgt] at hlt; omega
        · rw [if_neg hgt, if_neg hcon] at hlt; omega
      refine ⟨_, rfl, by decide, ?_, ?_⟩
      · rw [hsign, Nat.div_eq_of_lt hvlt]
        have : (BigInt.new ['0'] false).toInt = 0 := by decide
        rw [this]; simp
      · rw [Nat.div_eq_of_lt hvlt]; rfl
    · rw [if_neg hlt]
      obtain ⟨q2, e1, e2, e3⟩ := divDigits_spec d1.1 d2 (by rw [d3]; exact hbpos) A.value
        p1.1.2.1 (BigInt.new ['0'] false) [] (by decide) (by decide)
        (by rw [d3]; exact hbpos) allDigits_nil
      rw [e1]
      simp only
      have hq : decimalValue q2 = decimalValue a.value / decimalValue b.value := by
        rw [e3, p3, d3]
        have : decimalValue (BigInt.new ['0'] false).value = 0 := by decide
        rw [this]; simp [decimalValue_nil]
      refine ⟨_, rfl, canonical_new e2 _, ?_, ?_⟩
      · rw [toInt_new e2, hsign, hq]
      · rw [decimalValue_new, hq]

/-! ## `fromBase` -/

theorem to_string_small (n : Nat) (h : n ≤ 36) :
    AllDigits (to_string (n : Int)) ∧ decimalValue (to_string (n : Int)) = n := by
  interval_cases n <;> exact ⟨by decide, by rfl⟩

theorem positionalValue_append_singleton (base : Int) (s : List Char) (c : Char) :
    positionalValue base (s ++ [c])
      = positionalValue base s * base + (digitValue c).getD 0 := by
  induction s with
  | nil => simp [positionalValue]
  | cons d s ih =>
    rw [List.cons_append, positionalValue, positionalValue, ih, List.length_append,
      List.length_singleton, pow_succ]
    ring

/-- A valid digit and its value. -/
theorem validDigit_cases {base : Int} {c : Char} (h : validDigit base c = true) :
    ∃ d : Int, digitValue c = some d ∧ 0 ≤ d ∧ d < base := by
  unfold validDigit at h
  cases hd : digitValue c with
  | none => rw [hd] at h; simp at h
  | some d =>
    rw [hd] at h
    refine ⟨d, rfl, ?_, by simpa using h⟩
    unfold digitValue at hd
    split at hd
    · simp only [Option.some.injEq] at hd; omega
    · split at hd
      · simp only [Option.some.injEq] at hd; omega
      · simp at hd

theorem new_small_digit {d : Int} (h0 : 0 ≤ d) (h36 : d ≤ 36) :
    (BigInt.new (to_string d) false).Canonical ∧ (BigInt.new (to_string d) false).toInt = d := by
  obtain ⟨n, rfl⟩ := Int.eq_ofNat_of_zero_le h0
  obtain ⟨h1, h2⟩ := to_string_small n (by omega)
  refine ⟨canonical_new h1 _, ?_⟩
  rw [toInt_new h1, h2]; simp

/-- One round of the loop of `fromBase` on a valid digit. -/
theorem fromBaseLoop_cons_valid (base : Int) (b : BigInt) (c : Char) (rest : List Char)
    (result power : BigInt) {d : Int} (hd : digitValue c = some d) (hlt : d < base) :
    fromBaseLoop base b (c :: rest) result power
      = fromBaseLoop base b rest
          (result.add (power.multiply (BigInt.new (to_string d) false)))
          (power.multiply b) := by
  unfold digitValue at hd
  rw [fromBaseLoop]
  split at hd
  · next h1 =>
    simp only [Option.some.injEq] at hd
    rw [if_pos h1]
    simp only [hd]
    rw [if_neg (by omega)]
  · next h1 =>
    split at hd
    · next h2 =>
      simp only [Option.some.injEq] at hd
      rw [if_neg h1, if_pos h2]
      have : (c.toNat : Int) - 97 + 10 = d := by omega
      simp only [this]
      rw [if_neg (by omega)]
    · simp at hd

/-- One round of the loop of `fromBase` on a character that is not a valid
digit: one of the two exceptions of the loop is thrown. -/
theorem fromBaseLoop_cons_invalid (base : Int) (b : BigInt) (c : Char) (rest : List Char)
    (result power : BigInt) (h : validDigit base c = false) :
    fromBaseLoop base b (c :: rest) result power = .error .invalidCharacter ∨
    fromBaseLoop base b (c :: rest) result power = .error .invalidDigit := by
  unfold validDigit digitValue at h
  rw [fromBaseLoop]
  by_cases h1 : 48 ≤ c.toNat ∧ c.toNat ≤ 57
  · rw [if_pos h1] at h ⊢
    simp only [decide_eq_false_iff_not, not_lt] at h
    right
    simp only
    rw [if_pos (by omega)]
  · rw [if_neg h1] at h ⊢
    by_cases h2 : 97 ≤ c.toNat ∧ c.toNat ≤ 122
    · rw [if_pos h2] at h ⊢
      simp only [decide_eq_false_iff_not, not_lt] at h
      right
      simp only
      rw [if_pos (by omega)]
    · rw [if_neg h2]
      left; trivial

theorem fromBaseLoop_ok {base : Int} (h36 : base ≤ 36) {b : BigInt}
    (hb : b.Canonical) (hbv : b.toInt = base) :
    ∀ (cs : List Char), (∀ c ∈ cs, validDigit base c = true) → ∀ (result power : BigInt),
      result.Canonical → power.Canonical → 0 ≤ result.toInt → 0 ≤ power.toInt →
      ∃ r : BigInt, fromBaseLoop base b cs result power = .ok r ∧ r.Canonical ∧
        r.toInt = result.toInt + power.toInt * positionalValue base cs.reverse := by
  intro cs
  induction cs with
  | nil =>
    intro _ result power hr _ _ _
    exact ⟨result, rfl, hr, by simp [positionalValue]⟩
  | cons c cs ih =>
    intro hv result power hr hp hr0 hp0
    obtain ⟨d, hd, hd0, hdlt⟩ := validDigit_cases (hv c (List.mem_cons_self _ _))
    obtain ⟨n1, n2⟩ := new_small_digit hd0 (by omega)
    obtain ⟨m1, m2⟩ := multiply_spec (a := power) (b := BigInt.new (to_string d) false) hp.1 n1.1
    obtain ⟨a1, a2⟩ := add_spec (a := result)
      (b := power.multiply (BigInt.new (to_string d) false)) hr.1 m1.1
    obtain ⟨p1, p2⟩ := multiply_spec (a := power) (b := b) hp.1 hb.1
    rw [m2, n2] at a2
    rw [hbv] at p2
    have hbase0 : 0 ≤ base := by omega
    obtain ⟨r, e1, e2, e3⟩ := ih (fun c hc => hv c (List.mem_cons_of_mem _ hc)) _ _ a1 p1
      (by rw [a2]; positivity) (by rw [p2]; positivity)
    refine ⟨r, ?_, e2, ?_⟩
    · rw [fromBaseLoop_cons_valid base b c cs result power hd hdlt, e1]
    · rw [e3, a2, p2, List.reverse_cons, positionalValue_append_singleton, hd]
      simp only [Option.getD_some]
      ring

theorem fromBaseLoop_error (base : Int) (b : BigInt) :
    ∀ (cs : List Char), (∃ c ∈ cs, validDigit base c = false) → ∀ (result power : BigInt),
      fromBaseLoop base b cs result power = .error .invalidCharacter ∨
      fromBaseLoop base b cs result power = .error .invalidDigit := by
  intro cs
  induction cs with
  | nil => rintro ⟨c, hc, -⟩; cases hc
  | cons c cs ih =>
    intro hex result power
    cases hv : validDigit base c with
    | false => exact fromBaseLoop_cons_invalid base b c cs result power hv
    | true =>
      obtain ⟨d, hd, -, hdlt⟩ := validDigit_cases hv
      rw [fromBaseLoop_cons_valid base b c cs result power hd hdlt]
      apply ih
      obtain ⟨x, hx, hxv⟩ := hex
      rcases List.mem_cons.mp hx with rfl | hmem
      · rw [hv] at hxv; cases hxv
      · exact ⟨x, hmem, hxv⟩

theorem fromBase_ok {base : Int} (h2 : 2 ≤ base) (h36 : base ≤ 36) {text : List Char}
    (hv : ∀ c ∈ text, validDigit base c = true) :
    ∃ r : BigInt, BigInt.fromBase text base = .ok r ∧ r.Canonical ∧
      r.toInt = positionalValue base text := by
  obtain ⟨b1, b2⟩ := new_small_digit (d := base) (by omega) h36
  obtain ⟨r, e1, e2, e3⟩ := fromBaseLoop_ok h36 b1 b2 text.reverse
    (fun c hc => hv c (List.mem_reverse.mp hc)) (BigInt.new ['0'] false) (BigInt.new ['1'] false)
    (by decide) (by decide) (by decide) (by decide)
  refine ⟨r, ?_, e2, ?_⟩
  · unfold BigInt.fromBase
    rw [if_neg (by omega), e1]
  · rw [e3, List.reverse_reverse]
    have z : (BigInt.new ['0'] false).toInt = 0 := by decide
    have o : (BigInt.new ['1'] false).toInt = 1 := by decide
    rw [z, o]; ring

/-! ## `generateCombinations` -/

/-- The `for` loop of `generateCombinations` for `k + 1`, given what the
recursive calls for `k` produce. -/
theorem generateCombinations_loop {α : Type} (all : List α) (k : Nat)
    (ih : ∀ start : Nat, ∃ L : List (List α),
      L.Perm (List.sublistsLen k (all.drop start)) ∧
      ∀ cur acc, generateCombinations all start k cur acc = acc ++ L.map (fun c => cur ++ c)) :
    ∀ (c start : Nat), c = all.length + 1 - (k + 1) - start →
      ∃ L : List (List α), L.Perm (List.sublistsLen (k + 1) (all.drop start)) ∧
        ∀ cur acc,
          (List.range' start c).foldl
            (fun acc i =>
              match all[i]? with
              | some s => generateCombinations all (i + 1) k (cur ++ [s]) acc
              | none => acc) acc
          = acc ++ L.map (fun c => cur ++ c) := by
  intro c
  induction c with
  | zero =>
    intro start hc
    refine ⟨[], ?_, by intro cur acc; simp⟩
    rw [List.sublistsLen_of_length_lt (by rw [List.length_drop]; omega)]
  | succ c ihc =>
    intro start hc
    have hstart : start < all.length := by omega
    obtain ⟨L0, p0, e0⟩ := ih (start + 1)
    obtain ⟨L1, p1, e1⟩ := ihc (start + 1) (by omega)
    refine ⟨L0.map (fun l => all[start] :: l) ++ L1, ?_, ?_⟩
    · rw [List.drop_eq_getElem_cons hstart, List.sublistsLen_succ_cons]
      exact (List.perm_append_comm).trans ((p1.append (p0.map _)))
    · intro cur acc
      rw [List.range'_succ, List.foldl_cons, List.getElem?_eq_getElem hstart]
      simp only
      rw [e0, e1]
      simp [List.map_append, List.map_map, Function.comp_def]

theorem generateCombinations_perm {α : Type} (all : List α) :
    ∀ (k start : Nat), ∃ L : List (List α),
      L.Perm (List.sublistsLen k (all.drop start)) ∧
      ∀ cur acc, generateCombinations all start k cur acc = acc ++ L.map (fun c => cur ++ c) := by
  intro k
  induction k with
  | zero =>
    intro start
    refine ⟨[[]], by simp, ?_⟩
    intro cur acc
    simp [generateCombinations]
  | succ k ih =>
    intro start
    obtain ⟨L, p, e⟩ := generateCombinations_loop all k ih _ start rfl
    refine ⟨L, p, ?_⟩
    intro cur acc
    rw [generateCombinations]
    exact e cur acc

theorem generateCombinations_top {α : Type} (all : List α) (k : Nat) :
    (generateCombinations all 0 k [] []).Perm (List.sublistsLen k all) := by
  obtain ⟨L, p, e⟩ := generateCombinations_perm all k 0
  rw [e [] []]
  simpa using p

/-! ## Sign and magnitude of a canonical value -/

theorem canonical_sign_magnitude {r : BigInt} (h : r.Canonical) :
    (r.is_negative = true ↔ r.toInt < 0) ∧ decimalValue r.value = r.toInt.natAbs := by
  have hz := canonicalDigits_value_zero_iff h.1
  have h2 := h.2
  unfold BigInt.toInt
  cases hn : r.is_negative
  · simp
  · simp only [if_true, true_iff]
    have : decimalValue r.value ≠ 0 := by
      intro h0
      have := h2 (hz.mp h0)
      rw [hn] at this; cases this
    constructor
    · omega
    · omega

theorem negate_spec {b : BigInt} (hb : b.Canonical) :
    b.negate.Canonical ∧ b.negate.toInt = -b.toInt := by
  unfold BigInt.negate
  refine ⟨canonical_new hb.1.2.1 _, ?_⟩
  rw [toInt_new hb.1.2.1]
  unfold BigInt.toInt
  cases b.is_negative <;> simp

/-! ## `operator<` on canonical values -/

/-- On canonical values `operator<` is the integer order, except that it
also holds for two equal negative values. -/
theorem operatorLt_spec {a b : BigInt} (ha : a.Canonical) (hb : b.Canonical) :
    a.operatorLt b = true ↔ (a.toInt < b.toInt ∨ (a = b ∧ a.is_negative = true)) := by
  obtain ⟨sa, ma⟩ := canonical_sign_magnitude ha
  obtain ⟨sb, mb⟩ := canonical_sign_magnitude hb
  have hlen1 : a.value.length < b.value.length → decimalValue a.value < decimalValue b.value :=
    length_lt_of_value_lt ha.1 hb.1
  have hlen2 : b.value.length < a.value.length → decimalValue b.value < decimalValue a.value :=
    length_lt_of_value_lt hb.1 ha.1
  have hstr : a.value.length = b.value.length →
      (strLt a.value b.value = true ↔ decimalValue a.value < decimalValue b.value) :=
    strLt_iff_value_lt ha.1.2.1 hb.1.2.1
  have heq : a = b → a.toInt = b.toInt := fun h => by rw [h]
  have hinj : a.toInt = b.toInt → a = b := canonical_injective ha hb
  have hlenne : a.value.length ≠ b.value.length → a ≠ b := fun h e => h (by rw [e])
  unfold BigInt.operatorLt
  cases hna : a.is_negative <;> cases hnb : b.is_negative
  · -- both non-negative
    have h1 : 0 ≤ a.toInt := by by_contra h; have := sa.mpr (by omega); rw [hna] at this; cases this
    have h2 : 0 ≤ b.toInt := by by_contra h; have := sb.mpr (by omega); rw [hnb] at this; cases this
    simp only [bne_self_eq_false, Bool.false_eq_true, if_false, Bool.bne_false, and_false,
      or_false]
    by_cases hl : a.value.length = b.value.length
    · rw [if_neg (by simpa using hl), hstr hl]; omega
    · rw [if_pos hl, decide_eq_true_iff]
      constructor
      · intro h; have := hlen1 h; omega
      · intro h
        by_contra hc
        have := hlen2 (by omega); omega
  · -- a non-negative, b negative
    have h1 : 0 ≤ a.toInt := by by_contra h; have := sa.mpr (by omega); rw [hna] at this; cases this
    have h2 := sb.mp hnb
    simp only [Bool.false_bne, if_true, Bool.false_eq_true, and_false, or_false, false_iff]
    omega
  · -- a negative, b non-negative
    have h1 := sa.mp hna
    have h2 : 0 ≤ b.toInt := by by_contra h; have := sb.mpr (by omega); rw [hnb] at this; cases this
    simp only [Bool.true_bne, Bool.not_false, if_true, and_true, true_iff]
    left; omega
  · -- both negative
    have h1 := sa.mp hna
    have h2 := sb.mp hnb
    simp only [bne_self_eq_false, Bool.false_eq_true, if_false, Bool.bne_true, and_true]
    by_cases hl : a.value.length = b.value.length
    · rw [if_neg (by simpa using hl), Bool.not_eq_true']
      have := hstr hl
      constructor
      · intro h
        have hnlt : ¬ decimalValue a.value < decimalValue b.value := by
          rw [← this, h]; simp
        by_cases he : a.toInt = b.toInt
        · right; exact hinj he
        · left; omega
      · intro h
        have hnlt : ¬ decimalValue a.value < decimalValue b.value := by
          rcases h with h | h
          · omega
          · have := heq h; omega
        cases hs : strLt a.value b.value with
        | false => rfl
        | true => exact absurd (this.mp hs) hnlt
    · rw [if_pos hl, Bool.not_eq_true', decide_eq_false_iff_not]
      constructor
      · intro h
        left
        have := hlen2 (by omega); omega
      · intro h hlt
        have := hlen1 hlt
        rcases h with h | h
        · omega
        · exact hlenne hl h

/-! ## `findSecret` -/

theorem canonical_zero : (BigInt.new ['0'] false).Canonical := by decide

theorem toInt_zero : (BigInt.new ['0'] false).toInt = 0 := by decide

theorem canonical_one : (BigInt.new ['1'] false).Canonical := by decide

theorem toInt_one : (BigInt.new ['1'] false).toInt = 1 := by decide

theorem getD_canonical {l : List BigInt} (h : ∀ x ∈ l, x.Canonical) (i : Nat) :
    (l.getD i (BigInt.new ['0'] false)).Canonical := by
  by_cases hi : i < l.length
  · rw [List.getD_eq_getElem l _ hi]
    exact h _ (List.getElem_mem _)
  · rw [List.getD_eq_default l _ (by omega)]
    exact canonical_zero

theorem getD_toInt (l : List BigInt) (i : Nat) :
    (l.getD i (BigInt.new ['0'] false)).toInt = (l.map BigInt.toInt).getD i 0 := by
  by_cases hi : i < l.length
  · rw [List.getD_eq_getElem l _ hi, List.getD_eq_getElem _ _ (by simpa using hi)]
    simp
  · rw [List.getD_eq_default l _ (by omega), List.getD_eq_default _ _ (by simp; omega)]
    exact toInt_zero

theorem decodeShares_ok : ∀ (shares : List Share), (∀ s ∈ shares, s.WellFormed) →
    ∃ ys : List BigInt,
      decodeShares shares = .ok (shares.map (fun s => BigInt.new s.x false), ys) ∧
      ys.map BigInt.toInt = shares.map Share.yValue ∧ ∀ y ∈ ys, y.Canonical := by
  intro shares
  induction shares with
  | nil => intro _; exact ⟨[], rfl, rfl, by intro y hy; cases hy⟩
  | cons s rest ih =>
    intro h
    obtain ⟨-, h2, h36, hv⟩ := h s (List.mem_cons_self _ _)
    obtain ⟨y, e1, e2, e3⟩ := fromBase_ok h2 h36 hv
    obtain ⟨ys, f1, f2, f3⟩ := ih (fun t ht => h t (List.mem_cons_of_mem _ ht))
    refine ⟨y :: ys, ?_, ?_, ?_⟩
    · rw [decodeShares, e1]
      simp only [f1, List.map_cons]
    · simp only [List.map_cons, f2, e3, Share.yValue]
    · intro z hz
      rcases List.mem_cons.mp hz with rfl | hz
      · exact e2
      · exact f3 z hz

theorem xvals_spec (shares : List Share) (h : ∀ s ∈ shares, s.WellFormed) :
    (∀ x ∈ shares.map (fun s => BigInt.new s.x false), x.Canonical) ∧
    (shares.map (fun s => BigInt.new s.x false)).map BigInt.toInt = shares.map Share.xValue := by
  constructor
  · intro x hx
    rw [List.mem_map] at hx
    obtain ⟨s, hs, rfl⟩ := hx
    exact canonical_new (h s hs).1 _
  · rw [List.map_map]
    apply List.map_congr_left
    intro s hs
    simp only [Function.comp, Share.xValue]
    rw [toInt_new (h s hs).1]; simp

/-- The inner loop of `findSecret`, from any pair of canonical values. -/
theorem lagrangeFold_spec {x_vals : List BigInt} (hx : ∀ x ∈ x_vals, x.Canonical) (j : Nat) :
    ∀ (is : List Nat) (nd : BigInt × BigInt), nd.1.Canonical → nd.2.Canonical →
      (is.foldl (lagrangeStep x_vals j) nd).1.Canonical ∧
      (is.foldl (lagrangeStep x_vals j) nd).2.Canonical ∧
      (is.foldl (lagrangeStep x_vals j) nd).1.toInt
        = nd.1.toInt * ((is.filter (fun i => i ≠ j)).map
            (fun i => 0 - (x_vals.map BigInt.toInt).getD i 0)).prod ∧
      (is.foldl (lagrangeStep x_vals j) nd).2.toInt
        = nd.2.toInt * ((is.filter (fun i => i ≠ j)).map
            (fun i => (x_vals.map BigInt.toInt).getD j 0
              - (x_vals.map BigInt.toInt).getD i 0)).prod := by
  intro is
  induction is with
  | nil => intro nd h1 h2; simp [h1, h2]
  | cons i is ih =>
    intro nd h1 h2
    rw [List.foldl_cons]
    by_cases hij : i ≠ j
    · have ci := getD_canonical hx i
      have cj := getD_canonical hx j
      obtain ⟨s1, s2⟩ := subtract_spec (a := BigInt.new ['0'] false)
        (b := x_vals.getD i (BigInt.new ['0'] false)) canonical_zero.1 ci.1
      obtain ⟨t1, t2⟩ := subtract_spec (a := x_vals.getD j (BigInt.new ['0'] false))
        (b := x_vals.getD i (BigInt.new ['0'] false)) cj.1 ci.1
      obtain ⟨m1, m2⟩ := multiply_spec (a := nd.1) (b := (BigInt.new ['0'] false).subtract
        (x_vals.getD i (BigInt.new ['0'] false))) h1.1 s1.1
      obtain ⟨n1, n2⟩ := multiply_spec (a := nd.2)
        (b := (x_vals.getD j (BigInt.new ['0'] false)).subtract
          (x_vals.getD i (BigInt.new ['0'] false))) h2.1 t1.1
      have hstep : lagrangeStep x_vals j nd i =
          (nd.1.multiply ((BigInt.new ['0'] false).subtract
              (x_vals.getD i (BigInt.new ['0'] false))),
           nd.2.multiply ((x_vals.getD j (BigInt.new ['0'] false)).subtract
              (x_vals.getD i (BigInt.new ['0'] false)))) := by
        unfold lagrangeStep; rw [if_pos hij]
      rw [hstep]
      generalize nd.1.multiply ((BigInt.new ['0'] false).subtract
        (x_vals.getD i (BigInt.new ['0'] false))) = N at m1 m2
      generalize nd.2.multiply ((x_vals.getD j (BigInt.new ['0'] false)).subtract
        (x_vals.getD i (BigInt.new ['0'] false))) = D at n1 n2
      obtain ⟨e1, e2, e3, e4⟩ := ih (N, D) m1 n1
      refine ⟨e1, e2, ?_, ?_⟩
      · rw [e3]
        simp only
        rw [m2, s2, toInt_zero, getD_toInt, List.filter_cons]
        simp only [hij, ne_eq, not_false_eq_true, decide_True, if_true, List.map_cons,
          List.prod_cons]
        ring
      · rw [e4]
        simp only
        rw [n2, t2, getD_toInt, getD_toInt, List.filter_cons]
        simp only [hij, ne_eq, not_false_eq_true, decide_True, if_true, List.map_cons,
          List.prod_cons]
        ring
    · have hstep : lagrangeStep x_vals j nd i = nd := by
        unfold lagrangeStep; rw [if_neg hij]
      rw [hstep]
      obtain ⟨e1, e2, e3, e4⟩ := ih nd h1 h2
      refine ⟨e1, e2, ?_, ?_⟩
      · rw [e3, List.filter_cons]
        simp only [hij, decide_False, Bool.false_eq_true, if_false]
      · rw [e4, List.filter_cons]
        simp only [hij, decide_False, Bool.false_eq_true, if_false]

theorem lagrangeProducts_spec {x_vals : List BigInt} (hx : ∀ x ∈ x_vals, x.Canonical)
    (j : Nat) :
    (lagrangeProducts x_vals j (List.range x_vals.length)).1.Canonical ∧
    (lagrangeProducts x_vals j (List.range x_vals.length)).2.Canonical ∧
    (lagrangeProducts x_vals j (List.range x_vals.length)).1.toInt
      = lagrangeNumerator (x_vals.map BigInt.toInt) j ∧
    (lagrangeProducts x_vals j (List.range x_vals.length)).2.toInt
      = lagrangeDenominator (x_vals.map BigInt.toInt) j := by
  obtain ⟨e1, e2, e3, e4⟩ := lagrangeFold_spec hx j (List.range x_vals.length)
    (BigInt.new ['1'] false, BigInt.new ['1'] false) canonical_one canonical_one
  unfold lagrangeProducts lagrangeNumerator lagrangeDenominator
  refine ⟨e1, e2, ?_, ?_⟩
  · rw [e3, toInt_one, List.length_map]; ring
  · rw [e4, toInt_one, List.length_map]; ring

theorem sumTerms_spec {x_vals y_vals : List BigInt} (hx : ∀ x ∈ x_vals, x.Canonical)
    (hy : ∀ y ∈ y_vals, y.Canonical) :
    ∀ (js : List Nat), (∀ j ∈ js, lagrangeDenominator (x_vals.map BigInt.toInt) j ≠ 0) →
    ∀ (secret : BigInt), secret.Canonical →
      ∃ r : BigInt, sumTerms x_vals y_vals x_vals.length js secret = .ok r ∧ r.Canonical ∧
        r.toInt = secret.toInt + (js.map (fun j =>
          Int.tdiv ((y_vals.map BigInt.toInt).getD j 0
              * lagrangeNumerator (x_vals.map BigInt.toInt) j)
            (lagrangeDenominator (x_vals.map BigInt.toInt) j))).sum := by
  intro js
  induction js with
  | nil => intro _ secret hs; exact ⟨secret, rfl, hs, by simp⟩
  | cons j js ih =>
    intro hden secret hs
    obtain ⟨p1, p2, p3, p4⟩ := lagrangeProducts_spec hx j
    have cy := getD_canonical hy j
    obtain ⟨m1, m2⟩ := multiply_spec (a := y_vals.getD j (BigInt.new ['0'] false))
      (b := (lagrangeProducts x_vals j (List.range x_vals.length)).1) cy.1 p1.1
    have hd0 : (lagrangeProducts x_vals j (List.range x_vals.length)).2.toInt ≠ 0 := by
      rw [p4]; exact hden j (List.mem_cons_self _ _)
    obtain ⟨q, d1, d2, d3, -⟩ := (divide_spec m1 p2).2 hd0
    obtain ⟨a1, a2⟩ := add_spec (a := secret) (b := q) hs.1 d2.1
    obtain ⟨r, e1, e2, e3⟩ := ih (fun i hi => hden i (List.mem_cons_of_mem _ hi))
      (secret.add q) a1
    refine ⟨r, ?_, e2, ?_⟩
    · rw [sumTerms]
      simp only [d1]
      exact e1
    · rw [e3, a2, d3, m2, p3, p4, getD_toInt, List.map_cons, List.sum_cons]
      ring

/-! ## Denominators and the truncated sum -/

theorem getD_ne_of_nodup {xs : List Int} (h : xs.Nodup) {i j : Nat} (hi : i < xs.length)
    (hj : j < xs.length) (hij : i ≠ j) : xs.getD j 0 - xs.getD i 0 ≠ 0 := by
  rw [List.getD_eq_getElem xs 0 hi, List.getD_eq_getElem xs 0 hj]
  intro h0
  have : xs[j] = xs[i] := by omega
  exact hij ((h.getElem_inj_iff).mp this).symm

theorem lagrangeDenominator_ne_zero {xs : List Int} (h : xs.Nodup) {j : Nat}
    (hj : j < xs.length) : lagrangeDenominator xs j ≠ 0 := by
  unfold lagrangeDenominator
  apply List.prod_ne_zero
  intro hmem
  rw [List.mem_map] at hmem
  obtain ⟨i, hi, h0⟩ := hmem
  rw [List.mem_filter, List.mem_range] at hi
  exact getD_ne_of_nodup h hi.1 hj (by simpa using hi.2) h0

/-- On shares with valid encodings and pairwise distinct x values,
`findSecret` returns the sum of the separately truncated Lagrange terms. -/
theorem findSecret_spec (shares : List Share) (hw : ∀ s ∈ shares, s.WellFormed)
    (hx : (shares.map Share.xValue).Nodup) :
    ∃ r : BigInt, findSecret shares = .ok r ∧ r.Canonical ∧
      r.toInt = truncatedLagrange (shares.map Share.xValue) (shares.map Share.yValue) := by
  obtain ⟨ys, d1, d2, d3⟩ := decodeShares_ok shares hw
  obtain ⟨x1, x2⟩ := xvals_spec shares hw
  have hlen : (shares.map (fun s => BigInt.new s.x false)).length = shares.length := by simp
  obtain ⟨r, e1, e2, e3⟩ := sumTerms_spec x1 d3 (List.range shares.length)
    (by
      intro j hj
      rw [x2]
      exact lagrangeDenominator_ne_zero hx (by simpa using hj))
    (BigInt.new ['0'] false) canonical_zero
  refine ⟨r, ?_, e2, ?_⟩
  · unfold findSecret
    rw [d1]
    simp only
    rw [hlen] at e1
    exact e1
  · rw [e3, toInt_zero, x2, d2]
    unfold truncatedLagrange
    simp

/-! ## Lagrange interpolation at zero -/

/-- C3. For canonical `a` and `b`, `divide` throws "Division by zero" exactly
when `b` is zero (no other exception, and the loops finish); otherwise it
returns the canonical quotient truncated toward zero: its magnitude is
`⌊|a| / |b|⌋` and it is negative exactly when the signs of the operands
differ and the magnitude is not zero. -/
theorem divide_truncates_toward_zero (a b : BigInt) (ha : a.Canonical) (hb : b.Canonical) :
    ((∃ e, a.divide b = .error e) ↔ b.toInt = 0) ∧
    (b.toInt = 0 → a.divide b = .error .divisionByZero) ∧
    (b.toInt ≠ 0 → ∃ q : BigInt, a.divide b = .ok q ∧ q.Canonical ∧
      q.toInt = Int.tdiv a.toInt b.toInt ∧
      decimalValue q.value = decimalValue a.value / decimalValue b.value ∧
      (q.is_negative = true ↔
        (a.is_negative ≠ b.is_negative ∧
          decimalValue a.value / decimalValue b.value ≠ 0))) := by
  obtain ⟨h1, h2⟩ := divide_spec ha hb
  have h3 : b.toInt ≠ 0 → ∃ q : BigInt, a.divide b = .ok q ∧ q.Canonical ∧
      q.toInt = Int.tdiv a.toInt b.toInt ∧
      decimalValue q.value = decimalValue a.value / decimalValue b.value ∧
      (q.is_negative = true ↔
        (a.is_negative ≠ b.is_negative ∧
          decimalValue a.value / decimalValue b.value ≠ 0)) := by
    intro h0
    obtain ⟨q, e1, e2, e3, e4⟩ := h2 h0
    refine ⟨q, e1, e2, e3, e4, ?_⟩
    have hs := (canonical_sign_magnitude e2).1
    have hq : q.toInt = if (a.is_negative != b.is_negative)
        then -((decimalValue a.value / decimalValue b.value : Nat) : Int)
        else ((decimalValue a.value / decimalValue b.value : Nat) : Int) := by
      rw [e3]; unfold BigInt.toInt; exact tdiv_signs _ _ _ _
    rw [hs, hq]
    cases a.is_negative <;> cases b.is_negative <;> simp <;> omega
  refine ⟨?_, h1, h3⟩
  constructor
  · rintro ⟨e, he⟩
    by_contra h0
    obtain ⟨q, hq, -⟩ := h3 h0
    rw [hq] at he
    cases he
  · intro h0
    exact ⟨_, h1 h0⟩

/-- Witness for C3: `-17 / 5` is `-3`. -/
theorem divide_truncates_toward_zero_witness :
    (BigInt.new ['1', '7'] true).divide (BigInt.new ['5'] false)
      = .ok (BigInt.new ['3'] true) := by
  obtain ⟨q, h1, h2, h3, -⟩ :=
    (divide_truncates_toward_zero (BigInt.new ['1', '7'] true) (BigInt.new ['5'] false)
      (by decide) (by decide)).2.2 (by decide)
  rw [h1]
  exact congrArg Except.ok (canonical_injective h2 (by decide) (by rw [h3]; decide))

theorem bool_ne_iff {x y : Bool} (h : x ≠ y) : ¬ (x = true ↔ y = true) := by
  cases x <;> cases y <;> simp at h ⊢

theorem bool_eq_of_iff {x y : Bool} {p q : Prop} (hx : x = true ↔ p) (hy : y = true ↔ q)
    (hpq : p ↔ q) : x = y := by
  cases x <;> cases y <;> simp at hx hy <;> tauto

/-- C4. For canonical `a` and `b`, `add` returns the canonical `BigInt` of
the integer sum: operands of the same sign add their magnitudes and keep
the sign, operands of opposite signs subtract the smaller magnitude from the
larger and take the sign of the operand with the larger magnitude, and a
zero result is the non-negative zero. -/
theorem add_is_integer_sum (a b : BigInt) (ha : a.Canonical) (hb : b.Canonical) :
    (a.add b).Canonical ∧ (a.add b).toInt = a.toInt + b.toInt ∧
    (a.is_negative = b.is_negative →
      decimalValue (a.add b).value = decimalValue a.value + decimalValue b.value ∧
      (a.add b).is_negative = a.is_negative) ∧
    (a.is_negative ≠ b.is_negative → decimalValue b.value < decimalValue a.value →
      decimalValue (a.add b).value = decimalValue a.value - decimalValue b.value ∧
      (a.add b).is_negative = a.is_negative) ∧
    (a.is_negative ≠ b.is_negative → decimalValue a.value < decimalValue b.value →
      decimalValue (a.add b).value = decimalValue b.value - decimalValue a.value ∧
      (a.add b).is_negative = b.is_negative) ∧
    (a.is_negative ≠ b.is_negative → decimalValue a.value = decimalValue b.value →
      a.add b = BigInt.new ['0'] false) := by
  obtain ⟨hc, hv⟩ := add_spec ha.1 hb.1
  obtain ⟨sa, ma⟩ := canonical_sign_magnitude ha
  obtain ⟨sb, mb⟩ := canonical_sign_magnitude hb
  obtain ⟨sr, mr⟩ := canonical_sign_magnitude hc
  rw [hv] at sr mr
  refine ⟨hc, hv, ?_, ?_, ?_, ?_⟩
  · intro hs
    have hs2 : a.toInt < 0 ↔ b.toInt < 0 := by rw [← sa, ← sb, hs]
    refine ⟨by rw [mr, ma, mb]; omega, bool_eq_of_iff sr sa (by omega)⟩
  · intro hs hlt
    have hs2 : ¬ (a.toInt < 0 ↔ b.toInt < 0) := by
      rw [← sa, ← sb]; exact bool_ne_iff hs
    rw [ma, mb] at hlt
    refine ⟨by rw [mr, ma, mb]; omega, bool_eq_of_iff sr sa (by omega)⟩
  · intro hs hlt
    have hs2 : ¬ (a.toInt < 0 ↔ b.toInt < 0) := by
      rw [← sa, ← sb]; exact bool_ne_iff hs
    rw [ma, mb] at hlt
    refine ⟨by rw [mr, ma, mb]; omega, bool_eq_of_iff sr sb (by omega)⟩
  · intro hs heq
    have hs2 : ¬ (a.toInt < 0 ↔ b.toInt < 0) := by
      rw [← sa, ← sb]; exact bool_ne_iff hs
    rw [ma, mb] at heq
    apply canonical_injective hc canonical_zero
    rw [hv, toInt_zero]; omega

/-- Witness for C4: `-12 + 5` is `-7`. -/
theorem add_is_integer_sum_witness :
    ((BigInt.new ['1', '2'] true).add (BigInt.new ['5'] false)).Canonical ∧
    ((BigInt.new ['1', '2'] true).add (BigInt.new ['5'] false)).toInt
      = (BigInt.new ['1', '2'] true).toInt + (BigInt.new ['5'] false).toInt :=
  ⟨(add_is_integer_sum _ _ (by decide) (by decide)).1,
   (add_is_integer_sum _ _ (by decide) (by decide)).2.1⟩

/-- C5. For canonical `a` and `b`, `multiply` returns the canonical `BigInt`
of the integer product. The array of the schoolbook loops has
`len a + len b` cells, every cell is a single decimal digit, and the array
holds the product of the magnitudes; the result is negative exactly when the
signs differ and the product is not zero. -/
theorem multiply_is_integer_product (a b : BigInt) (ha : a.Canonical) (hb : b.Canonical) :
    (a.multiply b).Canonical ∧ (a.multiply b).toInt = a.toInt * b.toInt ∧
    (mulArray a.value b.value).length = a.value.length + b.value.length ∧
    (∀ d ∈ mulArray a.value b.value, 0 ≤ d ∧ d ≤ 9) ∧
    arrayValue (mulArray a.value b.value)
      = (decimalValue a.value : Int) * (decimalValue b.value : Int) ∧
    decimalValue (a.multiply b).value = decimalValue a.value * decimalValue b.value ∧
    ((a.multiply b).is_negative = true ↔
      (a.is_negative ≠ b.is_negative ∧ decimalValue a.value * decimalValue b.value ≠ 0)) := by
  obtain ⟨hc, hv⟩ := multiply_spec ha.1 hb.1
  obtain ⟨m1, m2, m3⟩ := mulArray_spec ha.1.2.1 hb.1.2.1
  obtain ⟨sa, ma⟩ := canonical_sign_magnitude ha
  obtain ⟨sb, mb⟩ := canonical_sign_magnitude hb
  obtain ⟨sr, mr⟩ := canonical_sign_magnitude hc
  have hmag : decimalValue (a.multiply b).value = decimalValue a.value * decimalValue b.value := by
    rw [mr, hv, ma, mb, Int.natAbs_mul]
  refine ⟨hc, hv, m1, m2, m3, hmag, ?_⟩
  rw [sr, hv, ma, mb]
  have ha0 : a.is_negative = false → 0 ≤ a.toInt := by
    intro h; by_contra hn; have := sa.mpr (by omega); rw [h] at this; cases this
  have hb0 : b.is_negative = false → 0 ≤ b.toInt := by
    intro h; by_contra hn; have := sb.mpr (by omega); rw [h] at this; cases this
  have hmul : a.toInt.natAbs * b.toInt.natAbs ≠ 0 ↔ (a.toInt ≠ 0 ∧ b.toInt ≠ 0) := by
    rw [Nat.mul_ne_zero_iff]; simp
  rw [hmul]
  cases hna : a.is_negative <;> cases hnb : b.is_negative
  · have h1 := ha0 hna; have h2 := hb0 hnb
    simp only [ne_eq, not_true_eq_false, false_and, iff_false, not_lt]
    exact mul_nonneg h1 h2
  · have h1 := ha0 hna; have h2 := sb.mp hnb
    simp only [ne_eq, Bool.false_eq_true, not_false_eq_true, true_and]
    constructor
    · intro h
      constructor
      · intro h0; rw [h0] at h; simp at h
      · omega
    · rintro ⟨h3, -⟩
      exact mul_neg_of_pos_of_neg (by omega) h2
  · have h1 := sa.mp hna; have h2 := hb0 hnb
    simp only [ne_eq, Bool.true_eq_false, not_false_eq_true, true_and]
    constructor
    · intro h
      constructor
      · omega
      · intro h0; rw [h0] at h; simp at h
    · rintro ⟨-, h3⟩
      exact mul_neg_of_neg_of_pos h1 (by omega)
  · have h1 := sa.mp hna; have h2 := sb.mp hnb
    simp only [ne_eq, not_true_eq_false, false_and, iff_false, not_lt]
    exact le_of_lt (mul_pos_of_neg_of_neg h1 h2)

/-- Witness for C5: `-12 * 5` is `-60`. -/
theorem multiply_is_integer_product_witness :
    ((BigInt.new ['1', '2'] true).multiply (BigInt.new ['5'] false)).Canonical ∧
    ((BigInt.new ['1', '2'] true).multiply (BigInt.new ['5'] false)).toInt
      = (BigInt.new ['1', '2'] true).toInt * (BigInt.new ['5'] false).toInt :=
  ⟨(multiply_is_integer_product _ _ (by decide) (by decide)).1,
   (multiply_is_integer_product _ _ (by decide) (by decide)).2.1⟩

/-- C6. For canonical `a` and `b` (also `b = 0` and `a = b`), `subtract a b`
equals `add a (negate b)`, and it is the canonical `BigInt` of the integer
difference. -/
theorem subtract_eq_add_negate (a b : BigInt) (ha : a.Canonical) (hb : b.Canonical) :
    a.subtract b = a.add b.negate ∧ (a.subtract b).Canonical ∧
      (a.subtract b).toInt = a.toInt - b.toInt := by
  obtain ⟨s1, s2⟩ := subtract_spec ha.1 hb.1
  obtain ⟨n1, n2⟩ := negate_spec hb
  obtain ⟨a1, a2⟩ := add_spec (a := a) (b := b.negate) ha.1 n1.1
  refine ⟨canonical_injective s1 a1 ?_, s1, s2⟩
  rw [s2, a2, n2]; ring

/-- Witness for C6: `7 - 0`, where the flipped copy of `b` is a negative
zero. -/
theorem subtract_eq_add_negate_witness :
    (BigInt.new ['7'] false).subtract (BigInt.new ['0'] false)
      = (BigInt.new ['7'] false).add (BigInt.new ['0'] false).negate :=
  (subtract_eq_add_negate _ _ (by decide) (by decide)).1

/-- C7. For a base in `[2, 36]` and a text whose characters are digits
`0-9` or letters `a-z` with a digit value below the base, `fromBase` returns
the canonical non-negative `BigInt` whose value is the positional value of
the text read most significant digit first. -/
theorem fromBase_positional_value (text : List Char) (base : Int) (h2 : 2 ≤ base)
    (h36 : base ≤ 36) (hv : ∀ c ∈ text, validDigit base c = true) :
    ∃ r : BigInt, BigInt.fromBase text base = .ok r ∧ r.Canonical ∧ r.is_negative = false ∧
      r.toInt = positionalValue base text := by
  obtain ⟨r, e1, e2, e3⟩ := fromBase_ok h2 h36 hv
  have hpos : ∀ (s : List Char), (∀ c ∈ s, validDigit base c = true) →
      0 ≤ positionalValue base s := by
    intro s
    induction s with
    | nil => intro _; exact le_refl _
    | cons c s ih =>
      intro hs
      obtain ⟨d, hd, hd0, -⟩ := validDigit_cases (hs c (List.mem_cons_self _ _))
      have := ih (fun x hx => hs x (List.mem_cons_of_mem _ hx))
      rw [positionalValue, hd]
      simp only [Option.getD_some]
      have hb : 0 ≤ base ^ s.length := pow_nonneg (by omega) _
      have := mul_nonneg hd0 hb
      omega
  exact ⟨r, e1, e2, (nonneg_of_canonical e2 (by rw [e3]; exact hpos text hv)).1, e3⟩

/-- Witness for C7: the three decodings of the specification,
`fromBase("111", 2) = 7`, `fromBase("213", 4) = 39` and
`fromBase("ff", 16) = 255`. -/
theorem fromBase_positional_value_witness :
    (∃ r : BigInt, BigInt.fromBase ['1', '1', '1'] 2 = .ok r ∧ r.Canonical ∧
      r.is_negative = false ∧ r.toInt = 7) ∧
    (∃ r : BigInt, BigInt.fromBase ['2', '1', '3'] 4 = .ok r ∧ r.Canonical ∧
      r.is_negative = false ∧ r.toInt = 39) ∧
    (∃ r : BigInt, BigInt.fromBase ['f', 'f'] 16 = .ok r ∧ r.Canonical ∧
      r.is_negative = false ∧ r.toInt = 255) :=
  ⟨fromBase_positional_value ['1', '1', '1'] 2 (by decide) (by decide) (by decide),
   fromBase_positional_value ['2', '1', '3'] 4 (by decide) (by decide) (by decide),
   fromBase_positional_value ['f', 'f'] 16 (by decide) (by decide) (by decide)⟩

/-- C8. `fromBase` throws "Invalid base" exactly when the base is outside
`[2, 36]`, whatever the text. For a base in `[2, 36]` it throws one of the
two exceptions of its loop ("Invalid character in base conversion",
"Invalid digit for base") exactly when some character of the text is not a
valid digit for the base, and it returns a value otherwise. -/
theorem fromBase_errors (text : List Char) (base : Int) :
    (BigInt.fromBase text base = .error .invalidBase ↔ (base < 2 ∨ 36 < base)) ∧
    ((2 ≤ base ∧ base ≤ 36) →
      ((BigInt.fromBase text base = .error .invalidCharacter ∨
          BigInt.fromBase text base = .error .invalidDigit) ↔
        ∃ c ∈ text, validDigit base c = false) ∧
      ((∀ c ∈ text, validDigit base c = true) → ∃ r, BigInt.fromBase text base = .ok r)) := by
  have hloop : ∀ b : Int, ¬ (b < 2 ∨ b > 36) → BigInt.fromBase text b
      = fromBaseLoop b (BigInt.new (to_string b) false) text.reverse
          (BigInt.new ['0'] false) (BigInt.new ['1'] false) := by
    intro b hb; unfold BigInt.fromBase; rw [if_neg hb]
  have herr : (2 ≤ base ∧ base ≤ 36) → (∃ c ∈ text, validDigit base c = false) →
      (BigInt.fromBase text base = .error .invalidCharacter ∨
        BigInt.fromBase text base = .error .invalidDigit) := by
    rintro ⟨h2, h36⟩ ⟨c, hc, hcv⟩
    rw [hloop base (by omega)]
    exact fromBaseLoop_error base _ text.reverse ⟨c, List.mem_reverse.mpr hc, hcv⟩ _ _
  have hok : (2 ≤ base ∧ base ≤ 36) → (∀ c ∈ text, validDigit base c = true) →
      ∃ r, BigInt.fromBase text base = .ok r := by
    rintro ⟨h2, h36⟩ hv
    obtain ⟨r, e, -⟩ := fromBase_ok h2 h36 hv
    exact ⟨r, e⟩
  have hdich : (∃ c ∈ text, validDigit base c = false) ∨
      (∀ c ∈ text, validDigit base c = true) := by
    by_cases h : ∃ c ∈ text, validDigit base c = false
    · exact Or.inl h
    · right
      intro c hc
      cases hv : validDigit base c with
      | true => rfl
      | false => exact absurd ⟨c, hc, hv⟩ h
  refine ⟨?_, ?_⟩
  · constructor
    · intro h
      by_contra hb
      have hr : 2 ≤ base ∧ base ≤ 36 := by omega
      rcases hdich with hex | hall
      · rcases herr hr hex with e | e <;> rw [e] at h <;> cases h
      · obtain ⟨r, e⟩ := hok hr hall
        rw [e] at h; cases h
    · intro hb
      unfold BigInt.fromBase
      rw [if_pos (by omega)]
  · intro hr
    refine ⟨⟨?_, herr hr⟩, hok hr⟩
    intro h
    rcases hdich with hex | hall
    · exact hex
    · obtain ⟨r, e⟩ := hok hr hall
      rcases h with h | h <;> rw [e] at h <;> cases h

/-- Witness for C8: in base 2 the text `"12"` contains the character `'2'`,
which is not a digit of the base. -/
theorem fromBase_errors_witness :
    (BigInt.fromBase ['1', '2'] 2 = .error .invalidCharacter ∨
        BigInt.fromBase ['1', '2'] 2 = .error .invalidDigit) ↔
      ∃ c ∈ ['1', '2'], validDigit 2 c = false :=
  ((fromBase_errors ['1', '2'] 2).2 (by decide)).1

/-- C9 fails on the code: for the canonical value `-5`, `operator<` answers
`true` on `(-5, -5)`, although `operator==` answers `true` as well. -/
theorem operatorLt_holds_on_equal_negatives :
    (BigInt.new ['5'] true).Canonical ∧
    (BigInt.new ['5'] true).toInt = -5 ∧
    (BigInt.new ['5'] true).operatorLt (BigInt.new ['5'] true) = true ∧
    (BigInt.new ['5'] true).operatorEq (BigInt.new ['5'] true) = true := by
  decide

/-- C10. For a list of pairwise distinct items, `generateCombinations`
started at index 0 with empty accumulators produces exactly the `k`-element
subsequences of the list: an entry is produced if and only if it is a
subsequence (relative order kept) of length `k`, no entry is produced twice,
and there are `C(n, k)` entries. -/
theorem generateCombinations_exact {α : Type} (items : List α) (k : Nat)
    (hd : items.Nodup) (hk : k ≤ items.length) :
    (∀ c : List α, c ∈ generateCombinations items 0 k [] [] ↔
      (c.Sublist items ∧ c.length = k)) ∧
    (generateCombinations items 0 k [] []).Nodup ∧
    (generateCombinations items 0 k [] []).length = Nat.choose items.length k ∧
    0 < (generateCombinations items 0 k [] []).length := by
  have hp := generateCombinations_top items k
  refine ⟨?_, ?_, ?_, ?_⟩
  · intro c
    rw [hp.mem_iff, List.mem_sublistsLen]
  · exact hp.nodup_iff.mpr (List.nodup_sublistsLen k hd)
  · rw [hp.length_eq, List.length_sublistsLen]
  · rw [hp.length_eq, List.length_sublistsLen]
    exact Nat.choose_pos hk

/-- Witness for C10: the 2-element subsequences of a list of four items. -/
theorem generateCombinations_exact_witness :
    (generateCombinations [1, 2, 3, 6] 0 2 [] []).Nodup ∧
    (generateCombinations [1, 2, 3, 6] 0 2 [] []).length = Nat.choose 4 2 :=
  ⟨(generateCombinations_exact [1, 2, 3, 6] 2 (by decide) (by decide)).2.1,
   (generateCombinations_exact [1, 2, 3, 6] 2 (by decide) (by decide)).2.2.1⟩

/-- C2 fails as stated: on the four shares of test case 1 with `k = 3`, the
run does not report exactly one incorrect key, whatever secret it prints. -/
theorem consensus_test_case_1_counterexample :
    ¬ ∃ (w : List Char) (bad : List Char),
      consensus [Share.mk ['1'] ['4'] 10, Share.mk ['2'] ['1', '1', '1'] 2,
        Share.mk ['3'] ['1', '2'] 10, Share.mk ['6'] ['2', '1', '3'] 4] 3
        = .ok (w, [bad]) := by
  rintro ⟨w, bad, h⟩
  have h2 : consensus [Share.mk ['1'] ['4'] 10, Share.mk ['2'] ['1', '1', '1'] 2,
        Share.mk ['3'] ['1', '2'] 10, Share.mk ['6'] ['2', '1', '3'] 4] 3
        = .ok (['2'], []) := by rfl
  rw [h2] at h
  cases h

/-- C2, amended. On the four shares of test case 1 with `k = 3`, every share
lies on the polynomial `x^2 + 3`, the subset of the first three shares is
reconstructed as `3`, and the run reports no incorrect key. -/
theorem consensus_test_case_1 :
    (∀ s ∈ [Share.mk ['1'] ['4'] 10, Share.mk ['2'] ['1', '1', '1'] 2,
        Share.mk ['3'] ['1', '2'] 10, Share.mk ['6'] ['2', '1', '3'] 4],
      s.WellFormed ∧
        (Polynomial.X ^ 2 + Polynomial.C 3 : Polynomial Int).eval s.xValue = s.yValue) ∧
    findSecret [Share.mk ['1'] ['4'] 10, Share.mk ['2'] ['1', '1', '1'] 2,
        Share.mk ['3'] ['1', '2'] 10] = .ok (BigInt.new ['3'] false) ∧
    ∃ w : List Char,
      consensus [Share.mk ['1'] ['4'] 10, Share.mk ['2'] ['1', '1', '1'] 2,
        Share.mk ['3'] ['1', '2'] 10, Share.mk ['6'] ['2', '1', '3'] 4] 3
        = .ok (w, []) := by
  refine ⟨?_, by rfl, ⟨['2'], by rfl⟩⟩
  intro s hs
  simp only [List.mem_cons, List.mem_singleton, List.not_mem_nil, or_false] at hs
  rcases hs with rfl | rfl | rfl | rfl
  · exact ⟨by decide, by
      simp [Share.xValue, Share.yValue, decimalValue, digitOf, positionalValue, digitValue]⟩
  · exact ⟨by decide, by
      simp [Share.xValue, Share.yValue, decimalValue, digitOf, positionalValue, digitValue]⟩
  · exact ⟨by decide, by
      simp [Share.xValue, Share.yValue, decimalValue, digitOf, positionalValue, digitValue]⟩
  · exact ⟨by decide, by
      simp [Share.xValue, Share.yValue, decimalValue, digitOf, positionalValue, digitValue]⟩

/-! # Further proofs -/

/-! ## Further facts on the enumerator and the constructor -/

theorem exists_sublist_of_mem {α : Type} {items : List α} {x : α} (hx : x ∈ items) {k : Nat}
    (h1 : 1 ≤ k) (hk : k ≤ items.length) :
    ∃ c : List α, c.Sublist items ∧ c.length = k ∧ x ∈ c := by
  obtain ⟨l1, l2, rfl⟩ := List.append_of_mem hx
  simp only [List.length_append, List.length_cons] at hk
  refine ⟨l1.take (min (k - 1) l1.length) ++ x :: l2.take (k - 1 - min (k - 1) l1.length),
    ?_, ?_, by simp⟩
  · exact (List.take_sublist _ _).append ((List.take_sublist _ _).cons₂ x)
  · simp only [List.length_append, List.length_cons, List.length_take]
    omega

theorem operatorEq_iff (a b : BigInt) : a.operatorEq b = true ↔ a = b := by
  cases a; cases b
  simp [BigInt.operatorEq]

theorem toInt_new_signedValue {s : List Char} (h : AllDigits s) (neg : Bool) :
    (BigInt.new s neg).toInt = signedValue s neg := toInt_new h neg

/-! ## Exact terms, and the failure of `findSecret` on equal x values -/

theorem truncated_eq_exact {xs ys : List Int} (hx : xs.Nodup)
    (hdvd : ∀ j, j < xs.length →
      lagrangeDenominator xs j ∣ ys.getD j 0 * lagrangeNumerator xs j) :
    ((truncatedLagrange xs ys : Int) : ℚ) = exactLagrange xs ys := by
  unfold truncatedLagrange exactLagrange
  rw [Int.cast_list_sum, List.map_map]
  congr 1
  apply List.map_congr_left
  intro j hj
  rw [List.mem_range] at hj
  have hd0 : lagrangeDenominator xs j ≠ 0 := lagrangeDenominator_ne_zero hx hj
  have hdq : ((lagrangeDenominator xs j : Int) : ℚ) ≠ 0 := by exact_mod_cast hd0
  simp only [Function.comp]
  rw [Int.tdiv_eq_ediv_of_dvd (hdvd j hj), Int.cast_div (hdvd j hj) hdq, Int.cast_mul]

theorem lagrangeDenominator_eq_zero {xs : List Int} {i j : Nat} (hi : i < xs.length)
    (hij : i ≠ j) (h : xs.getD i 0 = xs.getD j 0) : lagrangeDenominator xs j = 0 := by
  unfold lagrangeDenominator
  apply List.prod_eq_zero
  rw [List.mem_map]
  refine ⟨i, ?_, by rw [h]; ring⟩
  rw [List.mem_filter, List.mem_range]
  exact ⟨hi, by simpa using hij⟩

theorem exists_equal_positions {xs : List Int} (h : ¬ xs.Nodup) :
    ∃ i j, i < j ∧ j < xs.length ∧ xs.getD i 0 = xs.getD j 0 := by
  rw [List.nodup_iff_getElem?_ne_getElem?] at h
  push_neg at h
  obtain ⟨i, j, hij, hj, he⟩ := h
  exact ⟨i, j, hij, hj, by
    rw [List.getD_eq_getElem?_getD, List.getD_eq_getElem?_getD, he]⟩

theorem nodup_of_no_equal_positions {xs : List Int}
    (h : ¬ ∃ i j, i < j ∧ j < xs.length ∧ xs.getD i 0 = xs.getD j 0) : xs.Nodup := by
  by_contra hn
  exact h (exists_equal_positions hn)

theorem not_nodup_of_equal_positions {xs : List Int} {i j : Nat} (hij : i < j)
    (hj : j < xs.length) (h : xs.getD i 0 = xs.getD j 0) : ¬ xs.Nodup := by
  intro hn
  have hi : i < xs.length := by omega
  have hne : i ≠ j := by omega
  exact getD_ne_of_nodup hn hi hj hne (by rw [h]; ring)

theorem sumTerms_error {x_vals y_vals : List BigInt} (hx : ∀ x ∈ x_vals, x.Canonical)
    (hy : ∀ y ∈ y_vals, y.Canonical) :
    ∀ (js : List Nat), (∃ j ∈ js, lagrangeDenominator (x_vals.map BigInt.toInt) j = 0) →
    ∀ (secret : BigInt), secret.Canonical →
      sumTerms x_vals y_vals x_vals.length js secret = .error .divisionByZero := by
  intro js
  induction js with
  | nil => rintro ⟨j, hj, -⟩; cases hj
  | cons j js ih =>
    intro hex secret hs
    obtain ⟨p1, p2, p3, p4⟩ := lagrangeProducts_spec hx j
    have cy := getD_canonical hy j
    obtain ⟨m1, m2⟩ := multiply_spec (a := y_vals.getD j (BigInt.new ['0'] false))
      (b := (lagrangeProducts x_vals j (List.range x_vals.length)).1) cy.1 p1.1
    by_cases hz : lagrangeDenominator (x_vals.map BigInt.toInt) j = 0
    · have d1 := (divide_spec m1 p2).1 (by rw [p4]; exact hz)
      rw [sumTerms]
      simp only [d1]
    · have hd0 : (lagrangeProducts x_vals j (List.range x_vals.length)).2.toInt ≠ 0 := by
        rw [p4]; exact hz
      obtain ⟨q, d1, d2, -⟩ := (divide_spec m1 p2).2 hd0
      obtain ⟨a1, -⟩ := add_spec (a := secret) (b := q) hs.1 d2.1
      have htail : ∃ i ∈ js, lagrangeDenominator (x_vals.map BigInt.toInt) i = 0 := by
        obtain ⟨i, hi, hiz⟩ := hex
        rcases List.mem_cons.mp hi with rfl | hi
        · exact absurd hiz hz
        · exact ⟨i, hi, hiz⟩
      rw [sumTerms]
      simp only [d1]
      exact ih htail (secret.add q) a1

/-- On shares with valid encodings of which two have the same x value,
`findSecret` throws "Division by zero". -/
theorem findSecret_duplicate (shares : List Share) (hw : ∀ s ∈ shares, s.WellFormed)
    (hdup : ¬ (shares.map Share.xValue).Nodup) :
    findSecret shares = .error .divisionByZero := by
  obtain ⟨ys, d1, -, d3⟩ := decodeShares_ok shares hw
  obtain ⟨x1, x2⟩ := xvals_spec shares hw
  have hlen : (shares.map (fun s => BigInt.new s.x false)).length = shares.length := by simp
  obtain ⟨i, j, hij, hj, he⟩ := exists_equal_positions hdup
  have hz : lagrangeDenominator (shares.map Share.xValue) j = 0 :=
    lagrangeDenominator_eq_zero (by omega) (by omega) he
  have := sumTerms_error x1 d3 (List.range shares.length)
    ⟨j, by rw [List.mem_range]; simpa using hj, by rw [x2]; exact hz⟩
    (BigInt.new ['0'] false) canonical_zero
  unfold findSecret
  rw [d1]
  simp only
  rw [hlen] at this
  exact this

theorem truncatedLagrange_singleton (x y : Int) : truncatedLagrange [x] [y] = y := by
  simp [truncatedLagrange, lagrangeNumerator, lagrangeDenominator, List.range_succ]

/-! ## The order of the shares -/

theorem map_getD_range (xs : List Int) :
    (List.range xs.length).map (fun i => xs.getD i 0) = xs := by
  apply List.ext_getElem
  · simp
  · intro i h1 h2
    simp only [List.getElem_map, List.getElem_range]
    exact List.getD_eq_getElem xs 0 h2

theorem filter_index_eq_filter_value {xs : List Int} (hx : xs.Nodup) {j : Nat}
    (hj : j < xs.length) (f : Int → Int) :
    ((List.range xs.length).filter (fun i => i ≠ j)).map (fun i => f (xs.getD i 0))
      = (xs.filter (fun z => z ≠ xs.getD j 0)).map f := by
  have hfilter : (List.range xs.length).filter (fun i => i ≠ j)
      = (List.range xs.length).filter
          ((fun z => decide (z ≠ xs.getD j 0)) ∘ (fun i => xs.getD i 0)) := by
    apply List.filter_congr
    intro i hi
    rw [List.mem_range] at hi
    simp only [Function.comp, decide_eq_decide]
    constructor
    · intro hij h
      exact getD_ne_of_nodup hx hi hj hij (by rw [h]; ring)
    · intro h hij
      exact h (by rw [hij])
  rw [hfilter]
  calc ((List.range xs.length).filter
          ((fun z => decide (z ≠ xs.getD j 0)) ∘ (fun i => xs.getD i 0))).map
          (fun i => f (xs.getD i 0))
      = ((((List.range xs.length).filter
          ((fun z => decide (z ≠ xs.getD j 0)) ∘ (fun i => xs.getD i 0))).map
          (fun i => xs.getD i 0))).map f := by
        rw [List.map_map]; rfl
    _ = ((((List.range xs.length).map (fun i => xs.getD i 0))).filter
          (fun z => decide (z ≠ xs.getD j 0))).map f := by
        rw [List.filter_map]
    _ = (xs.filter (fun z => z ≠ xs.getD j 0)).map f := by
        rw [map_getD_range]

theorem lagrangeNumerator_eq_at {xs : List Int} (hx : xs.Nodup) {j : Nat}
    (hj : j < xs.length) : lagrangeNumerator xs j = numeratorAt xs (xs.getD j 0) := by
  unfold lagrangeNumerator numeratorAt
  rw [filter_index_eq_filter_value hx hj (fun z => 0 - z)]

theorem lagrangeDenominator_eq_at {xs : List Int} (hx : xs.Nodup) {j : Nat}
    (hj : j < xs.length) : lagrangeDenominator xs j = denominatorAt xs (xs.getD j 0) := by
  unfold lagrangeDenominator denominatorAt
  rw [filter_index_eq_filter_value hx hj (fun z => xs.getD j 0 - z)]

theorem truncatedLagrange_eq_sum (shares : List Share)
    (hx : (shares.map Share.xValue).Nodup) :
    truncatedLagrange (shares.map Share.xValue) (shares.map Share.yValue)
      = (shares.map (fun s =>
          Int.tdiv (s.yValue * numeratorAt (shares.map Share.xValue) s.xValue)
            (denominatorAt (shares.map Share.xValue) s.xValue))).sum := by
  unfold truncatedLagrange
  congr 1
  apply List.ext_getElem
  · simp
  · intro j h1 h2
    have hj : j < shares.length := by simpa using h2
    have hjx : j < (shares.map Share.xValue).length := by simpa using hj
    simp only [List.getElem_map, List.getElem_range]
    rw [lagrangeNumerator_eq_at hx hjx, lagrangeDenominator_eq_at hx hjx,
      List.getD_eq_getElem _ _ hjx,
      List.getD_eq_getElem _ _ (show j < (shares.map Share.yValue).length by simpa using hj)]
    simp only [List.getElem_map]

theorem numeratorAt_perm {xs xs2 : List Int} (hp : xs.Perm xs2) (x : Int) :
    numeratorAt xs x = numeratorAt xs2 x := by
  unfold numeratorAt
  exact ((hp.filter _).map _).prod_eq

theorem denominatorAt_perm {xs xs2 : List Int} (hp : xs.Perm xs2) (x : Int) :
    denominatorAt xs x = denominatorAt xs2 x := by
  unfold denominatorAt
  exact ((hp.filter _).map _).prod_eq

theorem truncatedLagrange_perm {l l2 : List Share} (hp : l.Perm l2)
    (hx : (l.map Share.xValue).Nodup) :
    truncatedLagrange (l.map Share.xValue) (l.map Share.yValue)
      = truncatedLagrange (l2.map Share.xValue) (l2.map Share.yValue) := by
  have hpx : (l.map Share.xValue).Perm (l2.map Share.xValue) := hp.map _
  have hx2 : (l2.map Share.xValue).Nodup := hpx.nodup_iff.mp hx
  rw [truncatedLagrange_eq_sum l hx, truncatedLagrange_eq_sum l2 hx2]
  have hfun : (fun s : Share =>
        Int.tdiv (s.yValue * numeratorAt (l.map Share.xValue) s.xValue)
          (denominatorAt (l.map Share.xValue) s.xValue))
      = (fun s : Share =>
        Int.tdiv (s.yValue * numeratorAt (l2.map Share.xValue) s.xValue)
          (denominatorAt (l2.map Share.xValue) s.xValue)) := by
    funext s
    rw [numeratorAt_perm hpx, denominatorAt_perm hpx]
  rw [hfun]
  exact (hp.map _).sum_eq

theorem fromBase_undecodable {s : Share} (h : ¬ s.Decodable) :
    ∃ e, BigInt.fromBase s.y s.base = .error e := by
  by_cases hb : 2 ≤ s.base ∧ s.base ≤ 36
  · have hex : ∃ c ∈ s.y.reverse, validDigit s.base c = false := by
      by_contra hcon
      apply h
      refine ⟨hb.1, hb.2, ?_⟩
      intro c hc
      cases hv : validDigit s.base c with
      | true => rfl
      | false => exact absurd ⟨c, List.mem_reverse.mpr hc, hv⟩ hcon
    unfold BigInt.fromBase
    rw [if_neg (by omega)]
    rcases fromBaseLoop_error s.base _ s.y.reverse hex (BigInt.new ['0'] false)
      (BigInt.new ['1'] false) with e | e
    · exact ⟨_, e⟩
    · exact ⟨_, e⟩
  · unfold BigInt.fromBase
    rw [if_pos (by omega)]
    exact ⟨_, rfl⟩

theorem decodeShares_error : ∀ (shares : List Share), (∃ s ∈ shares, ¬ s.Decodable) →
    ∃ e, decodeShares shares = .error e := by
  intro shares
  induction shares with
  | nil => rintro ⟨s, hs, -⟩; cases hs
  | cons s rest ih =>
    intro hex
    rw [decodeShares]
    cases hf : BigInt.fromBase s.y s.base with
    | error e => exact ⟨e, rfl⟩
    | ok y =>
      have hrest : ∃ t ∈ rest, ¬ t.Decodable := by
        obtain ⟨t, ht, hnt⟩ := hex
        rcases List.mem_cons.mp ht with rfl | ht
        · obtain ⟨e, he⟩ := fromBase_undecodable hnt
          rw [hf] at he; cases he
        · exact ⟨t, ht, hnt⟩
      obtain ⟨e, he⟩ := ih hrest
      simp only [he]
      exact ⟨e, rfl⟩

theorem findSecret_undecodable (shares : List Share) (h : ∃ s ∈ shares, ¬ s.Decodable) :
    ∃ e, findSecret shares = .error e := by
  obtain ⟨e, he⟩ := decodeShares_error shares h
  unfold findSecret
  rw [he]
  exact ⟨e, rfl⟩

/-- The three cases of `findSecret` on shares whose ids are decimal digit
strings. -/
theorem findSecret_cases (shares : List Share) (hid : ∀ s ∈ shares, AllDigits s.x) :
    ((∀ s ∈ shares, s.Decodable) ∧ (shares.map Share.xValue).Nodup ∧
      ∃ r : BigInt, findSecret shares = .ok r ∧ r.Canonical ∧
        r.toInt = truncatedLagrange (shares.map Share.xValue) (shares.map Share.yValue)) ∨
    (¬ ((∀ s ∈ shares, s.Decodable) ∧ (shares.map Share.xValue).Nodup) ∧
      ∃ e, findSecret shares = .error e) := by
  by_cases hd : ∀ s ∈ shares, s.Decodable
  · have hw : ∀ s ∈ shares, s.WellFormed := fun s hs =>
      ⟨hid s hs, (hd s hs).1, (hd s hs).2.1, (hd s hs).2.2⟩
    by_cases hx : (shares.map Share.xValue).Nodup
    · exact Or.inl ⟨hd, hx, findSecret_spec shares hw hx⟩
    · exact Or.inr ⟨fun h => hx h.2, _, findSecret_duplicate shares hw hx⟩
  · refine Or.inr ⟨fun h => hd h.1, findSecret_undecodable shares ?_⟩
    by_contra hcon
    apply hd
    intro s hs
    by_contra hns
    exact hcon ⟨s, hs, hns⟩

theorem findSecret_perm_ok {l l2 : List Share} (hp : l.Perm l2)
    (hid : ∀ s ∈ l, AllDigits s.x) {r : BigInt} (h : findSecret l = .ok r) :
    findSecret l2 = .ok r := by
  have hid2 : ∀ s ∈ l2, AllDigits s.x := fun s hs => hid s (hp.mem_iff.mpr hs)
  rcases findSecret_cases l hid with ⟨hd, hx, r1, e1, e2, e3⟩ | ⟨-, e, he⟩
  · have hd2 : ∀ s ∈ l2, s.Decodable := fun s hs => hd s (hp.mem_iff.mpr hs)
    have hx2 : (l2.map Share.xValue).Nodup := (hp.map _).nodup_iff.mp hx
    rcases findSecret_cases l2 hid2 with ⟨-, -, r2, f1, f2, f3⟩ | ⟨hn, -⟩
    · have h12 : r2 = r1 := by
        apply canonical_injective f2 e2
        rw [f3, e3, truncatedLagrange_perm hp hx]
      rw [h] at e1
      cases e1
      rw [f1, h12]
    · exact absurd ⟨hd2, hx2⟩ hn
  · rw [h] at he; cases he

/-! ## The order of `std::string` -/

theorem char_eq_of_toNat_eq {a b : Char} (h : a.toNat = b.toNat) : a = b := by
  rw [← Char.ofNat_toNat a, ← Char.ofNat_toNat b, h]

theorem strLt_irrefl : ∀ (s : List Char), strLt s s = false := by
  intro s
  induction s with
  | nil => rfl
  | cons c s ih => simp [strLt, ih]

theorem strLt_trans : ∀ {a b c : List Char}, strLt a b = true → strLt b c = true →
    strLt a c = true := by
  intro a
  induction a with
  | nil =>
    intro b c h1 h2
    cases b with
    | nil => simp [strLt] at h1
    | cons y b =>
      cases c with
      | nil => simp [strLt] at h2
      | cons z c => rfl
  | cons x a ih =>
    intro b c h1 h2
    cases b with
    | nil => simp [strLt] at h1
    | cons y b =>
      cases c with
      | nil => simp [strLt] at h2
      | cons z c =>
        unfold strLt at h1 h2 ⊢
        by_cases hxy : x.toNat < y.toNat
        · by_cases hyz : y.toNat < z.toNat
          · rw [if_pos (by omega)]
          · rw [if_neg hyz] at h2
            by_cases hzy : z.toNat < y.toNat
            · rw [if_pos hzy] at h2; cases h2
            · rw [if_pos (by omega)]
        · rw [if_neg hxy] at h1
          by_cases hyx : y.toNat < x.toNat
          · rw [if_pos hyx] at h1; cases h1
          · rw [if_neg hyx] at h1
            by_cases hyz : y.toNat < z.toNat
            · rw [if_pos (by omega)]
            · rw [if_neg hyz] at h2
              by_cases hzy : z.toNat < y.toNat
              · rw [if_pos hzy] at h2; cases h2
              · rw [if_neg hzy] at h2
                rw [if_neg (by omega), if_neg (by omega)]
                exact ih h1 h2

theorem strLt_total : ∀ {a b : List Char}, a ≠ b → strLt a b = false → strLt b a = true := by
  intro a
  induction a with
  | nil =>
    intro b hne h
    cases b with
    | nil => exact absurd rfl hne
    | cons y b => simp [strLt] at h
  | cons x a ih =>
    intro b hne h
    cases b with
    | nil => rfl
    | cons y b =>
      unfold strLt at h ⊢
      by_cases hxy : x.toNat < y.toNat
      · rw [if_pos hxy] at h; cases h
      · rw [if_neg hxy] at h
        by_cases hyx : y.toNat < x.toNat
        · rw [if_pos hyx]
        · rw [if_neg hyx] at h
          rw [if_neg hyx, if_neg hxy]
          have hc : x = y := char_eq_of_toNat_eq (by omega)
          apply ih _ h
          intro hab
          exact hne (by rw [hc, hab])

theorem strLt_ne {a b : List Char} (h : strLt a b = true) : a ≠ b := by
  intro hab
  rw [hab, strLt_irrefl] at h
  cases h

/-! ## The tally map -/

theorem mapIncrement_mem_or (E : List (List Char × Int)) (key : List Char) :
    ∀ p ∈ mapIncrement E key, p.1 = key ∨ p ∈ E := by
  induction E with
  | nil =>
    intro p hp
    simp only [mapIncrement, List.mem_singleton] at hp
    left; rw [hp]
  | cons e E ih =>
    intro p hp
    obtain ⟨k, n⟩ := e
    unfold mapIncrement at hp
    by_cases h1 : key = k
    · rw [if_pos h1] at hp
      rcases List.mem_cons.mp hp with rfl | hp
      · left; exact h1.symm
      · right; exact List.mem_cons_of_mem _ hp
    · rw [if_neg h1] at hp
      by_cases h2 : strLt key k = true
      · rw [if_pos h2] at hp
        rcases List.mem_cons.mp hp with rfl | hp
        · left; rfl
        · right; exact hp
      · rw [if_neg h2] at hp
        rcases List.mem_cons.mp hp with rfl | hp
        · right; exact List.mem_cons_self _ _
        · rcases ih p hp with h | h
          · left; exact h
          · right; exact List.mem_cons_of_mem _ h

theorem mapIncrement_keeps (E : List (List Char × Int)) (key : List Char) :
    ∀ p ∈ E, p.1 ≠ key → p ∈ mapIncrement E key := by
  induction E with
  | nil => intro p hp; cases hp
  | cons e E ih =>
    intro p hp hne
    obtain ⟨k, n⟩ := e
    unfold mapIncrement
    by_cases h1 : key = k
    · rw [if_pos h1]
      rcases List.mem_cons.mp hp with rfl | hp
      · exact absurd h1.symm hne
      · exact List.mem_cons_of_mem _ hp
    · rw [if_neg h1]
      by_cases h2 : strLt key k = true
      · rw [if_pos h2]
        exact List.mem_cons_of_mem _ hp
      · rw [if_neg h2]
        rcases List.mem_cons.mp hp with rfl | hp
        · exact List.mem_cons_self _ _
        · exact List.mem_cons_of_mem _ (ih p hp hne)

theorem mapIncrement_has_key (E : List (List Char × Int)) (key : List Char) :
    ∃ p ∈ mapIncrement E key, p.1 = key := by
  induction E with
  | nil => exact ⟨(key, 1), by simp [mapIncrement], rfl⟩
  | cons e E ih =>
    obtain ⟨k, n⟩ := e
    unfold mapIncrement
    by_cases h1 : key = k
    · rw [if_pos h1]
      exact ⟨(k, n + 1), List.mem_cons_self _ _, h1.symm⟩
    · rw [if_neg h1]
      by_cases h2 : strLt key k = true
      · rw [if_pos h2]
        exact ⟨(key, 1), List.mem_cons_self _ _, rfl⟩
      · rw [if_neg h2]
        obtain ⟨p, hp, hk⟩ := ih
        exact ⟨p, List.mem_cons_of_mem _ hp, hk⟩

theorem mapIncrement_sorted {E : List (List Char × Int)}
    (hs : E.Pairwise (fun a b => strLt a.1 b.1 = true)) (key : List Char) :
    (mapIncrement E key).Pairwise (fun a b => strLt a.1 b.1 = true) := by
  induction E with
  | nil => simp [mapIncrement]
  | cons e E ih =>
    obtain ⟨k, n⟩ := e
    rw [List.pairwise_cons] at hs
    unfold mapIncrement
    by_cases h1 : key = k
    · rw [if_pos h1, List.pairwise_cons]
      exact ⟨hs.1, hs.2⟩
    · rw [if_neg h1]
      by_cases h2 : strLt key k = true
      · rw [if_pos h2, List.pairwise_cons, List.pairwise_cons]
        refine ⟨?_, hs.1, hs.2⟩
        intro p hp
        rcases List.mem_cons.mp hp with rfl | hp
        · exact h2
        · exact strLt_trans h2 (hs.1 p hp)
      · rw [if_neg h2, List.pairwise_cons]
        refine ⟨?_, ih hs.2⟩
        intro p hp
        rcases mapIncrement_mem_or E key p hp with h | h
        · rw [h]
          exact strLt_total h1 (by simpa using h2)
        · exact hs.1 p h

theorem mapIncrement_count {E : List (List Char × Int)}
    (hs : E.Pairwise (fun a b => strLt a.1 b.1 = true)) (key : List Char) :
    ∀ p ∈ mapIncrement E key, p.1 = key →
      (∃ n, (key, n) ∈ E ∧ p.2 = n + 1) ∨ ((∀ q ∈ E, q.1 ≠ key) ∧ p.2 = 1) := by
  induction E with
  | nil =>
    intro p hp _
    simp only [mapIncrement, List.mem_singleton] at hp
    right
    exact ⟨(by intro q hq; cases hq), (by rw [hp])⟩
  | cons e E ih =>
    intro p hp hpk
    obtain ⟨k, n⟩ := e
    rw [List.pairwise_cons] at hs
    unfold mapIncrement at hp
    by_cases h1 : key = k
    · rw [if_pos h1] at hp
      subst h1
      rcases List.mem_cons.mp hp with rfl | hp
      · left; exact ⟨n, List.mem_cons_self _ _, rfl⟩
      · exact absurd hpk.symm (strLt_ne (hs.1 p hp))
    · rw [if_neg h1] at hp
      by_cases h2 : strLt key k = true
      · rw [if_pos h2] at hp
        have hfresh : ∀ q ∈ (k, n) :: E, q.1 ≠ key := by
          intro q hq
          rcases List.mem_cons.mp hq with rfl | hq
          · exact fun h => h1 h.symm
          · exact fun h => strLt_ne (strLt_trans h2 (hs.1 q hq)) h.symm
        rcases List.mem_cons.mp hp with rfl | hp
        · right; exact ⟨hfresh, rfl⟩
        · exact absurd hpk (hfresh p hp)
      · rw [if_neg h2] at hp
        rcases List.mem_cons.mp hp with rfl | hp
        · exact absurd hpk.symm h1
        · rcases ih hs.2 p hp hpk with ⟨m, hm, hpm⟩ | ⟨hfresh, hp1⟩
          · left; exact ⟨m, List.mem_cons_of_mem _ hm, hpm⟩
          · right
            refine ⟨?_, hp1⟩
            intro q hq
            rcases List.mem_cons.mp hq with rfl | hq
            · exact fun h => h1 h.symm
            · exact hfresh q hq

/-- The tally of a list of keys: the map is sorted by key, every entry holds
the number of occurrences of its key, and every key has an entry. -/
theorem tallyKeys_spec (keys : List (List Char)) :
    (keys.foldl mapIncrement []).Pairwise (fun a b => strLt a.1 b.1 = true) ∧
    (∀ p ∈ keys.foldl mapIncrement [], p.2 = (keys.count p.1 : Int) ∧ p.1 ∈ keys) ∧
    (∀ k ∈ keys, ∃ p ∈ keys.foldl mapIncrement [], p.1 = k) := by
  induction keys using List.reverseRecOn with
  | nil =>
    refine ⟨List.Pairwise.nil, ?_, ?_⟩
    · intro p hp; cases hp
    · intro k hk; cases hk
  | append_singleton l a ih =>
    obtain ⟨i1, i2, i3⟩ := ih
    rw [List.foldl_append, List.foldl_cons, List.foldl_nil]
    refine ⟨mapIncrement_sorted i1 a, ?_, ?_⟩
    · intro p hp
      by_cases hpa : p.1 = a
      · refine ⟨?_, by rw [hpa]; simp⟩
        rw [List.count_append, hpa]
        simp only [List.count_singleton, beq_self_eq_true, if_true]
        rcases mapIncrement_count i1 a p hp hpa with ⟨n, hn, hpn⟩ | ⟨hfresh, hp1⟩
        · have := (i2 (a, n) hn).1
          simp only at this
          rw [hpn, this]; push_cast; ring
        · have hnot : a ∉ l := by
            intro hal
            obtain ⟨q, hq, hqa⟩ := i3 a hal
            exact hfresh q hq hqa
          rw [hp1, List.count_eq_zero_of_not_mem hnot]; simp
      · rcases mapIncrement_mem_or _ a p hp with h | h
        · exact absurd h hpa
        · obtain ⟨c1, c2⟩ := i2 p h
          refine ⟨?_, List.mem_append_left _ c2⟩
          rw [List.count_append, c1]
          have : List.count p.1 [a] = 0 := by
            rw [List.count_singleton]
            simp only [beq_iff_eq, ite_eq_right_iff, one_ne_zero, imp_false]
            exact fun h => hpa h.symm
          rw [this]; simp
    · intro k hk
      by_cases hka : k = a
      · rw [hka]; exact mapIncrement_has_key _ a
      · rcases List.mem_append.mp hk with hk | hk
        · obtain ⟨p, hp, hpk⟩ := i3 k hk
          exact ⟨p, mapIncrement_keeps _ a p hp (by rw [hpk]; exact hka), hpk⟩
        · exact absurd (List.mem_singleton.mp hk) hka

/-- The selection loop, from any state: the result is the first entry with
the largest count. -/
theorem selectMax_fold (R : (List Char × Int) → (List Char × Int) → Prop) :
    ∀ (L : List (List Char × Int)) (st : List Char × Int), L.Pairwise R →
      (∀ p ∈ L, st.2 = 0 ∨ R st p) → (∀ p ∈ L, 1 ≤ p.2) →
      (L.foldl (fun st pair => if pair.2 > st.2 then (pair.1, pair.2) else st) st = st ∨
        L.foldl (fun st pair => if pair.2 > st.2 then (pair.1, pair.2) else st) st ∈ L) ∧
      (L.foldl (fun st pair => if pair.2 > st.2 then (pair.1, pair.2) else st) st = st ∨
        st.2 < (L.foldl (fun st pair => if pair.2 > st.2 then (pair.1, pair.2) else st) st).2) ∧
      ∀ p ∈ L,
        p.2 ≤ (L.foldl (fun st pair => if pair.2 > st.2 then (pair.1, pair.2) else st) st).2 ∧
        (p.2 = (L.foldl (fun st pair => if pair.2 > st.2 then (pair.1, pair.2) else st) st).2 →
          p = L.foldl (fun st pair => if pair.2 > st.2 then (pair.1, pair.2) else st) st ∨
          R (L.foldl (fun st pair => if pair.2 > st.2 then (pair.1, pair.2) else st) st) p) := by
  intro L
  induction L with
  | nil =>
    intro st _ _ _
    exact ⟨Or.inl rfl, Or.inl rfl, by intro p hp; cases hp⟩
  | cons p L ih =>
    intro st hpw hst hpos
    rw [List.pairwise_cons] at hpw
    rw [List.foldl_cons]
    by_cases hgt : p.2 > st.2
    · rw [if_pos hgt, Prod.mk.eta]
      obtain ⟨e1, e2, e3⟩ := ih p hpw.2 (fun q hq => Or.inr (hpw.1 q hq))
        (fun q hq => hpos q (List.mem_cons_of_mem _ hq))
      generalize L.foldl (fun st pair => if pair.2 > st.2 then (pair.1, pair.2) else st) p
        = r at e1 e2 e3
      have hpr : p.2 ≤ r.2 := by
        rcases e2 with h | h
        · rw [h]
        · omega
      refine ⟨?_, Or.inr (by omega), ?_⟩
      · right
        rcases e1 with h | h
        · rw [h]; exact List.mem_cons_self _ _
        · exact List.mem_cons_of_mem _ h
      · intro q hq
        rcases List.mem_cons.mp hq with rfl | hq
        · refine ⟨hpr, ?_⟩
          intro heq
          rcases e2 with h | h
          · left; exact h.symm
          · omega
        · exact e3 q hq
    · rw [if_neg hgt]
      obtain ⟨e1, e2, e3⟩ := ih st hpw.2 (fun q hq => hst q (List.mem_cons_of_mem _ hq))
        (fun q hq => hpos q (List.mem_cons_of_mem _ hq))
      generalize L.foldl (fun st pair => if pair.2 > st.2 then (pair.1, pair.2) else st) st
        = r at e1 e2 e3
      have hsr : st.2 ≤ r.2 := by
        rcases e2 with h | h
        · rw [h]
        · omega
      refine ⟨?_, e2, ?_⟩
      · rcases e1 with h | h
        · left; exact h
        · right; exact List.mem_cons_of_mem _ h
      · intro q hq
        rcases List.mem_cons.mp hq with rfl | hq
        · refine ⟨by omega, ?_⟩
          intro heq
          have hp1 := hpos q (List.mem_cons_self _ _)
          rcases e2 with h | h
          · rw [h]
            rcases hst q (List.mem_cons_self _ _) with h0 | hR
            · omega
            · right; exact hR
          · omega
        · exact e3 q hq

theorem selectMax_spec {E : List (List Char × Int)} (hne : E ≠ [])
    (hs : E.Pairwise (fun a b => strLt a.1 b.1 = true)) (hpos : ∀ p ∈ E, 1 ≤ p.2) :
    selectMax E ∈ E ∧
    ∀ p ∈ E, p.2 ≤ (selectMax E).2 ∧
      (p.2 = (selectMax E).2 → p = selectMax E ∨ strLt (selectMax E).1 p.1 = true) := by
  obtain ⟨e1, e2, e3⟩ := selectMax_fold (fun a b => strLt a.1 b.1 = true) E ([], 0) hs
    (fun p _ => Or.inl rfl) hpos
  unfold selectMax
  refine ⟨?_, e3⟩
  rcases e1 with h | h
  · exfalso
    cases E with
    | nil => exact hne rfl
    | cons p E =>
      have h1 := (e3 p (List.mem_cons_self _ _)).1
      have h2 := hpos p (List.mem_cons_self _ _)
      rw [h] at h1
      simp only at h1
      omega
  · exact h

/-! ## The test run -/

theorem tally_ok : ∀ (combos : List (List Share)) (secrets : List BigInt)
    (E : List (List Char × Int)), combos.map findSecret = secrets.map Except.ok →
    tally combos E = .ok ((secrets.map BigInt.value).foldl mapIncrement E) := by
  intro combos
  induction combos with
  | nil =>
    intro secrets E h
    cases secrets with
    | nil => rfl
    | cons _ _ => simp at h
  | cons combo combos ih =>
    intro secrets E h
    cases secrets with
    | nil => simp at h
    | cons secret secrets =>
      simp only [List.map_cons, List.cons.injEq] at h
      rw [tally, h.1]
      simp only [List.map_cons, List.foldl_cons]
      exact ih secrets _ h.2

theorem goodKeys_ok (w : List Char) : ∀ (combos : List (List Share)),
    (∀ combo ∈ combos, ∃ secret, findSecret combo = .ok secret) → ∀ keys : List (List Char),
    ∃ out : List (List Char), goodKeys w combos keys = .ok out ∧
      ∀ id, id ∈ out ↔ (id ∈ keys ∨ ∃ combo ∈ combos,
        (∃ secret, findSecret combo = .ok secret ∧ secret.value = w) ∧
          ∃ s ∈ combo, s.x = id) := by
  intro combos
  induction combos with
  | nil =>
    intro _ keys
    exact ⟨keys, rfl, by intro id; simp⟩
  | cons combo combos ih =>
    intro hall keys
    obtain ⟨secret, hsec⟩ := hall combo (List.mem_cons_self _ _)
    have hall2 : ∀ c ∈ combos, ∃ secret, findSecret c = .ok secret :=
      fun c hc => hall c (List.mem_cons_of_mem _ hc)
    rw [goodKeys, hsec]
    simp only
    by_cases hv : secret.value = w
    · rw [if_pos hv]
      obtain ⟨out, e1, e2⟩ := ih hall2 (keys ++ combo.map (fun share => share.x))
      refine ⟨out, e1, ?_⟩
      intro id
      rw [e2 id]
      constructor
      · rintro (h | ⟨c, hc, hag, hs⟩)
        · rcases List.mem_append.mp h with h | h
          · left; exact h
          · right
            rw [List.mem_map] at h
            exact ⟨combo, List.mem_cons_self _ _, ⟨secret, hsec, hv⟩, h⟩
        · right; exact ⟨c, List.mem_cons_of_mem _ hc, hag, hs⟩
      · rintro (h | ⟨c, hc, hag, hs⟩)
        · left; exact List.mem_append_left _ h
        · rcases List.mem_cons.mp hc with rfl | hc
          · left
            apply List.mem_append_right
            rw [List.mem_map]
            exact hs
          · right; exact ⟨c, hc, hag, hs⟩
    · rw [if_neg hv]
      obtain ⟨out, e1, e2⟩ := ih hall2 keys
      refine ⟨out, e1, ?_⟩
      intro id
      rw [e2 id]
      constructor
      · rintro (h | ⟨c, hc, hag, hs⟩)
        · left; exact h
        · right; exact ⟨c, List.mem_cons_of_mem _ hc, hag, hs⟩
      · rintro (h | ⟨c, hc, hag, hs⟩)
        · left; exact h
        · rcases List.mem_cons.mp hc with rfl | hc
          · obtain ⟨s2, hs2, hv2⟩ := hag
            rw [hsec] at hs2
            cases hs2
            exact absurd hv2 hv
          · right; exact ⟨c, hc, hag, hs⟩

theorem mem_badKeys (all_shares : List Share) (keys : List (List Char)) (id : List Char) :
    id ∈ badKeys all_shares keys ↔ (∃ s ∈ all_shares, s.x = id) ∧ id ∉ keys := by
  have hc : ∀ x : List Char, keys.contains x = false ↔ x ∉ keys := by
    intro x
    rw [← Bool.not_eq_true]
    simp
  unfold badKeys
  simp only [List.mem_map, List.mem_filter, Bool.not_eq_true']
  constructor
  · rintro ⟨s, ⟨hs, hk⟩, rfl⟩
    exact ⟨⟨s, hs, rfl⟩, (hc _).mp hk⟩
  · rintro ⟨⟨s, hs, rfl⟩, hk⟩
    exact ⟨s, ⟨hs, (hc _).mpr hk⟩, rfl⟩

theorem badKeys_sublist (all_shares : List Share) (keys : List (List Char)) :
    (badKeys all_shares keys).Sublist (all_shares.map (fun share => share.x)) := by
  unfold badKeys
  exact (List.filter_sublist _).map _

/-- A test run in which every reconstruction returns a value returns a
result: the selected key of the tally and the ids outside the good
combinations. -/
theorem consensus_ok (all_shares : List Share) (k : Nat) (secrets : List BigInt)
    (hs : (generateCombinations all_shares 0 k [] []).map findSecret
      = secrets.map Except.ok) :
    ∃ keys : List (List Char),
      consensus all_shares k
        = .ok ((selectMax ((secrets.map BigInt.value).foldl mapIncrement [])).1,
            badKeys all_shares keys) ∧
      ∀ id, id ∈ keys ↔ ∃ combo ∈ generateCombinations all_shares 0 k [] [],
        (∃ secret, findSecret combo = .ok secret ∧
          secret.value = (selectMax ((secrets.map BigInt.value).foldl mapIncrement [])).1) ∧
        ∃ s ∈ combo, s.x = id := by
  have hall : ∀ combo ∈ generateCombinations all_shares 0 k [] [],
      ∃ secret, findSecret combo = .ok secret := by
    intro combo hc
    have hm : findSecret combo ∈ (generateCombinations all_shares 0 k [] []).map findSecret :=
      List.mem_map.mpr ⟨combo, hc, rfl⟩
    rw [hs, List.mem_map] at hm
    obtain ⟨secret, -, h⟩ := hm
    exact ⟨secret, h.symm⟩
  obtain ⟨out, e1, e2⟩ := goodKeys_ok
    (selectMax ((secrets.map BigInt.value).foldl mapIncrement [])).1
    (generateCombinations all_shares 0 k [] []) hall []
  refine ⟨out, ?_, ?_⟩
  · unfold consensus
    simp only [tally_ok _ secrets [] hs, e1]
  · intro id
    rw [e2 id]
    simp

theorem count_value_of_nonneg : ∀ (secrets : List BigInt),
    (∀ c ∈ secrets, c.is_negative = false) → ∀ c : BigInt, c.is_negative = false →
    secrets.count c = (secrets.map BigInt.value).count c.value := by
  intro secrets
  induction secrets with
  | nil => intro _ c _; rfl
  | cons a secrets ih =>
    intro hnn c hc
    have ha := hnn a (List.mem_cons_self _ _)
    rw [List.map_cons, List.count_cons, List.count_cons,
      ih (fun x hx => hnn x (List.mem_cons_of_mem _ hx)) c hc]
    have : (a == c) = (a.value == c.value) := by
      cases a; cases c
      simp only at ha hc
      subst ha; subst hc
      simp
    rw [this]

theorem mem_combo_iff {all_shares : List Share}
    (hd : (all_shares.map (fun share => share.x)).Nodup) {k : Nat} {combo : List Share}
    (hc : combo ∈ generateCombinations all_shares 0 k [] []) {s : Share}
    (hs : s ∈ all_shares) : (∃ t ∈ combo, t.x = s.x) ↔ s ∈ combo := by
  have hsub : combo.Sublist all_shares := by
    rw [(generateCombinations_top all_shares k).mem_iff, List.mem_sublistsLen] at hc
    exact hc.1
  constructor
  · rintro ⟨t, ht, htx⟩
    have := List.inj_on_of_nodup_map hd (hsub.subset ht) hs htx
    rw [← this]; exact ht
  · intro h
    exact ⟨s, h, rfl⟩

/-! # The claims, continued -/

/-- C11 fails as stated: for `k = 0 < n` the only produced subset is the
empty one, which contains no item. -/
theorem generateCombinations_cover_counterexample :
    0 < ([1] : List Nat).length ∧
    ¬ ∀ x ∈ ([1] : List Nat), ∃ c ∈ generateCombinations ([1] : List Nat) 0 0 [] [], x ∈ c := by
  decide

/-- C11, amended. For `1 ≤ k < n`, every item of the list occurs in at least
one subset produced by `generateCombinations` started at index 0 with empty
accumulators. -/
theorem generateCombinations_covers {α : Type} (items : List α) (k : Nat) (h1 : 1 ≤ k)
    (hk : k < items.length) :
    ∀ x ∈ items, ∃ c ∈ generateCombinations items 0 k [] [], x ∈ c := by
  intro x hx
  obtain ⟨c, hc1, hc2, hc3⟩ := exists_sublist_of_mem hx h1 (le_of_lt hk)
  refine ⟨c, ?_, hc3⟩
  rw [(generateCombinations_top items k).mem_iff, List.mem_sublistsLen]
  exact ⟨hc1, hc2⟩

/-- Witness for C11: the 2-element subsets of three items cover them. -/
theorem generateCombinations_covers_witness :
    ∃ c ∈ generateCombinations ([1, 2, 3] : List Nat) 0 2 [] [], 3 ∈ c :=
  generateCombinations_covers [1, 2, 3] 2 (by decide) (by decide) 3 (by decide)

/-- C12. For decimal digit strings `s` and `t` (possibly empty or with
leading zeros) and sign flags `m` and `n`, the constructor yields canonical
values, and `BigInt(s, m) == BigInt(t, n)` holds if and only if the two
denote the same integer. -/
theorem constructor_canonical_unique (s t : List Char) (m n : Bool) (hs : AllDigits s)
    (ht : AllDigits t) :
    (BigInt.new s m).Canonical ∧ (BigInt.new t n).Canonical ∧
    (BigInt.new s m).toInt = signedValue s m ∧ (BigInt.new t n).toInt = signedValue t n ∧
    ((BigInt.new s m).operatorEq (BigInt.new t n) = true ↔
      signedValue s m = signedValue t n) := by
  have c1 := canonical_new hs m
  have c2 := canonical_new ht n
  refine ⟨c1, c2, toInt_new_signedValue hs m, toInt_new_signedValue ht n, ?_⟩
  rw [operatorEq_iff, ← toInt_new_signedValue hs m, ← toInt_new_signedValue ht n]
  constructor
  · intro h; rw [h]
  · exact canonical_injective c1 c2

/-- Witness for C12: `BigInt("007") == BigInt("7")` and
`BigInt("0", true) == BigInt("0")`. -/
theorem constructor_canonical_unique_witness :
    (BigInt.new ['0', '0', '7'] false).operatorEq (BigInt.new ['7'] false) = true ∧
    (BigInt.new ['0'] true).operatorEq (BigInt.new ['0'] false) = true :=
  ⟨(constructor_canonical_unique ['0', '0', '7'] ['7'] false false (by decide)
      (by decide)).2.2.2.2.mpr (by decide),
   (constructor_canonical_unique ['0'] ['0'] true false (by decide)
      (by decide)).2.2.2.2.mpr (by decide)⟩

/-- C16. For canonical `a` and `b` with `b ≠ 0` (of any sign, in particular
non-negative), `divide(multiply(a, b), b)` returns a value, and the value is
`a`: `operator==` holds, digit string and sign flag are those of `a`. -/
theorem divide_multiply_round_trip (a b : BigInt) (ha : a.Canonical) (hb : b.Canonical)
    (hb0 : b.toInt ≠ 0) :
    ∃ q : BigInt, (a.multiply b).divide b = .ok q ∧ q.operatorEq a = true ∧ q = a := by
  obtain ⟨m1, m2⟩ := multiply_spec ha.1 hb.1
  obtain ⟨q, d1, d2, d3, -⟩ := (divide_spec m1 hb).2 hb0
  have hq : q = a := by
    apply canonical_injective d2 ha
    rw [d3, m2]
    exact Int.mul_tdiv_cancel _ hb0
  exact ⟨q, d1, (operatorEq_iff q a).mpr hq, hq⟩

/-- Witness for C16: `(12 * 5) / 5` is `12`. -/
theorem divide_multiply_round_trip_witness :
    ∃ q : BigInt,
      ((BigInt.new ['1', '2'] false).multiply (BigInt.new ['5'] false)).divide
          (BigInt.new ['5'] false) = .ok q ∧
      q.operatorEq (BigInt.new ['1', '2'] false) = true ∧ q = BigInt.new ['1', '2'] false :=
  divide_multiply_round_trip _ _ (by decide) (by decide) (by decide)

/-- C17. For canonical `a` and `b` of any signs, `add(a, b)` and `add(b, a)`
are the same value: `operator==` holds, with identical digit string and
identical sign flag. -/
theorem add_commutative (a b : BigInt) (ha : a.Canonical) (hb : b.Canonical) :
    (a.add b).operatorEq (b.add a) = true ∧ (a.add b).value = (b.add a).value ∧
      (a.add b).is_negative = (b.add a).is_negative := by
  obtain ⟨c1, v1⟩ := add_spec ha.1 hb.1
  obtain ⟨c2, v2⟩ := add_spec hb.1 ha.1
  have h : a.add b = b.add a := by
    apply canonical_injective c1 c2
    rw [v1, v2]; ring
  exact ⟨(operatorEq_iff _ _).mpr h, by rw [h], by rw [h]⟩

/-- Witness for C17: `-12 + 5` and `5 + -12`. -/
theorem add_commutative_witness :
    ((BigInt.new ['1', '2'] true).add (BigInt.new ['5'] false)).operatorEq
      ((BigInt.new ['5'] false).add (BigInt.new ['1', '2'] true)) = true :=
  (add_commutative _ _ (by decide) (by decide)).1

/-- C18. For shares with valid encodings and pairwise distinct x values,
`findSecret` returns the sum over `j` of the `j`-th Lagrange term divided on
its own with truncation toward zero; whenever each denominator divides its
numerator `y_j * prod (0 - x_i)`, the result is the exact value of the
Lagrange sum at zero. -/
theorem findSecret_truncated_terms (shares : List Share) (hw : ∀ s ∈ shares, s.WellFormed)
    (hx : (shares.map Share.xValue).Nodup) :
    ∃ r : BigInt, findSecret shares = .ok r ∧ r.Canonical ∧
      r.toInt = truncatedLagrange (shares.map Share.xValue) (shares.map Share.yValue) ∧
      ((∀ j, j < shares.length →
          lagrangeDenominator (shares.map Share.xValue) j ∣
            (shares.map Share.yValue).getD j 0 * lagrangeNumerator (shares.map Share.xValue) j) →
        ((r.toInt : Int) : ℚ)
          = exactLagrange (shares.map Share.xValue) (shares.map Share.yValue)) := by
  obtain ⟨r, e1, e2, e3⟩ := findSecret_spec shares hw hx
  refine ⟨r, e1, e2, e3, ?_⟩
  intro hdvd
  rw [e3]
  apply truncated_eq_exact hx
  intro j hj
  rw [List.length_map] at hj
  exact hdvd j hj

/-- Witness for C18: the shares `(1, 4)`, `(2, 7)`, `(3, 12)` give
`12 - 21 + 12 = 3`. -/
theorem findSecret_truncated_terms_witness :
    ∃ r : BigInt,
      findSecret [Share.mk ['1'] ['4'] 10, Share.mk ['2'] ['7'] 10,
        Share.mk ['3'] ['1', '2'] 10] = .ok r ∧ r.Canonical ∧ r.toInt = 12 - 21 + 12 := by
  obtain ⟨r, h1, h2, h3, -⟩ := findSecret_truncated_terms
    [Share.mk ['1'] ['4'] 10, Share.mk ['2'] ['7'] 10, Share.mk ['3'] ['1', '2'] 10]
    (by decide) (by decide)
  exact ⟨r, h1, h2, by rw [h3]; decide⟩

/-- C20. For shares whose ids are decimal digit strings and whose encoded
values are valid for their bases, `findSecret` fails if and only if two
shares at different positions have numerically equal x values, and the
failure is the "Division by zero" of `divide`; when all x values are
pairwise distinct it returns a value, and for a single share it returns the
decoded y of that share. -/
theorem findSecret_fails_iff_equal_x (shares : List Share)
    (hw : ∀ s ∈ shares, s.WellFormed) :
    ((∃ e, findSecret shares = .error e) ↔
      ∃ i j, i < j ∧ j < shares.length ∧
        (shares.map Share.xValue).getD i 0 = (shares.map Share.xValue).getD j 0) ∧
    ((∃ e, findSecret shares = .error e) → findSecret shares = .error .divisionByZero) ∧
    ((shares.map Share.xValue).Nodup → ∃ r : BigInt, findSecret shares = .ok r ∧ r.Canonical ∧
      r.toInt = truncatedLagrange (shares.map Share.xValue) (shares.map Share.yValue)) ∧
    (∀ s : Share, shares = [s] → ∃ r : BigInt, findSecret shares = .ok r ∧
      BigInt.fromBase s.y s.base = .ok r ∧ r.toInt = s.yValue) := by
  have hfail : (∃ e, findSecret shares = .error e) → ¬ (shares.map Share.xValue).Nodup := by
    rintro ⟨e, he⟩ hn
    obtain ⟨r, hr, -⟩ := findSecret_spec shares hw hn
    rw [hr] at he; cases he
  refine ⟨⟨?_, ?_⟩, ?_, findSecret_spec shares hw, ?_⟩
  · intro h
    obtain ⟨i, j, hij, hj, he⟩ := exists_equal_positions (hfail h)
    exact ⟨i, j, hij, by simpa using hj, he⟩
  · rintro ⟨i, j, hij, hj, he⟩
    exact ⟨_, findSecret_duplicate shares hw
      (not_nodup_of_equal_positions hij (by simpa using hj) he)⟩
  · intro h
    exact findSecret_duplicate shares hw (hfail h)
  · intro s hs
    subst hs
    obtain ⟨r, e1, e2, e3⟩ := findSecret_spec [s] hw (by simp)
    obtain ⟨-, h2, h36, hv⟩ := hw s (List.mem_singleton.mpr rfl)
    obtain ⟨y, f1, f2, f3⟩ := fromBase_ok h2 h36 hv
    have hval : r.toInt = s.yValue := by
      rw [e3]
      simp only [List.map_cons, List.map_nil]
      exact truncatedLagrange_singleton _ _
    have : y = r := canonical_injective f2 e2 (by rw [f3, hval]; rfl)
    exact ⟨r, e1, by rw [f1, this], hval⟩

/-- Witness for C20: the ids `"1"` and `"01"` are the same x value. -/
theorem findSecret_fails_iff_equal_x_witness :
    findSecret [Share.mk ['1'] ['4'] 10, Share.mk ['0', '1'] ['7'] 10]
      = .error .divisionByZero :=
  (findSecret_fails_iff_equal_x
    [Share.mk ['1'] ['4'] 10, Share.mk ['0', '1'] ['7'] 10] (by decide)).2.1
    (((findSecret_fails_iff_equal_x
      [Share.mk ['1'] ['4'] 10, Share.mk ['0', '1'] ['7'] 10] (by decide)).1).mpr
      ⟨0, 1, by decide, by decide, by decide⟩)

/-- C19 fails as stated: with the ids `"-1"`, `"2"`, `"A"`, which are not
decimal digit strings, swapping the first two shares changes the result of
`findSecret` from `8` to `6` (the denominator of the third term is built as
`"90-60"` in one order and as `"810"` in the other). -/
theorem findSecret_order_counterexample :
    [Share.mk ['-', '1'] ['4'] 10, Share.mk ['2'] ['7'] 10,
        Share.mk ['A'] ['1', '2'] 10].Perm
      [Share.mk ['2'] ['7'] 10, Share.mk ['-', '1'] ['4'] 10,
        Share.mk ['A'] ['1', '2'] 10] ∧
    findSecret [Share.mk ['-', '1'] ['4'] 10, Share.mk ['2'] ['7'] 10,
        Share.mk ['A'] ['1', '2'] 10] = .ok (BigInt.mk ['8'] false) ∧
    findSecret [Share.mk ['2'] ['7'] 10, Share.mk ['-', '1'] ['4'] 10,
        Share.mk ['A'] ['1', '2'] 10] = .ok (BigInt.mk ['6'] false) :=
  ⟨List.Perm.swap _ _ _, by rfl, by rfl⟩

/-- C19, amended. For shares whose ids are decimal digit strings, the order
of the shares does not affect `findSecret`: on a permutation of the list it returns
the same `BigInt`, and it fails on one list exactly when it fails on the
other. -/
theorem findSecret_order_independent (l l2 : List Share) (hp : l.Perm l2)
    (hid : ∀ s ∈ l, AllDigits s.x) :
    (∀ r : BigInt, findSecret l = .ok r ↔ findSecret l2 = .ok r) ∧
    ((∃ e, findSecret l = .error e) ↔ ∃ e, findSecret l2 = .error e) := by
  have hid2 : ∀ s ∈ l2, AllDigits s.x := fun s hs => hid s (hp.mem_iff.mpr hs)
  have hok : ∀ r : BigInt, findSecret l = .ok r ↔ findSecret l2 = .ok r := fun r =>
    ⟨findSecret_perm_ok hp hid, findSecret_perm_ok hp.symm hid2⟩
  refine ⟨hok, ?_⟩
  constructor
  · rintro ⟨e, he⟩
    cases h2 : findSecret l2 with
    | error e2 => exact ⟨e2, rfl⟩
    | ok r =>
      have := (hok r).mpr h2
      rw [this] at he; cases he
  · rintro ⟨e, he⟩
    cases h1 : findSecret l with
    | error e1 => exact ⟨e1, rfl⟩
    | ok r =>
      have := (hok r).mp h1
      rw [this] at he; cases he

/-- Witness for C19: the shares `(1, 4)`, `(2, 7)`, `(3, 12)` and the same
shares in the order 3, 1, 2. -/
theorem findSecret_order_independent_witness :
    findSecret [Share.mk ['3'] ['1', '2'] 10, Share.mk ['1'] ['4'] 10,
      Share.mk ['2'] ['7'] 10] = .ok (BigInt.new ['3'] false) :=
  ((findSecret_order_independent
    [Share.mk ['1'] ['4'] 10, Share.mk ['2'] ['7'] 10, Share.mk ['3'] ['1', '2'] 10]
    [Share.mk ['3'] ['1', '2'] 10, Share.mk ['1'] ['4'] 10, Share.mk ['2'] ['7'] 10]
    (by decide) (by decide)).1 (BigInt.new ['3'] false)).mp (by rfl)

/-- C13 fails on the code: on the shares `(1, 2)`, `(2, 5)`, `(3, 4)` with
`k = 2` the candidates are `-1`, `1` and `7`; the tally counts `-1` and `1`
under the one key `"1"`, and the run prints the secret `1`. -/
theorem tally_merges_opposite_signs :
    (generateCombinations [Share.mk ['1'] ['2'] 10, Share.mk ['2'] ['5'] 10,
        Share.mk ['3'] ['4'] 10] 0 2 [] []).map findSecret
      = [.ok (BigInt.mk ['1'] true), .ok (BigInt.mk ['1'] false),
         .ok (BigInt.mk ['7'] false)] ∧
    tally (generateCombinations [Share.mk ['1'] ['2'] 10, Share.mk ['2'] ['5'] 10,
        Share.mk ['3'] ['4'] 10] 0 2 [] []) []
      = .ok [(['1'], 2), (['7'], 1)] ∧
    consensus [Share.mk ['1'] ['2'] 10, Share.mk ['2'] ['5'] 10,
        Share.mk ['3'] ['4'] 10] 2
      = .ok (['1'], []) :=
  ⟨by rfl, by rfl, by rfl⟩

/-- C14 fails as stated: on the shares `(1, 4)`, `(2, 1)`, `(3, 0)` with
`k = 2` the candidates are `7`, `6`, `3`, each once; the first one seen is
`7`, and the run declares `3`. -/
theorem consensus_tie_counterexample :
    (generateCombinations [Share.mk ['1'] ['4'] 10, Share.mk ['2'] ['1'] 10,
        Share.mk ['3'] ['0'] 10] 0 2 [] []).map findSecret
      = [.ok (BigInt.mk ['7'] false), .ok (BigInt.mk ['6'] false),
         .ok (BigInt.mk ['3'] false)] ∧
    ¬ ∃ bad : List (List Char),
      consensus [Share.mk ['1'] ['4'] 10, Share.mk ['2'] ['1'] 10,
        Share.mk ['3'] ['0'] 10] 2 = .ok (['7'], bad) := by
  refine ⟨by rfl, ?_⟩
  rintro ⟨bad, h⟩
  have h2 : consensus [Share.mk ['1'] ['4'] 10, Share.mk ['2'] ['1'] 10,
      Share.mk ['3'] ['0'] 10] 2 = .ok (['3'], [['1']]) := by rfl
  rw [h2] at h
  cases h

/-- C14, amended. When every `k`-subset is reconstructed (there is at least
one) and no candidate is negative, the declared secret is a candidate whose
number of occurrences among the candidates is maximal, and when several
values tie for that count the declared secret is the one whose digit string
is the smallest in the order of `std::string` (the tally is a map, and the
selection walks it in key order). -/
theorem consensus_declares_maximal (all_shares : List Share) (k : Nat)
    (secrets : List BigInt)
    (hs : (generateCombinations all_shares 0 k [] []).map findSecret
      = secrets.map Except.ok)
    (hne : secrets ≠ []) (hnn : ∀ c ∈ secrets, c.is_negative = false) :
    ∃ (w : List Char) (bad : List (List Char)),
      consensus all_shares k = .ok (w, bad) ∧ BigInt.mk w false ∈ secrets ∧
      (∀ c ∈ secrets, secrets.count c ≤ secrets.count (BigInt.mk w false)) ∧
      (∀ c ∈ secrets, secrets.count c = secrets.count (BigInt.mk w false) →
        c ≠ BigInt.mk w false → strLt w c.value = true) := by
  obtain ⟨keys, e1, -⟩ := consensus_ok all_shares k secrets hs
  obtain ⟨t1, t2, t3⟩ := tallyKeys_spec (secrets.map BigInt.value)
  generalize (secrets.map BigInt.value).foldl mapIncrement [] = E at e1 t1 t2 t3
  have hEne : E ≠ [] := by
    cases secrets with
    | nil => exact absurd rfl hne
    | cons c _ =>
      obtain ⟨p, hp, -⟩ := t3 c.value (by simp)
      exact List.ne_nil_of_mem hp
  have hpos : ∀ p ∈ E, 1 ≤ p.2 := by
    intro p hp
    obtain ⟨c1, c2⟩ := t2 p hp
    have := List.count_pos_iff.mpr c2
    rw [c1]; omega
  obtain ⟨m1, m2⟩ := selectMax_spec hEne t1 hpos
  obtain ⟨w1, w2⟩ := t2 _ m1
  have hmem : BigInt.mk (selectMax E).1 false ∈ secrets := by
    rw [List.mem_map] at w2
    obtain ⟨c, hc, hcv⟩ := w2
    have hcn := hnn c hc
    have : c = BigInt.mk (selectMax E).1 false := by
      cases c
      simp only at hcv hcn
      rw [hcv, hcn]
    rw [← this]; exact hc
  have hcw : (secrets.count (BigInt.mk (selectMax E).1 false) : Int) = (selectMax E).2 := by
    rw [count_value_of_nonneg secrets hnn _ rfl, w1]
  have hentry : ∀ c ∈ secrets, ∃ p ∈ E, p.1 = c.value ∧ p.2 = (secrets.count c : Int) := by
    intro c hc
    obtain ⟨p, hp, hpk⟩ := t3 c.value (List.mem_map.mpr ⟨c, hc, rfl⟩)
    refine ⟨p, hp, hpk, ?_⟩
    rw [(t2 p hp).1, hpk, count_value_of_nonneg secrets hnn c (hnn c hc)]
  refine ⟨(selectMax E).1, badKeys all_shares keys, e1, hmem, ?_, ?_⟩
  · intro c hc
    obtain ⟨p, hp, -, hpc⟩ := hentry c hc
    have := (m2 p hp).1
    omega
  · intro c hc hcount hcne
    obtain ⟨p, hp, hpk, hpc⟩ := hentry c hc
    rcases (m2 p hp).2 (by omega) with h | h
    · exfalso
      apply hcne
      have hcn := hnn c hc
      have hv : c.value = (selectMax E).1 := by rw [← hpk, h]
      cases c
      simp only at hv hcn
      rw [hv, hcn]
    · rw [← hpk]; exact h

/-- Witness for C14: three candidates `7`, `6`, `3` tie, and the declared
secret is the smallest digit string. -/
theorem consensus_declares_maximal_witness :
    ∃ (w : List Char) (bad : List (List Char)),
      consensus [Share.mk ['1'] ['4'] 10, Share.mk ['2'] ['1'] 10,
        Share.mk ['3'] ['0'] 10] 2 = .ok (w, bad) ∧
      BigInt.mk w false ∈ [BigInt.mk ['7'] false, BigInt.mk ['6'] false,
        BigInt.mk ['3'] false] ∧
      (∀ c ∈ [BigInt.mk ['7'] false, BigInt.mk ['6'] false, BigInt.mk ['3'] false],
        [BigInt.mk ['7'] false, BigInt.mk ['6'] false, BigInt.mk ['3'] false].count c
          ≤ [BigInt.mk ['7'] false, BigInt.mk ['6'] false, BigInt.mk ['3'] false].count
              (BigInt.mk w false)) ∧
      (∀ c ∈ [BigInt.mk ['7'] false, BigInt.mk ['6'] false, BigInt.mk ['3'] false],
        [BigInt.mk ['7'] false, BigInt.mk ['6'] false, BigInt.mk ['3'] false].count c
          = [BigInt.mk ['7'] false, BigInt.mk ['6'] false, BigInt.mk ['3'] false].count
              (BigInt.mk w false) →
        c ≠ BigInt.mk w false → strLt w c.value = true) :=
  consensus_declares_maximal
    [Share.mk ['1'] ['4'] 10, Share.mk ['2'] ['1'] 10, Share.mk ['3'] ['0'] 10] 2
    [BigInt.mk ['7'] false, BigInt.mk ['6'] false, BigInt.mk ['3'] false]
    (by rfl) (by decide) (by decide)

/-- For shares with pairwise distinct ids, in a run in which every `k`-subset
is reconstructed, a share is reported as an incorrect key if and only if it
belongs to no `k`-subset whose candidate has the digit string of the
declared secret (the comparison `secret.value == correct_secret_str` of the
run); the reported ids are ids of the share list, in its order. -/
theorem consensus_bad_iff_in_no_agreeing_subset (all_shares : List Share) (k : Nat)
    (secrets : List BigInt)
    (hd : (all_shares.map (fun share => share.x)).Nodup)
    (hs : (generateCombinations all_shares 0 k [] []).map findSecret
      = secrets.map Except.ok) :
    ∃ (w : List Char) (bad : List (List Char)),
      consensus all_shares k = .ok (w, bad) ∧
      (∀ s ∈ all_shares, s.x ∈ bad ↔
        ¬ ∃ combo ∈ generateCombinations all_shares 0 k [] [],
          s ∈ combo ∧ ∃ secret, findSecret combo = .ok secret ∧ secret.value = w) ∧
      bad.Sublist (all_shares.map (fun share => share.x)) ∧
      (∀ id ∈ bad, ∃ s ∈ all_shares, s.x = id) := by
  obtain ⟨keys, e1, e2⟩ := consensus_ok all_shares k secrets hs
  refine ⟨_, _, e1, ?_, badKeys_sublist _ _, ?_⟩
  · intro s hsm
    rw [mem_badKeys, e2 s.x]
    constructor
    · rintro ⟨-, hno⟩ ⟨combo, hc, hin, hag⟩
      exact hno ⟨combo, hc, hag, s, hin, rfl⟩
    · intro hno
      refine ⟨⟨s, hsm, rfl⟩, ?_⟩
      rintro ⟨combo, hc, hag, hex⟩
      exact hno ⟨combo, hc, (mem_combo_iff hd hc hsm).mp hex, hag⟩
  · intro id hid
    exact ((mem_badKeys _ _ _).mp hid).1

/-- C15 fails on the code: on the shares `(1, 2)`, `(2, 5)`, `(3, 4)` with
`k = 2` the run declares the secret `1` and reports no incorrect key,
although share 2 belongs to no subset whose candidate is `1` (its subsets
give `-1` and `7`) and share 3 belongs to no subset whose candidate is `-1`
(its subsets give `1` and `7`). -/
theorem consensus_reports_no_key_without_agreeing_subset :
    consensus [Share.mk ['1'] ['2'] 10, Share.mk ['2'] ['5'] 10,
        Share.mk ['3'] ['4'] 10] 2 = .ok (['1'], []) ∧
    (¬ ∃ combo ∈ generateCombinations [Share.mk ['1'] ['2'] 10, Share.mk ['2'] ['5'] 10,
        Share.mk ['3'] ['4'] 10] 0 2 [] [],
      Share.mk ['2'] ['5'] 10 ∈ combo ∧ findSecret combo = .ok (BigInt.mk ['1'] false)) ∧
    (¬ ∃ combo ∈ generateCombinations [Share.mk ['1'] ['2'] 10, Share.mk ['2'] ['5'] 10,
        Share.mk ['3'] ['4'] 10] 0 2 [] [],
      Share.mk ['3'] ['4'] 10 ∈ combo ∧ findSecret combo = .ok (BigInt.mk ['1'] true)) := by
  have hc : generateCombinations [Share.mk ['1'] ['2'] 10, Share.mk ['2'] ['5'] 10,
      Share.mk ['3'] ['4'] 10] 0 2 [] []
      = [[Share.mk ['1'] ['2'] 10, Share.mk ['2'] ['5'] 10],
         [Share.mk ['1'] ['2'] 10, Share.mk ['3'] ['4'] 10],
         [Share.mk ['2'] ['5'] 10, Share.mk ['3'] ['4'] 10]] := by rfl
  have h12 : findSecret [Share.mk ['1'] ['2'] 10, Share.mk ['2'] ['5'] 10]
      = .ok (BigInt.mk ['1'] true) := by rfl
  have h13 : findSecret [Share.mk ['1'] ['2'] 10, Share.mk ['3'] ['4'] 10]
      = .ok (BigInt.mk ['1'] false) := by rfl
  have h23 : findSecret [Share.mk ['2'] ['5'] 10, Share.mk ['3'] ['4'] 10]
      = .ok (BigInt.mk ['7'] false) := by rfl
  refine ⟨by rfl, ?_, ?_⟩
  · rintro ⟨combo, hm, hin, hf⟩
    rw [hc] at hm
    simp only [List.mem_cons, List.mem_singleton, List.not_mem_nil, or_false] at hm
    rcases hm with rfl | rfl | rfl
    · rw [h12] at hf; cases hf
    · revert hin; decide
    · rw [h23] at hf; cases hf
  · rintro ⟨combo, hm, hin, hf⟩
    rw [hc] at hm
    simp only [List.mem_cons, List.mem_singleton, List.not_mem_nil, or_false] at hm
    rcases hm with rfl | rfl | rfl
    · revert hin; decide
    · rw [h13] at hf; cases hf
    · rw [h23] at hf; cases hf

end Hashira
